import Mathlib

/-!
# Verification of the R*-tree core (insertion strategy and nearest-neighbor search)

Shallow embedding of `src/rstar.rs` (the R* insertion strategy) and
`src/nearest_neighbor.rs` (best-first nearest-neighbor search).

Modelling choices:
* The scalar type `S` is instantiated with `ℚ` (the source is generic over a
  numeric scalar; all claims are scalar-generic).  The source's
  `Bounded::max_value` sentinel, used only as an initial value of running
  minima, is modelled as `⊤ : WithTop ℚ`, which has exactly the role the
  finite sentinel plays (every actual value compares below it).
* Points are two-dimensional (`Pt`); the source is generic over the dimension,
  and every claim is observable at dimension 2.
* The envelope type and its operations (`envelope.rs`), the node type
  (`node.rs`) and the tree handle (`rtree.rs`) are not part of the given
  sources; they are modelled from the spec (§3, §6) and marked as such.
* Rust's `BinaryHeap` with the inverted comparison is modelled as a list with
  a `popMin` operation returning a least-key element (leftmost among ties;
  the heap's tie order is unspecified, and every property proved here is
  insensitive to the tie order).
* Payloads `T` are points (`RTreeObject::envelope` is the degenerate box,
  `PointDistance::distance_2` the squared Euclidean distance), matching the
  repository's tests.
-/

namespace RStar

abbrev S : Type := ℚ

/-- A 2-dimensional point over the scalar `S`.  Modelled from the spec:
`Point P — a fixed-dimensional tuple over S` (the source's `Point` trait is
not under the given sources). -/
structure Pt where
  x : S
  y : S
deriving DecidableEq, Repr

namespace Pt

/-- Componentwise subtraction (`PointExt::sub`). Modelled from the spec. -/
def sub (a b : Pt) : Pt := ⟨a.x - b.x, a.y - b.y⟩

/-- Squared length (`PointExt::length_2`). Modelled from the spec. -/
def length_2 (p : Pt) : S := p.x * p.x + p.y * p.y

/-- `Point::dimensions()` for the 2-dimensional instantiation. -/
def dimensions : Nat := 2

end Pt

/-- Squared Euclidean distance between two points. -/
def dist2 (a b : Pt) : S := (a.sub b).length_2

/-- An axis-aligned box: the nonempty form of an envelope.  Modelled from the
spec: `Envelope E — an axis-aligned bounding region over P`. -/
structure Box where
  lx : S
  ux : S
  ly : S
  uy : S
deriving DecidableEq, Repr

namespace Box

/-- Smallest box containing both (`Envelope::merge` on nonempty envelopes).
Modelled from the spec. -/
def merge (a b : Box) : Box :=
  ⟨min a.lx b.lx, max a.ux b.ux, min a.ly b.ly, max a.uy b.uy⟩

/-- Product of extents (`Envelope::area`). Modelled from the spec. -/
def area (e : Box) : S := (e.ux - e.lx) * (e.uy - e.ly)

/-- Sum of extents (`Envelope::margin_value`). Modelled from the spec. -/
def margin_value (e : Box) : S := (e.ux - e.lx) + (e.uy - e.ly)

/-- Area of the intersection, `0` when disjoint
(`Envelope::intersection_area`). Modelled from the spec. -/
def intersection_area (a b : Box) : S :=
  max 0 (min a.ux b.ux - max a.lx b.lx) * max 0 (min a.uy b.uy - max a.ly b.ly)

/-- `b ⊆ a` (`Envelope::contains_envelope`). Modelled from the spec. -/
def contains_envelope (a b : Box) : Bool :=
  a.lx ≤ b.lx ∧ b.ux ≤ a.ux ∧ a.ly ≤ b.ly ∧ b.uy ≤ a.uy

/-- Squared distance from `p` to the closest point of the box
(`Envelope::distance_2`; `0` if `p` is inside). Modelled from the spec. -/
def distance_2 (e : Box) (p : Pt) : S :=
  let dx := max 0 (max (e.lx - p.x) (p.x - e.ux))
  let dy := max 0 (max (e.ly - p.y) (p.y - e.uy))
  dx * dx + dy * dy

/-- The MINMAXDIST pruning bound (`Envelope::min_max_dist_2`).  Modelled from
the spec: `an upper bound on the distance from p to the nearest object
guaranteed to lie within e`; this is the classical formula of the seminal
R-tree paper, instantiated at dimension 2: for each axis take the nearer face
on that axis and the farther face on the other axis, and minimise over axes. -/
def min_max_dist_2 (e : Box) (p : Pt) : S :=
  let rmx := if p.x ≤ (e.lx + e.ux) / 2 then e.lx else e.ux
  let rMx := if p.x ≥ (e.lx + e.ux) / 2 then e.lx else e.ux
  let rmy := if p.y ≤ (e.ly + e.uy) / 2 then e.ly else e.uy
  let rMy := if p.y ≥ (e.ly + e.uy) / 2 then e.ly else e.uy
  min ((p.x - rmx) * (p.x - rmx) + (p.y - rMy) * (p.y - rMy))
      ((p.x - rMx) * (p.x - rMx) + (p.y - rmy) * (p.y - rmy))

/-- Center point (`Envelope::center`). Modelled from the spec. -/
def center (e : Box) : Pt := ⟨(e.lx + e.ux) / 2, (e.ly + e.uy) / 2⟩

end Box

/-- An envelope: either the empty envelope (as produced for a parent with no
children, e.g. the fresh root) or a box.  Modelled from the spec (`merge`
is `smallest E containing both`, so the empty envelope is its identity). -/
abbrev Env : Type := Option Box

namespace Env

/-- `Envelope::merge` / `merged`, with the empty envelope as identity.
Modelled from the spec. -/
def merge : Env → Env → Env
  | none, b => b
  | some a, none => some a
  | some a, some b => some (a.merge b)

/-- `Envelope::area`; the empty envelope has area `0`. Modelled from the
spec. -/
def area : Env → S
  | none => 0
  | some b => b.area

/-- `Envelope::margin_value`; `0` on the empty envelope. Modelled from the
spec. -/
def margin_value : Env → S
  | none => 0
  | some b => b.margin_value

/-- `Envelope::intersection_area`; `0` when either is empty. Modelled from
the spec. -/
def intersection_area : Env → Env → S
  | some a, some b => a.intersection_area b
  | _, _ => 0

/-- `Envelope::contains_envelope`: the empty envelope is contained in
everything and contains only the empty envelope. Modelled from the spec. -/
def contains_envelope : Env → Env → Bool
  | _, none => true
  | none, some _ => false
  | some a, some b => a.contains_envelope b

/-- `Envelope::distance_2`; only ever evaluated on nonempty envelopes, `0`
on the empty one. Modelled from the spec. -/
def distance_2 (e : Env) (p : Pt) : S :=
  match e with
  | none => 0
  | some b => b.distance_2 p

/-- `Envelope::min_max_dist_2`; only ever evaluated on nonempty envelopes,
`0` on the empty one. Modelled from the spec. -/
def min_max_dist_2 (e : Env) (p : Pt) : S :=
  match e with
  | none => 0
  | some b => b.min_max_dist_2 p

/-- `Envelope::center`; only ever evaluated on nonempty envelopes, the
origin on the empty one. Modelled from the spec. -/
def center : Env → Pt
  | none => ⟨0, 0⟩
  | some b => b.center

/-- The envelope of a point object (`RTreeObject::envelope` for a point
payload): the degenerate box. Modelled from the spec. -/
def ofPt (p : Pt) : Env := some ⟨p.x, p.x, p.y, p.y⟩

instance : Std.Commutative (α := Env) merge := by
  constructor
  intro a b
  cases a <;> cases b <;> simp [merge, Box.merge, min_comm, max_comm]

instance : Std.Associative (α := Env) merge := by
  constructor
  intro a b c
  cases a <;> cases b <;> cases c <;>
    simp [merge, Box.merge, min_assoc, max_assoc]

end Env

/-- The tree node (`RTreeNode` in `node.rs`): a leaf carrying a payload or a
parent carrying an envelope and a child sequence.  Modelled from the spec:
`Node — Leaf(t: T) | Parent{ mbr: E, children: sequence of Node }`
(`node.rs` is not among the given sources; the Rust `ParentNodeData` struct
is inlined into the `Parent` constructor). -/
inductive RTreeNode where
  | Leaf (t : Pt)
  | Parent (mbr : Env) (children : List RTreeNode)

namespace RTreeNode

/-- `RTreeNode::mbr()`: the envelope of a node (a leaf's is its payload's
envelope). Modelled from the spec. -/
def mbr : RTreeNode → Env
  | .Leaf t => Env.ofPt t
  | .Parent m _ => m

/-- `mbr_for_children` (`node.rs`): the merged envelope of a child sequence.
Modelled from the spec: `mbr == merge(child.envelope() for child in
children)`. -/
def mbr_for_children (children : List RTreeNode) : Env :=
  children.foldr (fun c acc => Env.merge (mbr c) acc) none

mutual
/-- Number of nodes in a subtree (for termination measures). -/
def size : RTreeNode → Nat
  | .Leaf _ => 1
  | .Parent _ children => 1 + sizeList children
/-- Total node count of a child sequence. -/
def sizeList : List RTreeNode → Nat
  | [] => 0
  | c :: cs => size c + sizeList cs
end

mutual
/-- The payloads stored in a subtree, in left-to-right order. -/
def payloads : RTreeNode → List Pt
  | .Leaf t => [t]
  | .Parent _ children => payloadsList children
/-- The payloads stored under a child sequence, in order. -/
def payloadsList : List RTreeNode → List Pt
  | [] => []
  | c :: cs => payloads c ++ payloadsList cs
end

theorem size_leaf (t : Pt) : size (.Leaf t) = 1 := rfl

theorem sizeList_eq_sum (cs : List RTreeNode) :
    sizeList cs = (cs.map size).sum := by
  induction cs with
  | nil => rfl
  | cons c cs ih => simp [sizeList, ih]

theorem size_parent (m : Env) (cs : List RTreeNode) :
    size (.Parent m cs) = 1 + (cs.map size).sum := by
  rw [size, sizeList_eq_sum]

theorem payloadsList_eq_flatten (cs : List RTreeNode) :
    payloadsList cs = (cs.map payloads).flatten := by
  induction cs with
  | nil => rfl
  | cons c cs ih => simp [payloadsList, ih]

theorem payloads_parent (m : Env) (cs : List RTreeNode) :
    payloads (.Parent m cs) = (cs.map payloads).flatten := by
  rw [payloads, payloadsList_eq_flatten]

end RTreeNode

/-- `ParentNodeData` (`node.rs`): an envelope plus a child sequence.
Modelled from the spec. -/
structure ParentNodeData where
  mbr : Env
  children : List RTreeNode

/-- `RTreeNode::Parent` applied to a `ParentNodeData`. -/
def ParentNodeData.toNode (d : ParentNodeData) : RTreeNode :=
  .Parent d.mbr d.children

/-! ## Nearest-neighbor search (`nearest_neighbor.rs`)

The `BinaryHeap<RTreeNodeDistanceWrapper>` with inverted comparison is
modelled as a list of `(distance, node)` pairs with a `popMin` that removes
a least-distance entry (the leftmost among ties; every property proved about
the search is insensitive to the tie order, which `BinaryHeap` leaves
unspecified). -/

/-- The distance key given to a child when it is pushed onto the heap
(`nearest_neighbor.rs`, the `match child` in both `extend_heap`s):
`data.envelope.distance_2(q)` for a parent, `t.distance_2(q)` for a leaf. -/
def childDistance (q : Pt) : RTreeNode → S
  | .Parent m _ => m.distance_2 q
  | .Leaf t => dist2 t q

/-- A heap entry: the cached distance and the node
(`RTreeNodeDistanceWrapper`). -/
abbrev Heap : Type := List (S × RTreeNode)

/-- Total node count of a heap, the termination measure of the search
loops. -/
def heapSize (h : Heap) : Nat := (h.map (fun e => e.2.size)).sum

/-- Remove a least-distance entry from the heap (`BinaryHeap::pop` under the
inverted comparison); the leftmost among equal keys. -/
def popMin : Heap → Option ((S × RTreeNode) × Heap)
  | [] => none
  | e :: es =>
    match popMin es with
    | none => some (e, [])
    | some (m, rest) => if e.1 ≤ m.1 then some (e, es) else some (m, e :: rest)

theorem popMin_nil : popMin [] = none := rfl

theorem popMin_eq_none {h : Heap} : popMin h = none ↔ h = [] := by
  cases h with
  | nil => simp [popMin]
  | cons e es =>
    simp only [popMin]
    cases hes : popMin es with
    | none => simp
    | some p => cases p with | mk m rest => by_cases hle : e.1 ≤ m.1 <;> simp [hle]

theorem popMin_perm {h : Heap} {e : S × RTreeNode} {rest : Heap}
    (hp : popMin h = some (e, rest)) : h.Perm (e :: rest) := by
  induction h generalizing e rest with
  | nil => simp [popMin] at hp
  | cons a as ih =>
    rw [popMin] at hp
    cases has : popMin as with
    | none =>
      rw [has] at hp
      have hnil : as = [] := popMin_eq_none.mp has
      subst hnil
      simp only [Option.some.injEq, Prod.mk.injEq] at hp
      obtain ⟨rfl, rfl⟩ := hp
      exact List.Perm.refl _
    | some p =>
      obtain ⟨m, mrest⟩ := p
      rw [has] at hp
      by_cases hle : a.1 ≤ m.1
      · simp only [hle, if_true, Option.some.injEq, Prod.mk.injEq] at hp
        obtain ⟨rfl, rfl⟩ := hp
        exact List.Perm.refl _
      · simp only [hle, if_false, Option.some.injEq, Prod.mk.injEq] at hp
        obtain ⟨rfl, rfl⟩ := hp
        exact ((ih has).cons a).trans (List.Perm.swap m a mrest)

theorem heapSize_perm {h h' : Heap} (hp : h.Perm h') : heapSize h = heapSize h' := by
  unfold heapSize
  exact (hp.map (fun e => e.2.size)).sum_eq

theorem heapSize_append (h h' : Heap) :
    heapSize (h ++ h') = heapSize h + heapSize h' := by
  simp [heapSize]

theorem heapSize_cons (e : S × RTreeNode) (h : Heap) :
    heapSize (e :: h) = e.2.size + heapSize h := by
  simp [heapSize]

/-- `NearestNeighborIterator::extend_heap`: push every child with its
distance key. -/
def iterExtendHeap (q : Pt) (heap : Heap) (children : List RTreeNode) : Heap :=
  heap ++ children.map (fun c => (childDistance q c, c))

theorem heapSize_iterExtendHeap (q : Pt) (heap : Heap) (cs : List RTreeNode) :
    heapSize (iterExtendHeap q heap cs) = heapSize heap + (cs.map RTreeNode.size).sum := by
  rw [iterExtendHeap, heapSize_append]
  congr 1
  simp only [heapSize, List.map_map]
  rfl

theorem popMin_parent_size {h : Heap} {d : S} {m : Env} {cs : List RTreeNode}
    {rest : Heap} (hp : popMin h = some ((d, .Parent m cs), rest)) :
    heapSize h = 1 + (cs.map RTreeNode.size).sum + heapSize rest := by
  have := heapSize_perm (popMin_perm hp)
  rw [heapSize_cons] at this
  simp only [RTreeNode.size_parent] at this
  omega

/-- One step of `Iterator::next for NearestNeighborIterator`: pop entries,
expanding parents, until a leaf is popped; return its payload and the
remaining heap. -/
def iterNext (q : Pt) (heap : Heap) : Option (Pt × Heap) :=
  match hp : popMin heap with
  | none => none
  | some ((_, .Leaf t), rest) => some (t, rest)
  | some ((_, .Parent _ cs), rest) => iterNext q (iterExtendHeap q rest cs)
termination_by heapSize heap
decreasing_by
  rw [heapSize_iterExtendHeap, popMin_parent_size hp]
  omega

theorem iterNext_pop_none {q : Pt} {heap : Heap} (h : popMin heap = none) :
    iterNext q heap = none := by
  rw [iterNext]
  split
  · rfl
  all_goals (rename_i heq; rw [h] at heq; exact absurd heq (by simp))

theorem iterNext_pop_leaf {q : Pt} {heap : Heap} {d : S} {t : Pt} {rest : Heap}
    (h : popMin heap = some ((d, .Leaf t), rest)) :
    iterNext q heap = some (t, rest) := by
  rw [iterNext]
  split
  · rename_i heq; rw [h] at heq; exact absurd heq (by simp)
  · rename_i heq
    rw [h] at heq
    simp only [Option.some.injEq, Prod.mk.injEq, RTreeNode.Leaf.injEq] at heq
    obtain ⟨⟨_, rfl⟩, rfl⟩ := heq
    rfl
  · rename_i heq; rw [h] at heq; simp at heq

theorem iterNext_pop_parent {q : Pt} {heap : Heap} {d : S} {m : Env}
    {cs : List RTreeNode} {rest : Heap}
    (h : popMin heap = some ((d, .Parent m cs), rest)) :
    iterNext q heap = iterNext q (iterExtendHeap q rest cs) := by
  rw [iterNext]
  split
  · rename_i heq; rw [h] at heq; exact absurd heq (by simp)
  · rename_i heq; rw [h] at heq; simp at heq
  · rename_i heq
    rw [h] at heq
    simp only [Option.some.injEq, Prod.mk.injEq, RTreeNode.Parent.injEq] at heq
    obtain ⟨⟨_, _, rfl⟩, rfl⟩ := heq
    rfl

theorem iterNext_size {q : Pt} {heap : Heap} {t : Pt} {h' : Heap}
    (hn : iterNext q heap = some (t, h')) : heapSize h' < heapSize heap := by
  induction heap using iterNext.induct q with
  | case1 h heq =>
    rw [iterNext_pop_none heq] at hn
    exact absurd hn (by simp)
  | case2 h d t0 rest heq =>
    rw [iterNext_pop_leaf heq] at hn
    simp only [Option.some.injEq, Prod.mk.injEq] at hn
    obtain ⟨rfl, rfl⟩ := hn
    have hps := heapSize_perm (popMin_perm heq)
    rw [heapSize_cons] at hps
    simp only [RTreeNode.size_leaf] at hps
    omega
  | case3 h d m cs rest heq ih =>
    rw [iterNext_pop_parent heq] at hn
    have hlt := ih hn
    rw [heapSize_iterExtendHeap] at hlt
    have hps := popMin_parent_size heq
    omega

/-- The full (finite) sequence produced by the nearest-neighbor iterator
from a given heap state. -/
def iterAll (q : Pt) (heap : Heap) : List Pt :=
  match hn : iterNext q heap with
  | none => []
  | some (t, h') => t :: iterAll q h'
termination_by heapSize heap
decreasing_by
  exact iterNext_size hn

/-- `nearest_neighbor_iter(root, q)` collected into a list
(`NearestNeighborIterator::new` followed by draining the iterator). -/
def nearest_neighbor_iter (root : ParentNodeData) (q : Pt) : List Pt :=
  iterAll q (iterExtendHeap q [] root.children)

/-- `extend_heap`, the inner function of `nearest_neighbor`: walk the
children in order; for each child compute its distance key, and when
`distance ≤ min_max_distance` update `min_max_distance` with the child
envelope's `min_max_dist_2` and push the child.  The running bound is a
`WithTop ℚ` (initially the `Bounded::max_value()` sentinel `⊤`). -/
def nnExtendHeap (q : Pt) : Heap → WithTop S → List RTreeNode → Heap × WithTop S
  | heap, mm, [] => (heap, mm)
  | heap, mm, c :: cs =>
    let d := childDistance q c
    if (d : WithTop S) ≤ mm then
      nnExtendHeap q (heap ++ [(d, c)])
        (min mm ((c.mbr.min_max_dist_2 q : S) : WithTop S)) cs
    else
      nnExtendHeap q heap mm cs

theorem heapSize_nnExtendHeap (q : Pt) (heap : Heap) (mm : WithTop S)
    (cs : List RTreeNode) :
    heapSize (nnExtendHeap q heap mm cs).1 ≤ heapSize heap + (cs.map RTreeNode.size).sum := by
  induction cs generalizing heap mm with
  | nil => simp [nnExtendHeap]
  | cons c cs ih =>
    simp only [nnExtendHeap]
    by_cases hle : ((childDistance q c : S) : WithTop S) ≤ mm
    · simp only [hle, if_pos]
      refine le_trans (ih _ _) ?_
      rw [heapSize_append]
      simp [heapSize]
      omega
    · simp only [hle, if_neg, not_false_iff]
      refine le_trans (ih _ _) ?_
      simp only [List.map_cons, List.sum_cons]
      omega

/-- The main loop of `nearest_neighbor`: pop entries, expanding parents
through the pruning `extend_heap`, until a leaf is popped. -/
def nnLoop (q : Pt) (heap : Heap) (mm : WithTop S) : Option Pt :=
  match hp : popMin heap with
  | none => none
  | some ((_, .Leaf t), _) => some t
  | some ((_, .Parent _ cs), rest) =>
    let st := nnExtendHeap q rest mm cs
    nnLoop q st.1 st.2
termination_by heapSize heap
decreasing_by
  have h1 := heapSize_nnExtendHeap q rest mm cs
  have h2 := popMin_parent_size hp
  omega

/-- `nearest_neighbor(node, query)` (`nearest_neighbor.rs` lines 129–186):
initialise `smallest_min_max` to the `max_value` sentinel, seed the heap from
the root's children through the pruning `extend_heap`, then run the
best-first loop. -/
def nearest_neighbor (node : ParentNodeData) (q : Pt) : Option Pt :=
  let st := nnExtendHeap q [] ⊤ node.children
  nnLoop q st.1 st.2

theorem nnLoop_pop_none {q : Pt} {heap : Heap} {mm : WithTop S}
    (h : popMin heap = none) : nnLoop q heap mm = none := by
  rw [nnLoop]
  split
  · rfl
  all_goals (rename_i heq; rw [h] at heq; exact absurd heq (by simp))

theorem nnLoop_pop_leaf {q : Pt} {heap : Heap} {mm : WithTop S} {d : S} {t : Pt}
    {rest : Heap} (h : popMin heap = some ((d, .Leaf t), rest)) :
    nnLoop q heap mm = some t := by
  rw [nnLoop]
  split
  · rename_i heq; rw [h] at heq; exact absurd heq (by simp)
  · rename_i heq
    rw [h] at heq
    simp only [Option.some.injEq, Prod.mk.injEq, RTreeNode.Leaf.injEq] at heq
    obtain ⟨⟨_, rfl⟩, _⟩ := heq
    rfl
  · rename_i heq; rw [h] at heq; simp at heq

theorem nnLoop_pop_parent {q : Pt} {heap : Heap} {mm : WithTop S} {d : S}
    {m : Env} {cs : List RTreeNode} {rest : Heap}
    (h : popMin heap = some ((d, .Parent m cs), rest)) :
    nnLoop q heap mm =
      nnLoop q (nnExtendHeap q rest mm cs).1 (nnExtendHeap q rest mm cs).2 := by
  rw [nnLoop]
  split
  · rename_i heq; rw [h] at heq; exact absurd heq (by simp)
  · rename_i heq; rw [h] at heq; simp at heq
  · rename_i heq
    rw [h] at heq
    simp only [Option.some.injEq, Prod.mk.injEq, RTreeNode.Parent.injEq] at heq
    obtain ⟨⟨_, _, rfl⟩, rfl⟩ := heq
    rfl

/-! ## The R* insertion strategy (`src/rstar.rs`) -/

/-- `RTreeParams`: the compile-time size parameters.  Modelled from the spec
(the trait lives outside the given sources); `src/rstar.rs` reads them as
`Params::MinSize/MaxSize/ReinsertionCount::to_usize()`. -/
structure Params where
  min_size : Nat
  max_size : Nat
  reinsertion_count : Nat

/-- `InsertionResult` (`src/rstar.rs` lines 13–20). -/
inductive InsertionResult where
  | Split (node : RTreeNode)
  | Reinsert (nodes : List RTreeNode) (height : Nat)
  | Complete

/-- Runtime failures of the embedded code.  The first two model the `panic!`
and the slice-indexing panics of the source; `reinsertIndexPanic` models an
out-of-bounds `reinsertions[node_height]`; `outOfFuel` is an artefact of the
fuelled driver loop (the source loops without fuel). -/
inductive Err where
  | leafPanic
  | childIndexPanic
  | reinsertIndexPanic
  | outOfFuel
deriving DecidableEq

/-- Strict lexicographic comparison of triples, as Rust's `PartialOrd` for
`(S, S, S)` used by `new_min < min` in `choose_subtree`. -/
def lex3Lt (a b : S × S × S) : Prop :=
  a.1 < b.1 ∨ (a.1 = b.1 ∧ (a.2.1 < b.2.1 ∨ (a.2.1 = b.2.1 ∧ a.2.2 < b.2.2)))

instance (a b : S × S × S) : Decidable (lex3Lt a b) := by
  unfold lex3Lt; infer_instance

/-- Strict lexicographic comparison of pairs, as Rust's `PartialOrd` for
`(S, S)` used by `new_best < best` in `split`. -/
def lex2Lt (a b : S × S) : Prop :=
  a.1 < b.1 ∨ (a.1 = b.1 ∧ a.2 < b.2)

instance (a b : S × S) : Decidable (lex2Lt a b) := by
  unfold lex2Lt; infer_instance

/-- One iteration of `choose_subtree`'s inclusion loop (`src/rstar.rs`
lines 119–129): count children whose MBR contains the incoming MBR and
track the smallest-area one (with its first-occurrence index). -/
def inclusionStep (insertion_mbr : Env) (st : Nat × WithTop S × Nat)
    (ic : Nat × RTreeNode) : Nat × WithTop S × Nat :=
  let mbr := ic.2.mbr
  if mbr.contains_envelope insertion_mbr then
    let area := mbr.area
    if (area : WithTop S) < st.2.1 then (st.1 + 1, ((area : S) : WithTop S), ic.1)
    else (st.1 + 1, st.2.1, st.2.2)
  else st

/-- The `(overlap_increase, area_increase, area)` triple that
`choose_subtree`'s non-inclusion loop computes for the enumerated child
`ic` (`src/rstar.rs` lines 139–163): the overlap increase sums over every
*other* child (the source's pointer inequality distinguishes positions,
modelled as an index comparison), and is `0` unless `all_leaves`. -/
def chooseTriple (cs : List RTreeNode) (insertion_mbr : Env) (all_leaves : Bool)
    (ic : Nat × RTreeNode) : S × S × S :=
  let index := ic.1
  let child1 := ic.2
  let mbr := child1.mbr
  let new_mbr := mbr.merge insertion_mbr
  let overlap_increase : S :=
    if all_leaves then
      let acc := cs.enum.foldl
        (fun (oacc : S × S) jc =>
          if jc.1 = index then oacc
          else
            (oacc.1 + mbr.intersection_area jc.2.mbr,
             oacc.2 + new_mbr.intersection_area jc.2.mbr))
        ((0 : S), (0 : S))
      acc.2 - acc.1
    else 0
  let area := new_mbr.area
  let area_increase := area - mbr.area
  (overlap_increase, area_increase, area)

/-- `choose_subtree` (`src/rstar.rs` lines 105–175), returning the selected
child index (the source returns `&mut node.children[min_index]`; the
dereference, and the leaf `panic!`, happen at the call site in
`recursive_insert`). -/
def choose_subtree_index (node : ParentNodeData) (to_insert : RTreeNode)
    (all_leaves : Bool) : Nat :=
  let insertion_mbr := to_insert.mbr
  let incl := node.children.enum.foldl (inclusionStep insertion_mbr)
    ((0 : Nat), (⊤ : WithTop S), (0 : Nat))
  let inclusion_count := incl.1
  let min_index := incl.2.2
  if inclusion_count = 0 then
    let second := node.children.enum.foldl
      (fun (st : (S × S × S) × Nat) ic =>
        let new_min := chooseTriple node.children insertion_mbr all_leaves ic
        if lex3Lt new_min st.1 ∨ ic.1 = 0 then (new_min, ic.1) else st)
      (((0 : S), (0 : S), (0 : S)), min_index)
    second.2
  else min_index

/-- The per-axis sort key: lower bound on the axis (axis `0` is `x`,
axis `1` is `y`). Modelled from the spec (`align_envelopes`). -/
def lowerOnAxis (axis : Nat) (c : RTreeNode) : S :=
  match c.mbr with
  | none => 0
  | some b => if axis = 0 then b.lx else b.ly

/-- The per-axis tie-break key: upper bound on the axis. Modelled from the
spec (`align_envelopes`). -/
def upperOnAxis (axis : Nat) (c : RTreeNode) : S :=
  match c.mbr with
  | none => 0
  | some b => if axis = 0 then b.ux else b.uy

/-- The sort order of `align_envelopes`: ascending lower bound on the axis,
ties broken by the upper bound on the same axis. Modelled from the spec. -/
def alignLe (axis : Nat) (a b : RTreeNode) : Prop :=
  lowerOnAxis axis a < lowerOnAxis axis b ∨
    (lowerOnAxis axis a = lowerOnAxis axis b ∧
      upperOnAxis axis a ≤ upperOnAxis axis b)

instance (axis : Nat) (a b : RTreeNode) : Decidable (alignLe axis a b) := by
  unfold alignLe; infer_instance

/-- `Envelope::align_envelopes(axis, children, |c| c.mbr())`: stable sort of
a child sequence along an axis. Modelled from the spec. -/
def align_envelopes (axis : Nat) (children : List RTreeNode) : List RTreeNode :=
  children.insertionSort (alignLe axis)

/-- The candidate split positions `min_size .. len − min_size + 1` of the
`for k in` loops of `get_split_axis` and `split` (empty when
`len < 2·min_size`; the parameter contract `MAX_SIZE ≥ 2·MIN_SIZE − 1`
keeps the source's `usize` arithmetic from underflowing, and every theorem
below assumes it). -/
def kRange (min_size len : Nat) : List Nat :=
  List.range' min_size (len - min_size + 1 - min_size)

/-- The merged envelopes of the two groups of a candidate split at `k`.
The source seeds `first_mbr`/`second_mbr` with `children[k-1]`/`children[k]`
and then merges every member of the respective half into them; since
`children[k-1]` belongs to the first half and `children[k]` to the second,
each result is exactly the merged envelope of its half (for the in-range
`k ≥ MIN_SIZE ≥ 1` the loops produce). -/
def splitMbrs (sorted : List RTreeNode) (k : Nat) : Env × Env :=
  (RTreeNode.mbr_for_children (sorted.take k),
   RTreeNode.mbr_for_children (sorted.drop k))

/-- `get_split_axis` (`src/rstar.rs` lines 241–270).  The source sorts
`node.children` in place along each axis in turn, so besides the chosen axis
it leaves the children sorted along the last axis; the returned pair is
`(best_axis, children after the in-place sorts)`. -/
def get_split_axis (p : Params) (children0 : List RTreeNode) :
    Nat × List RTreeNode :=
  let st := (List.range Pt.dimensions).foldl
    (fun (st : (S × Nat) × List RTreeNode) axis =>
      let sorted := align_envelopes axis st.2
      let inner := (kRange p.min_size sorted.length).foldl
        (fun (bg : S × Nat) k =>
          let mbrs := splitMbrs sorted k
          let margin_value := mbrs.1.margin_value + mbrs.2.margin_value
          if bg.1 > margin_value ∨ axis = 0 then (margin_value, axis) else bg)
        st.1
      (inner, sorted))
    (((0 : S), (0 : Nat)), children0)
  (st.1.2, st.2)

/-- The `(overlap_value, area_value)` pair that `split`'s selection loop
computes for the candidate index `k`:
`(intersection_area(first_mbr, second_mbr), area(first_mbr) + area(second_mbr))`. -/
def splitKey (sorted : List RTreeNode) (k : Nat) : S × S :=
  let mbrs := splitMbrs sorted k
  (mbrs.1.intersection_area mbrs.2, mbrs.1.area + mbrs.2.area)

/-- `split` (`src/rstar.rs` lines 201–239): pick the axis, re-sort along it,
pick the best split index by `(overlap_value, area_value)`, detach the
suffix (`split_off`) into a fresh parent, and recompute the remaining
node's MBR.  Returns `(remaining node, InsertionResult::Split payload)`. -/
def split (p : Params) (node : ParentNodeData) : ParentNodeData × RTreeNode :=
  let axis_sorted := get_split_axis p node.children
  let sorted := align_envelopes axis_sorted.1 axis_sorted.2
  let best := (kRange p.min_size sorted.length).foldl
    (fun (st : (S × S) × Nat) k =>
      let new_best := splitKey sorted k
      if lex2Lt new_best st.1 ∨ k = p.min_size then (new_best, k) else st)
    (((0 : S), (0 : S)), p.min_size)
  let best_index := best.2
  let kept := sorted.take best_index
  let offsplit := sorted.drop best_index
  (⟨RTreeNode.mbr_for_children kept, kept⟩,
   .Parent (RTreeNode.mbr_for_children offsplit) offsplit)

/-- The sort order of `reinsert`'s `sort_by`: ascending squared distance of
the child's center from the (pre-sort) parent center. -/
def reinsertLe (c : Pt) (a b : RTreeNode) : Prop :=
  dist2 a.mbr.center c ≤ dist2 b.mbr.center c

instance (c : Pt) (a b : RTreeNode) : Decidable (reinsertLe c a b) := by
  unfold reinsertLe; infer_instance

/-- `reinsert` (`src/rstar.rs` lines 273–294): sort children by increasing
distance of their centers from the parent's center, detach the last
`REINSERTION_COUNT` (`split_off`), recompute the parent's MBR from the
remainder, and return `(remaining node, detached nodes in ascending
distance order)`. -/
def reinsert (p : Params) (node : ParentNodeData) :
    ParentNodeData × List RTreeNode :=
  let c := node.mbr.center
  let sorted := node.children.insertionSort (reinsertLe c)
  let num_children := sorted.length
  let kept := sorted.take (num_children - p.reinsertion_count)
  let result := sorted.drop (num_children - p.reinsertion_count)
  (⟨RTreeNode.mbr_for_children kept, kept⟩, result)

/-- `resolve_overflow` (`src/rstar.rs` lines 177–199). -/
def resolve_overflow (p : Params) (node : ParentNodeData)
    (allow_reinsert : Bool) : ParentNodeData × InsertionResult :=
  if node.children.length > p.max_size then
    if p.reinsertion_count = 0 ∨ allow_reinsert = false then
      let s := split p node
      (s.1, .Split s.2)
    else
      let r := reinsert p node
      (r.1, .Reinsert r.2 0)
  else (node, .Complete)

/-- `recursive_insert` (`src/rstar.rs` lines 71–103).  The `&mut` node is
threaded as state; `children[min_index]` being a leaf is the source's
`panic!`, an out-of-range `min_index` the slice-indexing panic. -/
def recursive_insert (p : Params) (node : ParentNodeData) (t : RTreeNode)
    (target_height : Nat) (allow_reinsert : Bool) :
    Except Err (ParentNodeData × InsertionResult) :=
  let node : ParentNodeData := ⟨node.mbr.merge t.mbr, node.children⟩
  match target_height with
  | 0 =>
    let node : ParentNodeData := ⟨node.mbr, node.children ++ [t]⟩
    .ok (resolve_overflow p node allow_reinsert)
  | n + 1 =>
    let all_leaves := n + 1 = 1
    let idx := choose_subtree_index node t all_leaves
    match node.children[idx]? with
    | none => .error .childIndexPanic
    | some (.Leaf _) => .error .leafPanic
    | some (.Parent m cs) =>
      match recursive_insert p ⟨m, cs⟩ t n allow_reinsert with
      | .error e => .error e
      | .ok (follow, res) =>
        let node : ParentNodeData :=
          ⟨node.mbr, node.children.set idx follow.toNode⟩
        match res with
        | .Split child =>
          let node : ParentNodeData :=
            ⟨node.mbr.merge child.mbr, node.children ++ [child]⟩
          .ok (resolve_overflow p node allow_reinsert)
        | .Reinsert ns h =>
          .ok (⟨RTreeNode.mbr_for_children node.children, node.children⟩,
               .Reinsert ns (h + 1))
        | .Complete => .ok (node, .Complete)

/-- Ghost trace events of the insertion driver, recording its observable
decisions in order: each `recursive_insert` dispatch from the work stack,
each root split, and each `Reinsert` dispatch (the level, the flag value
read, and the detached nodes in returned order). -/
inductive Event where
  | dispatch (node : RTreeNode) (node_height : Nat) (allow : Bool)
  | rootSplit
  | reinsertDispatch (level : Nat) (can : Bool) (nodes : List RTreeNode)

/-- The mutable state of `InsertionStrategy::insert`'s driver loop.  The
Rust `Vec` stack pushes and pops at its end; the list's head models the
`Vec`'s end (its top), so `Vec::extend(nodes)` becomes prepending
`nodes.reverse`. -/
structure InsertState where
  tree_height : Nat
  root : ParentNodeData
  stack : List (RTreeNode × Nat × Bool)
  reinsertions : List Bool
  trace : List Event

/-- The driver's `while let Some(...) = insertion_stack.pop()` loop
(`src/rstar.rs` lines 41–67), with explicit fuel (the source loop carries no
bound): it runs at most `fuel` iterations and returns the state reached, so
`fuel` exhaustion yields a prefix of the source's run; a run is complete
exactly when the returned stack is empty, which the entry point `insert`
checks. -/
def insert_loop (p : Params) : Nat → InsertState → Except Err InsertState
  | 0, st => .ok st
  | fuel + 1, st =>
    match st.stack with
    | [] => .ok st
    | (next, node_height, can_reinsert) :: stack_rest =>
      let st1 : InsertState := { st with
        stack := stack_rest,
        trace := st.trace ++ [.dispatch next node_height can_reinsert] }
      match recursive_insert p st1.root next
          (st1.tree_height - node_height - 1) can_reinsert with
      | .error e => .error e
      | .ok (root', result) =>
        match result with
        | .Split node =>
          let old_root := root'
          let new_root : ParentNodeData :=
            ⟨old_root.mbr.merge node.mbr, [old_root.toNode, node]⟩
          insert_loop p fuel { st1 with
            tree_height := st1.tree_height + 1,
            root := new_root,
            trace := st1.trace ++ [.rootSplit] }
        | .Reinsert nodes height =>
          let level := st1.tree_height - height - 1
          match st1.reinsertions[level]? with
          | none => .error .reinsertIndexPanic
          | some can =>
            insert_loop p fuel { st1 with
              root := root',
              reinsertions := st1.reinsertions.set level false,
              stack := (nodes.map (fun n => (n, level, can))).reverse ++ st1.stack,
              trace := st1.trace ++ [.reinsertDispatch level can nodes] }
        | .Complete => insert_loop p fuel { st1 with root := root' }

/-- The tree handle.  Modelled from the spec: root (always a parent), height
and element count (`rtree.rs` is not among the given sources). -/
structure RTree where
  root : ParentNodeData
  height : Nat
  size : Nat

/-- `InsertionStrategy::insert for RStarInsertionStrategy`
(`src/rstar.rs` lines 22–68): adjust the height of an empty tree, seed the
work stack with the wrapped leaf, initialise the per-level `reinsertions`
flags, and run the driver loop.  Also returns the ghost trace.  The size
increment happens in the tree handle outside the given sources (modelled
from the spec's element count). -/
def insert (p : Params) (fuel : Nat) (tree : RTree) (t : Pt) :
    Except Err (RTree × List Event) :=
  let tree := if tree.size = 0 then { tree with height := 1 } else tree
  let st0 : InsertState := {
    tree_height := tree.height,
    root := tree.root,
    stack := [(.Leaf t, 0, true)],
    reinsertions := List.replicate tree.height true,
    trace := [] }
  match insert_loop p fuel st0 with
  | .error e => .error e
  | .ok st =>
    if st.stack.isEmpty then
      .ok ({ root := st.root, height := st.tree_height, size := tree.size + 1 },
           st.trace)
    else .error .outOfFuel

/-! ## Observations of driver runs -/

/-- A decidable view of a trace event: nodes are projected to their payload
lists. -/
inductive EventView where
  | dispatchV (payloads : List Pt) (node_height : Nat) (allow : Bool)
  | rootSplitV
  | reinsertV (level : Nat) (can : Bool) (payloads : List (List Pt))
deriving DecidableEq, Repr

/-- Project an event to its decidable view. -/
def Event.view : Event → EventView
  | .dispatch n h a => .dispatchV n.payloads h a
  | .rootSplit => .rootSplitV
  | .reinsertDispatch l c ns => .reinsertV l c (ns.map RTreeNode.payloads)

/-- Number of `Reinsert` dispatches at a given level in a trace. -/
def countReinsertsAt (l : Nat) (tr : List Event) : Nat :=
  (tr.filter (fun e =>
    match e with
    | .reinsertDispatch l' _ _ => l' = l
    | _ => false)).length

/-- The trace of an insertion run, projected to views (`[]` on failure). -/
def insertTrace (p : Params) (fuel : Nat) (tree : RTree) (t : Pt) :
    List EventView :=
  match insert p fuel tree t with
  | .error _ => []
  | .ok r => r.2.map Event.view

/-! Batteries marks the `Rat` field operations `@[irreducible]`; concrete
evaluations below need them to reduce. -/
unseal Rat.add Rat.mul Rat.inv Rat.sub

/-! ## Concrete scenarios -/

/-- A leaf node at the given coordinates. -/
def leafP (x y : S) : RTreeNode := .Leaf ⟨x, y⟩

/-- Parameters `MIN_SIZE = 1, MAX_SIZE = 3, REINSERTION_COUNT = 2` (they
satisfy the spec's parameter contract). -/
def paramsC4 : Params := ⟨1, 3, 2⟩

/-- A height-1 tree holding the three points `(0,0), (1,0), (3,0)`, with the
root MBR exactly the merge of its children. -/
def treeC4 : RTree :=
  { root := ⟨RTreeNode.mbr_for_children [leafP 0 0, leafP 1 0, leafP 3 0],
             [leafP 0 0, leafP 1 0, leafP 3 0]⟩,
    height := 1, size := 3 }

/-- Parameters `MIN_SIZE = 1, MAX_SIZE = 2, REINSERTION_COUNT = 1`. -/
def paramsC6 : Params := ⟨1, 2, 1⟩

/-- A height-1 tree holding the two points `(0,0), (1,0)`. -/
def treeC6 : RTree :=
  { root := ⟨RTreeNode.mbr_for_children [leafP 0 0, leafP 1 0],
             [leafP 0 0, leafP 1 0]⟩,
    height := 1, size := 2 }

/-- The driver state right after `insert`'s initialisation when inserting
`(10,0)` into `treeC4` (`MIN_SIZE = 1, MAX_SIZE = 3,
REINSERTION_COUNT = 2`). -/
def stateC4 : InsertState :=
  { tree_height := 1, root := treeC4.root,
    stack := [(.Leaf ⟨10, 0⟩, 0, true)],
    reinsertions := [true], trace := [] }

/-- **C4, counterexample.**  Inserting `(10,0)` into `treeC4` (points
`(0,0), (1,0), (3,0)`) overflows the root; `reinsert` returns the detached
nodes in ascending center distance — first `(0,0)`, then `(10,0)`, as the
`reinsertV` event records.  The driver pushes them onto its LIFO work stack
in that order, so after two loop iterations the trace shows `(10,0)` — the
**last**-returned, farthest-detached node — already dispatched for
re-insertion while the first-returned `(0,0)` still waits on the stack.
This refutes the claim that the driver re-inserts the detached nodes in the
order `reinsert` returned them (nearest-detached first). -/
theorem C4_counterexample :
    (insert_loop paramsC4 2 stateC4).toOption.map
        (fun st => (st.trace.map Event.view,
                    st.stack.map (fun e => (e.1.payloads, e.2.1, e.2.2)))) =
      some ([.dispatchV [⟨10,0⟩] 0 true,
             .reinsertV 0 true [[⟨0,0⟩], [⟨10,0⟩]],
             .dispatchV [⟨10,0⟩] 0 true],
            [([(⟨0,0⟩ : Pt)], 0, true)]) := by decide

/-- **C6, counterexample.**  Inserting `(5,0)` into `treeC6` (points
`(0,0), (1,0)`; `MIN_SIZE = 1, MAX_SIZE = 2, REINSERTION_COUNT = 1`)
produces **two** `Reinsert` dispatches at level 0: the first dispatch reads
the still-true flag and pushes its node with `allow_reinsert = true`
(clearing the flag only afterwards), so when that node overflows level 0
again the overflow resolves by a second forced reinsertion, not by a split.
This refutes the claim that every node re-inserted after the first
`Reinsert` dispatch at a level carries `allow_reinsert = false` and that a
subsequent overflow at that level resolves by split. -/
theorem C6_counterexample :
    insertTrace paramsC6 10 treeC6 ⟨5, 0⟩ =
      [.dispatchV [⟨5,0⟩] 0 true,
       .reinsertV 0 true [[⟨5,0⟩]],
       .dispatchV [⟨5,0⟩] 0 true,
       .reinsertV 0 false [[⟨5,0⟩]],
       .dispatchV [⟨5,0⟩] 0 false,
       .rootSplitV] := by decide

/-- The axis selection as claim C8 words it: identical to `get_split_axis`
except that the running best is replaced when the candidate's margin sum
**exceeds** it (`margin_value > bg.1`), rather than when it falls below it
(the source's `best_goodness > margin_value`).  Written to be compared with
the source's `get_split_axis`. -/
def get_split_axis_claim (p : Params) (children0 : List RTreeNode) :
    Nat × List RTreeNode :=
  let st := (List.range Pt.dimensions).foldl
    (fun (st : (S × Nat) × List RTreeNode) axis =>
      let sorted := align_envelopes axis st.2
      let inner := (kRange p.min_size sorted.length).foldl
        (fun (bg : S × Nat) k =>
          let mbrs := splitMbrs sorted k
          let margin_value := mbrs.1.margin_value + mbrs.2.margin_value
          if margin_value > bg.1 ∨ axis = 0 then (margin_value, axis) else bg)
        st.1
      (inner, sorted))
    (((0 : S), (0 : Nat)), children0)
  (st.1.2, st.2)

/-- Children of an overflowing node used to separate `get_split_axis` from
claim C8's reading of it: three parents with exact MBRs
`[0,1]×[4,5]`, `[2,3]×[0,1]`, `[4,5]×[8,9]`. -/
def childrenC8 : List RTreeNode :=
  [.Parent (RTreeNode.mbr_for_children [leafP 0 4, leafP 1 5])
     [leafP 0 4, leafP 1 5],
   .Parent (RTreeNode.mbr_for_children [leafP 2 0, leafP 3 1])
     [leafP 2 0, leafP 3 1],
   .Parent (RTreeNode.mbr_for_children [leafP 4 8, leafP 5 9])
     [leafP 4 8, leafP 5 9]]

/-- **C8, counterexample.**  On `childrenC8` with `MIN_SIZE = 1` the margin
sum of the axis-1 candidate `k = 1` (`12`) exceeds the running best left by
axis 0 (`10`), so under the claim's rule — replace whenever a later
candidate's margin sum *exceeds* the running best — axis 1 would be chosen;
the source's comparison `best_goodness > margin_value` replaces on *smaller*
margins, and `get_split_axis` keeps axis 0. -/
theorem C8_counterexample :
    (get_split_axis ⟨1, 2, 1⟩ childrenC8).1 = 0 ∧
      (get_split_axis_claim ⟨1, 2, 1⟩ childrenC8).1 = 1 := by decide

/-- The axis selection as amended: replace the running best exactly when
the candidate's margin sum is **strictly below** it, with the forced
replacement on every candidate of axis 0.  This differs from
`get_split_axis` only in spelling `best_goodness > margin_value` as
`margin_value < best_goodness`. -/
def get_split_axis_amended (p : Params) (children0 : List RTreeNode) :
    Nat × List RTreeNode :=
  let st := (List.range Pt.dimensions).foldl
    (fun (st : (S × Nat) × List RTreeNode) axis =>
      let sorted := align_envelopes axis st.2
      let inner := (kRange p.min_size sorted.length).foldl
        (fun (bg : S × Nat) k =>
          let mbrs := splitMbrs sorted k
          let margin_value := mbrs.1.margin_value + mbrs.2.margin_value
          if margin_value < bg.1 ∨ axis = 0 then (margin_value, axis) else bg)
        st.1
      (inner, sorted))
    (((0 : S), (0 : Nat)), children0)
  (st.1.2, st.2)

/-- **C8, amended.**  `get_split_axis` tracks a single running
`best_goodness` across all `(axis, k)` pairs and replaces the chosen axis
whenever a later candidate split's margin sum is **strictly less than**
the running best (the source's `best_goodness > margin_value`), with a
forced reset of the running best on every candidate of axis 0. -/
theorem C8_amended_thm (p : Params) (cs : List RTreeNode) :
    get_split_axis p cs = get_split_axis_amended p cs := rfl

/-! ## Trace structure of the driver loop -/

/-- The raw event trace of a top-level insertion (`[]` when the run fails
or exhausts its fuel). -/
def insertTraceEvents (p : Params) (fuel : Nat) (tree : RTree) (t : Pt) :
    List Event :=
  match insert p fuel tree t with
  | .error _ => []
  | .ok r => r.2

/-- Adjacency discipline of driver traces: a `Reinsert` dispatch with a
nonempty node sequence is immediately followed by the dispatch of the
**last** node of that sequence (the farthest-detached one), at the same
level and with the same flag. -/
def TraceStep (e₁ e₂ : Event) : Prop :=
  ∀ l c ns, e₁ = .reinsertDispatch l c ns → ns ≠ [] →
    ∃ n, ns.getLast? = some n ∧ e₂ = .dispatch n l c

/-- The pending obligation between a trace and the work stack: if the trace
ends with a `Reinsert` dispatch of a nonempty sequence, the top of the stack
is that sequence's last node, tagged with the dispatch's level and flag. -/
def PendOK (tr : List Event) (stk : List (RTreeNode × Nat × Bool)) : Prop :=
  ∀ l c ns, tr.getLast? = some (.reinsertDispatch l c ns) → ns ≠ [] →
    ∃ n, ns.getLast? = some n ∧ stk.head? = some (n, l, c)

theorem head?_append_of_ne_nil {α : Type} {l l' : List α} (h : l ≠ []) :
    (l ++ l').head? = l.head? := by
  cases l with
  | nil => exact absurd rfl h
  | cons a as => rfl

theorem getLast?_map {α β : Type} (f : α → β) (l : List α) :
    (l.map f).getLast? = l.getLast?.map f := by
  induction l with
  | nil => rfl
  | cons a as ih =>
    cases as with
    | nil => rfl
    | cons b bs =>
      simp only [List.map_cons, List.getLast?_cons_cons] at *
      exact ih

theorem chain'_snoc {α : Type} {R : α → α → Prop} {l : List α} {e : α}
    (hl : List.Chain' R l) (he : ∀ x, l.getLast? = some x → R x e) :
    List.Chain' R (l ++ [e]) := by
  rw [List.chain'_append]
  refine ⟨hl, List.chain'_singleton e, ?_⟩
  intro x hx y hy
  simp only [List.head?_cons, Option.mem_def, Option.some.injEq] at hy
  subst hy
  exact he x hx

theorem getLast?_snoc {α : Type} (l : List α) (e : α) :
    (l ++ [e]).getLast? = some e := by
  simp

/-- The driver-loop invariant behind the amended C4: one loop step preserves
the trace adjacency discipline and the pending obligation. -/
theorem insert_loop_chain (p : Params) (fuel : Nat) :
    ∀ st st', insert_loop p fuel st = .ok st' →
      List.Chain' TraceStep st.trace → PendOK st.trace st.stack →
      List.Chain' TraceStep st'.trace ∧ PendOK st'.trace st'.stack := by
  induction fuel with
  | zero =>
    intro st st' h hc hp
    simp only [insert_loop, Except.ok.injEq] at h
    subst h
    exact ⟨hc, hp⟩
  | succ fuel ih =>
    intro st st' h hc hp
    rw [insert_loop] at h
    cases hstk : st.stack with
    | nil =>
      rw [hstk] at h
      simp only [Except.ok.injEq] at h
      subst h
      exact ⟨hc, hp⟩
    | cons entry stack_rest =>
      obtain ⟨next, node_height, can_reinsert⟩ := entry
      rw [hstk] at h
      simp only at h
      -- the trace after recording the dispatch event
      have hc1 : List.Chain' TraceStep
          (st.trace ++ [Event.dispatch next node_height can_reinsert]) := by
        refine chain'_snoc hc ?_
        intro x hx
        intro l c ns hx' hns
        subst hx'
        obtain ⟨n, hn, hhead⟩ := hp l c ns hx hns
        rw [hstk] at hhead
        simp only [List.head?_cons, Option.some.injEq, Prod.mk.injEq] at hhead
        obtain ⟨rfl, rfl, rfl⟩ := hhead
        exact ⟨next, hn, rfl⟩
      have hp1 : ∀ stk, PendOK
          (st.trace ++ [Event.dispatch next node_height can_reinsert]) stk := by
        intro stk l c ns hlast
        rw [getLast?_snoc] at hlast
        simp at hlast
      cases hri : recursive_insert p st.root next
          (st.tree_height - node_height - 1) can_reinsert with
      | error e => rw [hri] at h; exact absurd h (by simp)
      | ok pr =>
        obtain ⟨root', result⟩ := pr
        rw [hri] at h
        cases result with
        | Split node =>
          simp only at h
          have := ih _ _ h (by
            refine chain'_snoc hc1 ?_
            intro x hx l c ns hx' hns
            subst hx'
            rw [getLast?_snoc] at hx
            simp at hx) (by
            intro l c ns hlast
            rw [getLast?_snoc] at hlast
            simp at hlast)
          exact this
        | Reinsert nodes height =>
          simp only at h
          cases hflag : st.reinsertions[st.tree_height - height - 1]? with
          | none => rw [hflag] at h; exact absurd h (by simp)
          | some can =>
            rw [hflag] at h
            simp only at h
            refine ih _ _ h ?_ ?_
            · refine chain'_snoc hc1 ?_
              intro x hx l c ns hx' hns
              subst hx'
              rw [getLast?_snoc] at hx
              simp at hx
            · intro l c ns hlast
              rw [getLast?_snoc] at hlast
              simp only [Option.some.injEq, Event.reinsertDispatch.injEq] at hlast
              obtain ⟨rfl, rfl, rfl⟩ := hlast
              intro hns
              have hne : (nodes.map
                  (fun n => (n, st.tree_height - height - 1, can))).reverse ≠ [] := by
                simpa using hns
              cases hlast' : nodes.getLast? with
              | none => exact absurd (List.getLast?_eq_none_iff.mp hlast') hns
              | some n =>
                refine ⟨n, rfl, ?_⟩
                rw [head?_append_of_ne_nil hne]
                rw [List.head?_reverse, getLast?_map, hlast']
                rfl
        | Complete =>
          simp only at h
          exact ih _ _ h hc1 (hp1 _)

/-- **C4, amended.**  When forced reinsertion hands the driver a detached
sequence, the driver pushes the nodes onto its LIFO work stack in the
returned order, all at the same level and with the same flag, so every
`Reinsert` dispatch in the trace of a completed insertion is immediately
followed by the dispatch of the **last**-returned (farthest-detached) node
at that level — the detached nodes re-enter in reverse of the returned
order except where a nested reinsertion interleaves — and a completed
trace never ends on an unserved nonempty `Reinsert` dispatch. -/
theorem C4_amended_thm (p : Params) (fuel : Nat) (tree : RTree) (t : Pt) :
    List.Chain' TraceStep (insertTraceEvents p fuel tree t) ∧
      ∀ l c ns, (insertTraceEvents p fuel tree t).getLast? =
          some (.reinsertDispatch l c ns) → ns = [] := by
  unfold insertTraceEvents
  cases hins : insert p fuel tree t with
  | error e => simp
  | ok r =>
    unfold insert at hins
    simp only at hins
    cases hloop : insert_loop p fuel
        { tree_height := (if tree.size = 0 then { tree with height := 1 } else tree).height,
          root := (if tree.size = 0 then { tree with height := 1 } else tree).root,
          stack := [(.Leaf t, 0, true)],
          reinsertions := List.replicate
            (if tree.size = 0 then { tree with height := 1 } else tree).height true,
          trace := [] } with
    | error e => rw [hloop] at hins; exact absurd hins (by simp)
    | ok st =>
      rw [hloop] at hins
      simp only at hins
      by_cases hstk : st.stack.isEmpty
      · rw [if_pos hstk] at hins
        simp only [Except.ok.injEq] at hins
        subst hins
        have hmain := insert_loop_chain p fuel _ _ hloop
          (List.chain'_nil) (by intro l c ns hlast; simp at hlast)
        refine ⟨hmain.1, ?_⟩
        intro l c ns hlast
        by_contra hns
        obtain ⟨n, _, hhead⟩ := hmain.2 l c ns hlast hns
        rw [List.isEmpty_iff] at hstk
        rw [hstk] at hhead
        simp at hhead
      · rw [if_neg hstk] at hins
        exact absurd hins (by simp)

/-! ## First-argmin scans

The selection loops of `choose_subtree`, `get_split_axis` and `split` all
scan a candidate list keeping a running best that is replaced on strict
improvement (with a forced replacement on the first candidate).  The
following generic lemmas characterise such scans as first-occurrence
argmins. -/

section ScanArgmin

variable {α κ : Type} (lt : κ → κ → Prop) [DecidableRel lt]
variable (key : α → κ) (sel : α → Nat) (F : α → Prop) [DecidablePred F]

/-- One step of a strict-improvement scan: replace the running best
`(key, selection)` when the candidate's key improves on it, or when the
candidate is forced (`F`). -/
def scanStep (st : κ × Nat) (x : α) : κ × Nat :=
  if lt (key x) st.1 ∨ F x then (key x, sel x) else st

theorem scanFold_noforce
    (htrans : ∀ {a b c}, lt a b → lt b c → lt a c)
    (hirr : ∀ a, ¬ lt a a)
    (htot : ∀ a b, ¬ lt a b → ¬ lt b a → a = b) :
    ∀ (l : List α) (st : κ × Nat), (∀ x ∈ l, ¬ F x) →
    (l.foldl (scanStep lt key sel F) st = st ∧ ∀ x ∈ l, ¬ lt (key x) st.1) ∨
    (∃ i, ∃ hi : i < l.length,
      l.foldl (scanStep lt key sel F) st =
        (key (l.get ⟨i, hi⟩), sel (l.get ⟨i, hi⟩)) ∧
      lt (key (l.get ⟨i, hi⟩)) st.1 ∧
      (∀ x ∈ l, ¬ lt (key x) (key (l.get ⟨i, hi⟩))) ∧
      ∀ m (hm : m < i), lt (key (l.get ⟨i, hi⟩)) (key (l.get ⟨m, Nat.lt_trans hm hi⟩))) := by
  intro l
  induction l with
  | nil =>
    intro st hF
    left
    exact ⟨rfl, by intro x hx; simp at hx⟩
  | cons x xs ih =>
    intro st hF
    have hFx : ¬ F x := hF x (by simp)
    have hstep : scanStep lt key sel F st x =
        if lt (key x) st.1 then (key x, sel x) else st := by
      unfold scanStep
      by_cases hx : lt (key x) st.1
      · rw [if_pos (Or.inl hx), if_pos hx]
      · rw [if_neg ?_, if_neg hx]
        intro hor
        exact hor.elim hx hFx
    rw [List.foldl_cons, hstep]
    by_cases hx : lt (key x) st.1
    · rw [if_pos hx]
      rcases ih (key x, sel x) (fun y hy => hF y (by simp [hy])) with ⟨heq, hmin⟩ | h2
      · right
        refine ⟨0, by simp, ?_, ?_, ?_, ?_⟩
        · simpa using heq
        · simpa using hx
        · intro y hy
          simp only [List.get] at *
          rcases List.mem_cons.mp hy with rfl | hy
          · exact hirr (key y)
          · exact hmin y hy
        · intro m hm
          exact absurd hm (by omega)
      · obtain ⟨j, hj, heq, himp, hmin, hpre⟩ := h2
        right
        refine ⟨j + 1, by simpa using Nat.succ_lt_succ hj, ?_, ?_, ?_, ?_⟩
        · simpa using heq
        · exact htrans himp hx
        · intro y hy
          rcases List.mem_cons.mp hy with rfl | hy
          · intro hlt
            exact hirr _ (htrans himp hlt)
          · exact hmin y hy
        · intro m hm
          cases m with
          | zero => exact himp
          | succ m => exact hpre m (by omega)
    · rw [if_neg hx]
      rcases ih st (fun y hy => hF y (by simp [hy])) with ⟨heq, hmin⟩ | h2
      · left
        refine ⟨heq, ?_⟩
        intro y hy
        rcases List.mem_cons.mp hy with rfl | hy
        · exact hx
        · exact hmin y hy
      · obtain ⟨j, hj, heq, himp, hmin, hpre⟩ := h2
        right
        refine ⟨j + 1, by simpa using Nat.succ_lt_succ hj, ?_, ?_, ?_, ?_⟩
        · simpa using heq
        · exact himp
        · intro y hy
          rcases List.mem_cons.mp hy with rfl | hy
          · intro hlt
            exact hx (htrans hlt himp)
          · exact hmin y hy
        · intro m hm
          cases m with
          | zero =>
            by_contra hnlt
            have hnxw : ¬ lt (key x) (key ((x :: xs).get ⟨j + 1, by simpa using Nat.succ_lt_succ hj⟩)) := by
              intro hlt
              exact hx (htrans hlt himp)
            have := htot _ _ hnlt hnxw
            rw [show ((x :: xs).get ⟨0, by simp⟩) = x from rfl] at this
            rw [← this] at hx
            exact hx himp
          | succ m => exact hpre m (by omega)

theorem scanFold_forced
    (htrans : ∀ {a b c}, lt a b → lt b c → lt a c)
    (hirr : ∀ a, ¬ lt a a)
    (htot : ∀ a b, ¬ lt a b → ¬ lt b a → a = b)
    (x₀ : α) (xs : List α) (st₀ : κ × Nat)
    (hx₀ : F x₀) (hxs : ∀ x ∈ xs, ¬ F x) :
    ∃ i, ∃ hi : i < (x₀ :: xs).length,
      (x₀ :: xs).foldl (scanStep lt key sel F) st₀ =
        (key ((x₀ :: xs).get ⟨i, hi⟩), sel ((x₀ :: xs).get ⟨i, hi⟩)) ∧
      (∀ x ∈ x₀ :: xs, ¬ lt (key x) (key ((x₀ :: xs).get ⟨i, hi⟩))) ∧
      ∀ m (hm : m < i),
        lt (key ((x₀ :: xs).get ⟨i, hi⟩)) (key ((x₀ :: xs).get ⟨m, Nat.lt_trans hm hi⟩)) := by
  have hstep : scanStep lt key sel F st₀ x₀ = (key x₀, sel x₀) := by
    unfold scanStep
    rw [if_pos (Or.inr hx₀)]
  rw [List.foldl_cons, hstep]
  rcases scanFold_noforce lt key sel F htrans hirr htot xs (key x₀, sel x₀) hxs with
    ⟨heq, hmin⟩ | ⟨j, hj, heq, himp, hmin, hpre⟩
  · refine ⟨0, by simp, by simpa using heq, ?_, ?_⟩
    · intro y hy
      rcases List.mem_cons.mp hy with rfl | hy
      · exact hirr (key y)
      · exact hmin y hy
    · intro m hm
      exact absurd hm (by omega)
  · refine ⟨j + 1, by simpa using Nat.succ_lt_succ hj, by simpa using heq, ?_, ?_⟩
    · intro y hy
      rcases List.mem_cons.mp hy with rfl | hy
      · intro hlt
        exact hirr _ (htrans himp hlt)
      · exact hmin y hy
    · intro m hm
      cases m with
      | zero => exact himp
      | succ m => exact hpre m (by omega)

variable (G : α → Prop) [DecidablePred G]

/-- One step of a guarded strict-improvement scan (the inclusion loop of
`choose_subtree`): candidates failing the guard leave the state untouched;
passing candidates replace the running best on strict improvement. -/
def guardStep (st : κ × Nat) (x : α) : κ × Nat :=
  if G x then (if lt (key x) st.1 then (key x, sel x) else st) else st

theorem guardFold_spec
    (htrans : ∀ {a b c}, lt a b → lt b c → lt a c)
    (hirr : ∀ a, ¬ lt a a)
    (htot : ∀ a b, ¬ lt a b → ¬ lt b a → a = b) :
    ∀ (l : List α) (st : κ × Nat),
    (l.foldl (guardStep lt key sel G) st = st ∧
      ∀ x ∈ l, G x → ¬ lt (key x) st.1) ∨
    (∃ i, ∃ hi : i < l.length,
      G (l.get ⟨i, hi⟩) ∧
      l.foldl (guardStep lt key sel G) st =
        (key (l.get ⟨i, hi⟩), sel (l.get ⟨i, hi⟩)) ∧
      lt (key (l.get ⟨i, hi⟩)) st.1 ∧
      (∀ x ∈ l, G x → ¬ lt (key x) (key (l.get ⟨i, hi⟩))) ∧
      ∀ m (hm : m < i), G (l.get ⟨m, Nat.lt_trans hm hi⟩) →
        lt (key (l.get ⟨i, hi⟩)) (key (l.get ⟨m, Nat.lt_trans hm hi⟩))) := by
  intro l
  induction l with
  | nil =>
    intro st
    left
    exact ⟨rfl, by intro x hx; simp at hx⟩
  | cons x xs ih =>
    intro st
    by_cases hGx : G x
    · have hstep : guardStep lt key sel G st x =
          if lt (key x) st.1 then (key x, sel x) else st := by
        unfold guardStep
        rw [if_pos hGx]
      rw [List.foldl_cons, hstep]
      by_cases hx : lt (key x) st.1
      · rw [if_pos hx]
        rcases ih (key x, sel x) with ⟨heq, hmin⟩ | h2
        · right
          refine ⟨0, by simp, hGx, ?_, ?_, ?_, ?_⟩
          · simpa using heq
          · simpa using hx
          · intro y hy hGy
            rcases List.mem_cons.mp hy with rfl | hy
            · exact hirr (key y)
            · exact hmin y hy hGy
          · intro m hm
            exact absurd hm (by omega)
        · obtain ⟨j, hj, hGj, heq, himp, hmin, hpre⟩ := h2
          right
          refine ⟨j + 1, by simpa using Nat.succ_lt_succ hj, hGj, ?_, ?_, ?_, ?_⟩
          · simpa using heq
          · exact htrans himp hx
          · intro y hy hGy
            rcases List.mem_cons.mp hy with rfl | hy
            · intro hlt
              exact hirr _ (htrans himp hlt)
            · exact hmin y hy hGy
          · intro m hm
            cases m with
            | zero => intro _; exact himp
            | succ m => exact hpre m (by omega)
      · rw [if_neg hx]
        rcases ih st with ⟨heq, hmin⟩ | h2
        · left
          refine ⟨heq, ?_⟩
          intro y hy hGy
          rcases List.mem_cons.mp hy with rfl | hy
          · exact hx
          · exact hmin y hy hGy
        · obtain ⟨j, hj, hGj, heq, himp, hmin, hpre⟩ := h2
          right
          refine ⟨j + 1, by simpa using Nat.succ_lt_succ hj, hGj, ?_, ?_, ?_, ?_⟩
          · simpa using heq
          · exact himp
          · intro y hy hGy
            rcases List.mem_cons.mp hy with rfl | hy
            · intro hlt
              exact hx (htrans hlt himp)
            · exact hmin y hy hGy
          · intro m hm
            cases m with
            | zero =>
              intro _
              by_contra hnlt
              have hnxw : ¬ lt (key x)
                  (key ((x :: xs).get ⟨j + 1, by simpa using Nat.succ_lt_succ hj⟩)) := by
                intro hlt
                exact hx (htrans hlt himp)
              have := htot _ _ hnlt hnxw
              rw [show ((x :: xs).get ⟨0, by simp⟩) = x from rfl] at this
              rw [← this] at hx
              exact hx himp
            | succ m => exact hpre m (by omega)
    · have hstep : guardStep lt key sel G st x = st := by
        unfold guardStep
        rw [if_neg hGx]
      rw [List.foldl_cons, hstep]
      rcases ih st with ⟨heq, hmin⟩ | h2
      · left
        refine ⟨heq, ?_⟩
        intro y hy hGy
        rcases List.mem_cons.mp hy with rfl | hy
        · exact absurd hGy hGx
        · exact hmin y hy hGy
      · obtain ⟨j, hj, hGj, heq, himp, hmin, hpre⟩ := h2
        right
        refine ⟨j + 1, by simpa using Nat.succ_lt_succ hj, hGj, ?_, ?_, ?_, ?_⟩
        · simpa using heq
        · exact himp
        · intro y hy hGy
          rcases List.mem_cons.mp hy with rfl | hy
          · exact absurd hGy hGx
          · exact hmin y hy hGy
        · intro m hm
          cases m with
          | zero => intro hGy; exact absurd hGy hGx
          | succ m => exact hpre m (by omega)

end ScanArgmin

theorem lex2Lt_trans {a b c : S × S} (h₁ : lex2Lt a b) (h₂ : lex2Lt b c) :
    lex2Lt a c := by
  unfold lex2Lt at *
  rcases h₁ with h₁ | ⟨he₁, h₁⟩ <;> rcases h₂ with h₂ | ⟨he₂, h₂⟩
  · exact Or.inl (lt_trans h₁ h₂)
  · exact Or.inl (he₂ ▸ h₁)
  · exact Or.inl (he₁ ▸ h₂)
  · exact Or.inr ⟨he₁.trans he₂, lt_trans h₁ h₂⟩

theorem lex2Lt_irrefl (a : S × S) : ¬ lex2Lt a a := by
  unfold lex2Lt
  rintro (h | ⟨-, h⟩) <;> exact lt_irrefl _ h

theorem lex2Lt_total {a b : S × S} (h₁ : ¬ lex2Lt a b) (h₂ : ¬ lex2Lt b a) :
    a = b := by
  unfold lex2Lt at *
  push_neg at h₁ h₂
  obtain ⟨a₁, a₂⟩ := a
  obtain ⟨b₁, b₂⟩ := b
  simp only at *
  have he : a₁ = b₁ := le_antisymm h₂.1 h₁.1
  subst he
  have := le_antisymm (h₂.2 rfl) (h₁.2 rfl)
  rw [this]

theorem lex3Lt_trans {a b c : S × S × S} (h₁ : lex3Lt a b) (h₂ : lex3Lt b c) :
    lex3Lt a c := by
  unfold lex3Lt at *
  rcases h₁ with h₁ | ⟨he₁, h₁⟩ <;> rcases h₂ with h₂ | ⟨he₂, h₂⟩
  · exact Or.inl (lt_trans h₁ h₂)
  · exact Or.inl (he₂ ▸ h₁)
  · exact Or.inl (he₁ ▸ h₂)
  · refine Or.inr ⟨he₁.trans he₂, ?_⟩
    rcases h₁ with h₁ | ⟨hf₁, h₁⟩ <;> rcases h₂ with h₂ | ⟨hf₂, h₂⟩
    · exact Or.inl (lt_trans h₁ h₂)
    · exact Or.inl (hf₂ ▸ h₁)
    · exact Or.inl (hf₁ ▸ h₂)
    · exact Or.inr ⟨hf₁.trans hf₂, lt_trans h₁ h₂⟩

theorem lex3Lt_irrefl (a : S × S × S) : ¬ lex3Lt a a := by
  unfold lex3Lt
  rintro (h | ⟨-, h | ⟨-, h⟩⟩) <;> exact lt_irrefl _ h

theorem lex3Lt_total {a b : S × S × S} (h₁ : ¬ lex3Lt a b) (h₂ : ¬ lex3Lt b a) :
    a = b := by
  unfold lex3Lt at *
  push_neg at h₁ h₂
  obtain ⟨a₁, a₂, a₃⟩ := a
  obtain ⟨b₁, b₂, b₃⟩ := b
  simp only at *
  have he₁ : a₁ = b₁ := le_antisymm h₂.1 h₁.1
  subst he₁
  have h₁' := h₁.2 rfl
  have h₂' := h₂.2 rfl
  have he₂ : a₂ = b₂ := le_antisymm h₂'.1 h₁'.1
  subst he₂
  have := le_antisymm (h₂'.2 rfl) (h₁'.2 rfl)
  rw [this]

theorem foldl_preserves {β γ : Type} (P : β → Prop) (f : β → γ → β)
    (h : ∀ b a, P b → P (f b a)) : ∀ (l : List γ) (b : β), P b → P (l.foldl f b) := by
  intro l
  induction l with
  | nil => intro b hb; exact hb
  | cons a l ih => intro b hb; exact ih _ (h b a hb)

theorem align_envelopes_length (axis : Nat) (cs : List RTreeNode) :
    (align_envelopes axis cs).length = cs.length :=
  List.length_insertionSort _ cs

theorem get_split_axis_snd_length (p : Params) (cs : List RTreeNode) :
    (get_split_axis p cs).2.length = cs.length := by
  unfold get_split_axis
  refine foldl_preserves
    (fun (st : (S × Nat) × List RTreeNode) => st.2.length = cs.length)
    _ ?_ (List.range Pt.dimensions) _ rfl
  intro st axis hst
  simp only
  rw [align_envelopes_length]
  exact hst

/-- The child order on which `split` performs its index selection: the
children as left by `get_split_axis`'s in-place sorts, re-sorted along the
chosen axis. -/
def splitSorted (p : Params) (cs : List RTreeNode) : List RTreeNode :=
  align_envelopes (get_split_axis p cs).1 (get_split_axis p cs).2

theorem splitSorted_length (p : Params) (cs : List RTreeNode) :
    (splitSorted p cs).length = cs.length := by
  unfold splitSorted
  rw [align_envelopes_length, get_split_axis_snd_length]

/-- **C9.**  After fixing the split axis, `split` re-sorts the children on
that axis (`splitSorted`) and picks the index `k` in
`[MIN_SIZE, len − MIN_SIZE]` minimizing the lexicographic pair
`splitKey = (intersection_area(first_mbr, second_mbr),
area(first_mbr) + area(second_mbr))`, ties broken by first occurrence
(every smaller in-range index has a strictly greater key); it detaches the
suffix from `k` into a new `Parent` whose MBR is computed from the detached
children, and recomputes the original node's MBR from the remaining
prefix. -/
theorem C9_split_characterization (p : Params) (node : ParentNodeData)
    (hmin : 1 ≤ p.min_size) (hlen : 2 * p.min_size ≤ node.children.length) :
    ∃ k, p.min_size ≤ k ∧ k ≤ node.children.length - p.min_size ∧
      split p node =
        (⟨RTreeNode.mbr_for_children ((splitSorted p node.children).take k),
          (splitSorted p node.children).take k⟩,
         .Parent (RTreeNode.mbr_for_children ((splitSorted p node.children).drop k))
           ((splitSorted p node.children).drop k)) ∧
      (∀ j, p.min_size ≤ j → j ≤ node.children.length - p.min_size →
        ¬ lex2Lt (splitKey (splitSorted p node.children) j)
          (splitKey (splitSorted p node.children) k)) ∧
      (∀ j, p.min_size ≤ j → j < k →
        lex2Lt (splitKey (splitSorted p node.children) k)
          (splitKey (splitSorted p node.children) j)) := by
  have hslen : (splitSorted p node.children).length = node.children.length :=
    splitSorted_length p node.children
  set m := p.min_size with hm
  set sorted := splitSorted p node.children with hsorted
  set cnt := sorted.length - 2 * m + 1 - 1 with hcntdef
  have hrange : kRange m sorted.length = m :: List.range' (m + 1) cnt := by
    rw [kRange, show sorted.length - m + 1 - m = cnt + 1 by omega, List.range'_succ]
  have hLeq : m :: List.range' (m + 1) cnt = List.range' m (cnt + 1) :=
    (List.range'_succ m cnt 1).symm
  have hxs : ∀ x ∈ List.range' (m + 1) cnt, ¬ x = m := by
    intro x hx
    have := (List.mem_range'_1.mp hx).1
    omega
  obtain ⟨i, hi, heq, hminimal, hpre⟩ :=
    scanFold_forced lex2Lt (splitKey sorted) id (fun k => k = m)
      lex2Lt_trans lex2Lt_irrefl (fun a b => lex2Lt_total)
      m (List.range' (m + 1) cnt)
      (((0 : S), (0 : S)), m) rfl hxs
  have hget : ∀ (j : Nat) (hj : j < (m :: List.range' (m + 1) cnt).length),
      (m :: List.range' (m + 1) cnt).get ⟨j, hj⟩ = m + j := by
    intro j hj
    have := List.get_of_eq hLeq ⟨j, hj⟩
    rw [this, List.get_eq_getElem, List.getElem_range'_1]
  have hmem : ∀ j, j ∈ m :: List.range' (m + 1) cnt ↔ m ≤ j ∧ j < m + (cnt + 1) := by
    intro j
    rw [hLeq]
    exact List.mem_range'_1
  have hilen : i < cnt + 1 := by
    simpa only [List.length_cons, List.length_range'] using hi
  have hki := hget i hi
  refine ⟨m + i, by omega, by omega, ?_, ?_, ?_⟩
  · show split p node = _
    unfold split
    simp only
    rw [show align_envelopes (get_split_axis p node.children).1
        (get_split_axis p node.children).2 = sorted from rfl]
    rw [show (kRange m sorted.length).foldl
        (fun (st : (S × S) × Nat) k =>
          let new_best := splitKey sorted k
          if lex2Lt new_best st.1 ∨ k = m then (new_best, k) else st)
        (((0 : S), (0 : S)), m) =
        (kRange m sorted.length).foldl
          (scanStep lex2Lt (splitKey sorted) id (fun k => k = m))
          (((0 : S), (0 : S)), m) from rfl]
    rw [hrange, heq, hki]
    rfl
  · intro j hj₁ hj₂
    have hjmem : j ∈ m :: List.range' (m + 1) cnt := by
      rw [hmem]
      omega
    have := hminimal j hjmem
    rw [hki] at this
    exact this
  · intro j hj₁ hj₂
    have hjlt : j - m < i := by omega
    have := hpre (j - m) hjlt
    rw [hki, hget (j - m) (Nat.lt_trans hjlt hi)] at this
    rw [show m + (j - m) = j by omega] at this
    exact this

theorem inclusionStep_fst (imbr : Env) :
    ∀ (l : List (Nat × RTreeNode)) (st : Nat × WithTop S × Nat),
    (l.foldl (inclusionStep imbr) st).1 =
      st.1 + l.countP (fun ic => ic.2.mbr.contains_envelope imbr) := by
  intro l
  induction l with
  | nil => intro st; simp
  | cons ic l ih =>
    intro st
    rw [List.foldl_cons, ih, List.countP_cons]
    have hstep1 : (inclusionStep imbr st ic).1 =
        st.1 + if ic.2.mbr.contains_envelope imbr = true then 1 else 0 := by
      simp only [inclusionStep]
      split_ifs <;> simp_all
    rw [hstep1]
    split_ifs <;> omega

theorem inclusionStep_snd (imbr : Env) :
    ∀ (l : List (Nat × RTreeNode)) (st : Nat × WithTop S × Nat),
    (l.foldl (inclusionStep imbr) st).2 =
      l.foldl (guardStep (fun (a b : WithTop S) => a < b)
        (fun ic => ((ic.2.mbr.area : S) : WithTop S)) Prod.fst
        (fun ic => ic.2.mbr.contains_envelope imbr = true)) st.2 := by
  intro l
  induction l with
  | nil => intro st; rfl
  | cons ic l ih =>
    intro st
    rw [List.foldl_cons, List.foldl_cons, ih]
    congr 1
    simp only [inclusionStep, guardStep]
    split_ifs <;> simp

theorem withTopLt_trans {a b c : WithTop S} (h₁ : a < b) (h₂ : b < c) : a < c :=
  lt_trans h₁ h₂

theorem withTopLt_irrefl (a : WithTop S) : ¬ a < a := lt_irrefl a

theorem withTopLt_total {a b : WithTop S} (h₁ : ¬ a < b) (h₂ : ¬ b < a) : a = b :=
  le_antisymm (not_lt.mp h₂) (not_lt.mp h₁)

/-- **C7.**  `choose_subtree` first scans for children whose MBR contains
the incoming MBR; if any exist it returns the inclusive child of smallest
area, ties broken by first occurrence (every earlier inclusive child has
strictly larger area).  Only when no inclusive child exists does it return
the child minimizing the lexicographic triple
`chooseTriple = (overlap_increase, area_increase, area)` — where the
overlap increase is summed only when `all_leaves` and is `0` otherwise —
again with ties broken by first occurrence. -/
theorem C7_choose_subtree_characterization (node : ParentNodeData)
    (t : RTreeNode) (al : Bool) (hne : node.children ≠ []) :
    ∃ hr : choose_subtree_index node t al < node.children.length,
      ((∃ j, ∃ hj : j < node.children.length,
          (node.children.get ⟨j, hj⟩).mbr.contains_envelope t.mbr = true) →
        (node.children.get ⟨choose_subtree_index node t al, hr⟩).mbr.contains_envelope
            t.mbr = true ∧
        (∀ j (hj : j < node.children.length),
          (node.children.get ⟨j, hj⟩).mbr.contains_envelope t.mbr = true →
          ¬ (node.children.get ⟨j, hj⟩).mbr.area <
            (node.children.get ⟨choose_subtree_index node t al, hr⟩).mbr.area) ∧
        (∀ j (hj : j < node.children.length), j < choose_subtree_index node t al →
          (node.children.get ⟨j, hj⟩).mbr.contains_envelope t.mbr = true →
          (node.children.get ⟨choose_subtree_index node t al, hr⟩).mbr.area <
            (node.children.get ⟨j, hj⟩).mbr.area)) ∧
      ((¬ ∃ j, ∃ hj : j < node.children.length,
          (node.children.get ⟨j, hj⟩).mbr.contains_envelope t.mbr = true) →
        (∀ j (hj : j < node.children.length),
          ¬ lex3Lt (chooseTriple node.children t.mbr al (j, node.children.get ⟨j, hj⟩))
            (chooseTriple node.children t.mbr al
              (choose_subtree_index node t al,
               node.children.get ⟨choose_subtree_index node t al, hr⟩))) ∧
        (∀ j (hj : j < node.children.length), j < choose_subtree_index node t al →
          lex3Lt (chooseTriple node.children t.mbr al
              (choose_subtree_index node t al,
               node.children.get ⟨choose_subtree_index node t al, hr⟩))
            (chooseTriple node.children t.mbr al (j, node.children.get ⟨j, hj⟩)))) := by
  have henumlen : node.children.enum.length = node.children.length :=
    List.enum_length
  have hgetE : ∀ (j : Nat) (hj : j < node.children.enum.length),
      node.children.enum.get ⟨j, hj⟩ =
        (j, node.children.get ⟨j, henumlen ▸ hj⟩) := by
    intro j hj
    rw [List.get_eq_getElem, List.getElem_enum]
    rw [List.get_eq_getElem]
  by_cases hinc :
      (node.children.enum.foldl (inclusionStep t.mbr)
        ((0 : Nat), (⊤ : WithTop S), (0 : Nat))).1 = 0
  · -- no inclusive child: the non-inclusion scan decides
    have hnoincl : ∀ j (hj : j < node.children.length),
        ¬ (node.children.get ⟨j, hj⟩).mbr.contains_envelope t.mbr = true := by
      rw [inclusionStep_fst] at hinc
      simp only [Nat.zero_add] at hinc
      have := List.countP_eq_zero.mp hinc
      intro j hj hc
      refine this (node.children.enum.get ⟨j, henumlen ▸ hj⟩)
        (List.get_mem _ _ _) ?_
      rw [hgetE]
      simpa using hc
    obtain ⟨c₀, rest, hcs⟩ : ∃ c₀ rest, node.children = c₀ :: rest := by
      cases hc : node.children with
      | nil => exact absurd hc hne
      | cons a as => exact ⟨a, as, rfl⟩
    have henum : node.children.enum = (0, c₀) :: List.enumFrom 1 rest := by
      rw [hcs, List.enum_cons]
    have hxs : ∀ x ∈ List.enumFrom 1 rest, ¬ x.1 = 0 := by
      intro x hx
      have := List.le_fst_of_mem_enumFrom hx
      omega
    obtain ⟨i, hi, heq, hminimal, hpre⟩ :=
      scanFold_forced lex3Lt (chooseTriple node.children t.mbr al) Prod.fst
        (fun ic => ic.1 = 0) lex3Lt_trans lex3Lt_irrefl
        (fun a b => lex3Lt_total) (0, c₀) (List.enumFrom 1 rest)
        (((0 : S), (0 : S), (0 : S)),
          (((0, c₀) :: List.enumFrom 1 rest).foldl (inclusionStep t.mbr)
            ((0 : Nat), (⊤ : WithTop S), (0 : Nat))).2.2) rfl hxs
    have hconslen : ((0, c₀) :: List.enumFrom 1 rest).length =
        node.children.length := by
      rw [← henum, henumlen]
    have hgetC : ∀ (j : Nat) (hj : j < ((0, c₀) :: List.enumFrom 1 rest).length),
        ((0, c₀) :: List.enumFrom 1 rest).get ⟨j, hj⟩ =
          (j, node.children.get ⟨j, hconslen ▸ hj⟩) := by
      intro j hj
      have h1 := List.get_of_eq henum.symm ⟨j, hj⟩
      rw [h1, hgetE]
    have hilen : i < node.children.length := hconslen ▸ hi
    have hwin : ((0, c₀) :: List.enumFrom 1 rest).get ⟨i, hi⟩ =
        (i, node.children.get ⟨i, hilen⟩) := hgetC i hi
    have hreq : choose_subtree_index node t al = i := by
      simp only [choose_subtree_index]
      rw [if_pos hinc]
      rw [show (fun (st : (S × S × S) × Nat) ic =>
          let new_min := chooseTriple node.children t.mbr al ic
          if lex3Lt new_min st.1 ∨ ic.1 = 0 then (new_min, ic.1) else st) =
        scanStep lex3Lt (chooseTriple node.children t.mbr al) Prod.fst
          (fun ic => ic.1 = 0) from rfl]
      rw [henum, heq, hwin]
    rw [hreq]
    refine ⟨hilen, ?_, ?_⟩
    · intro hex
      obtain ⟨j, hj, hcj⟩ := hex
      exact absurd hcj (hnoincl j hj)
    · intro hnex
      constructor
      · intro j hj
        have hjm : ((0, c₀) :: List.enumFrom 1 rest).get ⟨j, hconslen ▸ hj⟩ ∈
            ((0, c₀) :: List.enumFrom 1 rest) := List.get_mem _ _ _
        have hmj := hminimal _ hjm
        rw [hgetC, hwin] at hmj
        exact hmj
      · intro j hj hjr
        have hpj := hpre j hjr
        rw [hwin, hgetC] at hpj
        exact hpj
  · -- an inclusive child exists: the inclusion scan decides
    have hcnt : 0 < (node.children.enum.foldl (inclusionStep t.mbr)
        ((0 : Nat), (⊤ : WithTop S), (0 : Nat))).1 := Nat.pos_of_ne_zero hinc
    rw [inclusionStep_fst] at hcnt
    simp only [Nat.zero_add] at hcnt
    obtain ⟨x, hxm, hxp⟩ := List.countP_pos.mp hcnt
    have hsnd := inclusionStep_snd t.mbr node.children.enum
      ((0 : Nat), (⊤ : WithTop S), (0 : Nat))
    rcases guardFold_spec (fun (a b : WithTop S) => a < b)
        (fun ic => ((ic.2.mbr.area : S) : WithTop S)) Prod.fst
        (fun ic => ic.2.mbr.contains_envelope t.mbr = true)
        withTopLt_trans withTopLt_irrefl (fun a b => withTopLt_total)
        node.children.enum ((⊤ : WithTop S), (0 : Nat)) with
      ⟨heq, hmin⟩ | ⟨i, hi, hG, heq, himp, hmin, hpre⟩
    · exact absurd (WithTop.coe_lt_top _) (hmin x hxm (by simpa using hxp))
    · have hilen : i < node.children.length := henumlen ▸ hi
      have hwin : node.children.enum.get ⟨i, hi⟩ =
          (i, node.children.get ⟨i, hilen⟩) := hgetE i hi
      have hreq : choose_subtree_index node t al = i := by
        simp only [choose_subtree_index]
        rw [if_neg hinc, hsnd, heq, hwin]
      rw [hreq]
      have hGi : (node.children.get ⟨i, hilen⟩).mbr.contains_envelope t.mbr = true := by
        have := hG
        rw [hwin] at this
        exact this
      refine ⟨hilen, ?_, ?_⟩
      · intro _
        refine ⟨hGi, ?_, ?_⟩
        · intro j hj hcj
          have hjm : node.children.enum.get ⟨j, henumlen ▸ hj⟩ ∈
              node.children.enum := List.get_mem _ _ _
          have hmj := hmin _ hjm (by rw [hgetE]; simpa using hcj)
          rw [hwin] at hmj
          intro hlt
          exact hmj (by rw [hgetE]; exact_mod_cast hlt)
        · intro j hj hjr hcj
          have hpj := hpre j hjr (by rw [hgetE]; simpa using hcj)
          rw [hwin, hgetE] at hpj
          exact_mod_cast hpj
      · intro hnex
        exact absurd ⟨i, hilen, hGi⟩ hnex

/-- A node used by the C7 witness: two parent children with exact MBRs,
neither containing the incoming point's envelope. -/
def nodeC7 : ParentNodeData :=
  ⟨RTreeNode.mbr_for_children
     [.Parent (RTreeNode.mbr_for_children [leafP 0 0, leafP 1 1]) [leafP 0 0, leafP 1 1],
      .Parent (RTreeNode.mbr_for_children [leafP 4 0, leafP 5 1]) [leafP 4 0, leafP 5 1]],
   [.Parent (RTreeNode.mbr_for_children [leafP 0 0, leafP 1 1]) [leafP 0 0, leafP 1 1],
    .Parent (RTreeNode.mbr_for_children [leafP 4 0, leafP 5 1]) [leafP 4 0, leafP 5 1]]⟩

/-- **C7, witness** for `C7_choose_subtree_characterization` at `nodeC7`
with the incoming leaf `(2, 3)`. -/
theorem C7_choose_subtree_witness :
    nodeC7.children ≠ [] ∧
    ∃ hr : choose_subtree_index nodeC7 (leafP 2 3) true < nodeC7.children.length,
      ((∃ j, ∃ hj : j < nodeC7.children.length,
          (nodeC7.children.get ⟨j, hj⟩).mbr.contains_envelope (leafP 2 3).mbr = true) →
        (nodeC7.children.get ⟨choose_subtree_index nodeC7 (leafP 2 3) true, hr⟩).mbr.contains_envelope
            (leafP 2 3).mbr = true ∧
        (∀ j (hj : j < nodeC7.children.length),
          (nodeC7.children.get ⟨j, hj⟩).mbr.contains_envelope (leafP 2 3).mbr = true →
          ¬ (nodeC7.children.get ⟨j, hj⟩).mbr.area <
            (nodeC7.children.get ⟨choose_subtree_index nodeC7 (leafP 2 3) true, hr⟩).mbr.area) ∧
        (∀ j (hj : j < nodeC7.children.length),
          j < choose_subtree_index nodeC7 (leafP 2 3) true →
          (nodeC7.children.get ⟨j, hj⟩).mbr.contains_envelope (leafP 2 3).mbr = true →
          (nodeC7.children.get ⟨choose_subtree_index nodeC7 (leafP 2 3) true, hr⟩).mbr.area <
            (nodeC7.children.get ⟨j, hj⟩).mbr.area)) ∧
      ((¬ ∃ j, ∃ hj : j < nodeC7.children.length,
          (nodeC7.children.get ⟨j, hj⟩).mbr.contains_envelope (leafP 2 3).mbr = true) →
        (∀ j (hj : j < nodeC7.children.length),
          ¬ lex3Lt (chooseTriple nodeC7.children (leafP 2 3).mbr true
              (j, nodeC7.children.get ⟨j, hj⟩))
            (chooseTriple nodeC7.children (leafP 2 3).mbr true
              (choose_subtree_index nodeC7 (leafP 2 3) true,
               nodeC7.children.get ⟨choose_subtree_index nodeC7 (leafP 2 3) true, hr⟩))) ∧
        (∀ j (hj : j < nodeC7.children.length),
          j < choose_subtree_index nodeC7 (leafP 2 3) true →
          lex3Lt (chooseTriple nodeC7.children (leafP 2 3).mbr true
              (choose_subtree_index nodeC7 (leafP 2 3) true,
               nodeC7.children.get ⟨choose_subtree_index nodeC7 (leafP 2 3) true, hr⟩))
            (chooseTriple nodeC7.children (leafP 2 3).mbr true
              (j, nodeC7.children.get ⟨j, hj⟩)))) :=
  ⟨by simp [nodeC7],
   C7_choose_subtree_characterization nodeC7 (leafP 2 3) true (by simp [nodeC7])⟩

/-- A concrete overflowing node for the C9 witness: four point leaves with
the exact merged MBR. -/
def nodeC9 : ParentNodeData :=
  ⟨RTreeNode.mbr_for_children [leafP 0 0, leafP 1 0, leafP 5 0, leafP 9 1],
   [leafP 0 0, leafP 1 0, leafP 5 0, leafP 9 1]⟩

/-- Parameters `MIN_SIZE = 2, MAX_SIZE = 4, REINSERTION_COUNT = 0` for the
C9 witness. -/
def paramsC9 : Params := ⟨2, 4, 0⟩

/-- **C9, witness** for `C9_split_characterization` at `paramsC9`/`nodeC9`. -/
theorem C9_split_witness :
    (1 ≤ paramsC9.min_size ∧ 2 * paramsC9.min_size ≤ nodeC9.children.length) ∧
    (∃ k, paramsC9.min_size ≤ k ∧
      k ≤ nodeC9.children.length - paramsC9.min_size ∧
      split paramsC9 nodeC9 =
        (⟨RTreeNode.mbr_for_children ((splitSorted paramsC9 nodeC9.children).take k),
          (splitSorted paramsC9 nodeC9.children).take k⟩,
         .Parent
           (RTreeNode.mbr_for_children ((splitSorted paramsC9 nodeC9.children).drop k))
           ((splitSorted paramsC9 nodeC9.children).drop k)) ∧
      (∀ j, paramsC9.min_size ≤ j →
        j ≤ nodeC9.children.length - paramsC9.min_size →
        ¬ lex2Lt (splitKey (splitSorted paramsC9 nodeC9.children) j)
          (splitKey (splitSorted paramsC9 nodeC9.children) k)) ∧
      (∀ j, paramsC9.min_size ≤ j → j < k →
        lex2Lt (splitKey (splitSorted paramsC9 nodeC9.children) k)
          (splitKey (splitSorted paramsC9 nodeC9.children) j))) :=
  ⟨⟨by decide, by decide⟩,
   C9_split_characterization paramsC9 nodeC9 (by decide) (by decide)⟩

/-- The trace discipline of the per-level reinsertion flags: of two
`Reinsert` dispatches at the same level, the later one carries
`allow_reinsert = false` for the nodes it pushes. -/
def LaterFalse (tr : List Event) : Prop :=
  ∀ (i j l : Nat) (c₁ : Bool) (ns₁ : List RTreeNode) (c₂ : Bool)
    (ns₂ : List RTreeNode), i < j →
    tr[i]? = some (.reinsertDispatch l c₁ ns₁) →
    tr[j]? = some (.reinsertDispatch l c₂ ns₂) → c₂ = false

/-- Once a level has dispatched a reinsertion, its flag is (and stays)
cleared. -/
def FlagsOK (st : InsertState) : Prop :=
  ∀ l c ns, (Event.reinsertDispatch l c ns) ∈ st.trace →
    st.reinsertions[l]? = some false

theorem LaterFalse_snoc_nonrd {tr : List Event} {e : Event}
    (h : LaterFalse tr) (he : ∀ l c ns, e ≠ .reinsertDispatch l c ns) :
    LaterFalse (tr ++ [e]) := by
  unfold LaterFalse
  intro i j l c₁ ns₁ c₂ ns₂ hij hi hj
  have hjlen : j < tr.length + 1 := by
    by_contra hlen
    rw [List.getElem?_eq_none (by simp; omega)] at hj
    exact absurd hj (by simp)
  by_cases hjl : j < tr.length
  · rw [List.getElem?_append_left hjl] at hj
    rw [List.getElem?_append_left (lt_trans hij hjl)] at hi
    exact h i j l c₁ ns₁ c₂ ns₂ hij hi hj
  · have hjeq : j = tr.length := by omega
    subst hjeq
    rw [List.getElem?_concat_length] at hj
    simp only [Option.some.injEq] at hj
    exact absurd hj (he l c₂ ns₂)

theorem LaterFalse_snoc_rd {tr : List Event} {l : Nat} {c : Bool}
    {ns : List RTreeNode} (h : LaterFalse tr)
    (hc : ∀ (i : Nat) (c₁ : Bool) (ns₁ : List RTreeNode),
      tr[i]? = some (.reinsertDispatch l c₁ ns₁) → c = false) :
    LaterFalse (tr ++ [.reinsertDispatch l c ns]) := by
  unfold LaterFalse
  intro i j l' c₁ ns₁ c₂ ns₂ hij hi hj
  have hjlen : j < tr.length + 1 := by
    by_contra hlen
    rw [List.getElem?_eq_none (by simp; omega)] at hj
    exact absurd hj (by simp)
  by_cases hjl : j < tr.length
  · rw [List.getElem?_append_left hjl] at hj
    rw [List.getElem?_append_left (lt_trans hij hjl)] at hi
    exact h i j l' c₁ ns₁ c₂ ns₂ hij hi hj
  · have hjeq : j = tr.length := by omega
    subst hjeq
    rw [List.getElem?_concat_length] at hj
    simp only [Option.some.injEq, Event.reinsertDispatch.injEq] at hj
    obtain ⟨rfl, rfl, rfl⟩ := hj
    rw [List.getElem?_append_left hij] at hi
    exact hc i c₁ ns₁ hi

/-- The driver-loop invariant behind the amended C6: each loop step
preserves the flag discipline of the trace. -/
theorem insert_loop_flags (p : Params) (fuel : Nat) :
    ∀ st st', insert_loop p fuel st = .ok st' →
      LaterFalse st.trace → FlagsOK st →
      LaterFalse st'.trace ∧ FlagsOK st' := by
  induction fuel with
  | zero =>
    intro st st' h hl hf
    simp only [insert_loop, Except.ok.injEq] at h
    subst h
    exact ⟨hl, hf⟩
  | succ fuel ih =>
    intro st st' h hl hf
    rw [insert_loop] at h
    cases hstk : st.stack with
    | nil =>
      rw [hstk] at h
      simp only [Except.ok.injEq] at h
      subst h
      exact ⟨hl, hf⟩
    | cons entry stack_rest =>
      obtain ⟨next, node_height, can_reinsert⟩ := entry
      rw [hstk] at h
      simp only at h
      have hl1 : LaterFalse
          (st.trace ++ [Event.dispatch next node_height can_reinsert]) :=
        LaterFalse_snoc_nonrd hl (by intro l c ns; simp)
      have hf1 : ∀ l c ns, (Event.reinsertDispatch l c ns) ∈
          st.trace ++ [Event.dispatch next node_height can_reinsert] →
          st.reinsertions[l]? = some false := by
        intro l c ns hmem
        rcases List.mem_append.mp hmem with hmem | hmem
        · exact hf l c ns hmem
        · simp at hmem
      cases hri : recursive_insert p st.root next
          (st.tree_height - node_height - 1) can_reinsert with
      | error e => rw [hri] at h; exact absurd h (by simp)
      | ok pr =>
        obtain ⟨root', result⟩ := pr
        rw [hri] at h
        cases result with
        | Split node =>
          simp only at h
          refine ih _ _ h ?_ ?_
          · exact LaterFalse_snoc_nonrd hl1 (by intro l c ns; simp)
          · intro l c ns hmem
            rcases List.mem_append.mp hmem with hmem | hmem
            · exact hf1 l c ns hmem
            · simp at hmem
        | Reinsert nodes height =>
          simp only at h
          cases hflag : st.reinsertions[st.tree_height - height - 1]? with
          | none => rw [hflag] at h; exact absurd h (by simp)
          | some can =>
            rw [hflag] at h
            simp only at h
            have hlevlt : st.tree_height - height - 1 < st.reinsertions.length := by
              by_contra hn
              rw [List.getElem?_eq_none (by omega)] at hflag
              exact absurd hflag (by simp)
            refine ih _ _ h ?_ ?_
            · refine LaterFalse_snoc_rd hl1 ?_
              intro i c₁ ns₁ hi
              have hmem : (Event.reinsertDispatch
                  (st.tree_height - height - 1) c₁ ns₁) ∈
                  st.trace ++ [Event.dispatch next node_height can_reinsert] :=
                List.getElem?_mem hi
              have := hf1 _ _ _ hmem
              rw [hflag] at this
              simp only [Option.some.injEq] at this
              exact this
            · intro l c' ns' hmem
              simp only []
              rcases List.mem_append.mp hmem with hmem | hmem
              · have hold := hf1 l c' ns' hmem
                by_cases hll : l = st.tree_height - height - 1
                · subst hll
                  rw [List.getElem?_set_self hlevlt]
                · rw [List.getElem?_set_ne (fun hh => hll hh.symm)]
                  exact hold
              · simp only [List.mem_singleton, Event.reinsertDispatch.injEq] at hmem
                obtain ⟨rfl, _, _⟩ := hmem
                rw [List.getElem?_set_self hlevlt]
        | Complete =>
          simp only at h
          exact ih _ _ h hl1 hf1

/-- **C6, amended.**  Within a single top-level insert call, the first
`Reinsert` dispatch at a given level reads the still-true flag — so the
nodes of the first batch carry `allow_reinsert = true` and may trigger a
second forced reinsertion at that level — and clears it; every `Reinsert`
dispatch at that level **after the first** reads the cleared flag and
pushes its nodes with `allow_reinsert = false`, so the overflows those
nodes cause resolve by split. -/
theorem C6_amended_thm (p : Params) (fuel : Nat) (tree : RTree) (t : Pt) :
    LaterFalse (insertTraceEvents p fuel tree t) := by
  unfold insertTraceEvents
  cases hins : insert p fuel tree t with
  | error e => intro i j l c₁ ns₁ c₂ ns₂ hij hi hj; simp at hi
  | ok r =>
    unfold insert at hins
    simp only at hins
    cases hloop : insert_loop p fuel
        { tree_height := (if tree.size = 0 then { tree with height := 1 } else tree).height,
          root := (if tree.size = 0 then { tree with height := 1 } else tree).root,
          stack := [(.Leaf t, 0, true)],
          reinsertions := List.replicate
            (if tree.size = 0 then { tree with height := 1 } else tree).height true,
          trace := [] } with
    | error e => rw [hloop] at hins; exact absurd hins (by simp)
    | ok st =>
      rw [hloop] at hins
      simp only at hins
      by_cases hstk : st.stack.isEmpty
      · rw [if_pos hstk] at hins
        simp only [Except.ok.injEq] at hins
        subst hins
        exact (insert_loop_flags p fuel _ _ hloop
          (by intro i j l c₁ ns₁ c₂ ns₂ hij hi hj; simp at hi)
          (by intro l c ns hmem; simp at hmem)).1
      · rw [if_neg hstk] at hins
        exact absurd hins (by simp)

/-! ## The MINMAXDIST bound and the pruning state of `nearest_neighbor` -/

/-- A node whose envelope is a well-formed box (nonempty, with ordered
bounds on each axis); every node reachable in a tree built by insertions
satisfies this. -/
def validMbr (c : RTreeNode) : Prop :=
  match c.mbr with
  | none => False
  | some b => b.lx ≤ b.ux ∧ b.ly ≤ b.uy

theorem axis_clamped_le_endpoint (l u p e : S) (hlu : l ≤ u)
    (he : e = l ∨ e = u) :
    (max 0 (max (l - p) (p - u))) * (max 0 (max (l - p) (p - u))) ≤
      (p - e) * (p - e) := by
  have h1 : max (l - p) (p - u) ≤ |p - e| := by
    rcases he with he | he <;> rw [he]
    · refine max_le ?_ ?_
      · calc l - p = -(p - l) := by ring
          _ ≤ |p - l| := neg_le_abs _
      · calc p - u ≤ p - l := by linarith
          _ ≤ |p - l| := le_abs_self _
    · refine max_le ?_ ?_
      · calc l - p ≤ u - p := by linarith
          _ = -(p - u) := by ring
          _ ≤ |p - u| := neg_le_abs _
      · exact le_abs_self _
  have habs : max 0 (max (l - p) (p - u)) ≤ |p - e| :=
    max_le (abs_nonneg _) h1
  have hd0 : (0 : S) ≤ max 0 (max (l - p) (p - u)) := le_max_left _ _
  calc (max 0 (max (l - p) (p - u))) * (max 0 (max (l - p) (p - u)))
      ≤ |p - e| * |p - e| := mul_self_le_mul_self hd0 habs
    _ = (p - e) * (p - e) := abs_mul_abs_self _

/-- The squared distance to a well-formed box never exceeds its MINMAXDIST
bound. -/
theorem Box.distance_2_le_min_max_dist_2 (b : Box) (p : Pt)
    (hx : b.lx ≤ b.ux) (hy : b.ly ≤ b.uy) :
    b.distance_2 p ≤ b.min_max_dist_2 p := by
  unfold Box.distance_2 Box.min_max_dist_2
  simp only
  apply le_min
  · refine add_le_add ?_ ?_
    · refine axis_clamped_le_endpoint b.lx b.ux p.x _ hx ?_
      split_ifs <;> simp
    · refine axis_clamped_le_endpoint b.ly b.uy p.y _ hy ?_
      split_ifs <;> simp
  · refine add_le_add ?_ ?_
    · refine axis_clamped_le_endpoint b.lx b.ux p.x _ hx ?_
      split_ifs <;> simp
    · refine axis_clamped_le_endpoint b.ly b.uy p.y _ hy ?_
      split_ifs <;> simp

/-- On a point payload's degenerate envelope, MINMAXDIST coincides with the
payload's squared distance. -/
theorem min_max_dist_2_ofPt (t q : Pt) :
    (Env.ofPt t).min_max_dist_2 q = dist2 t q := by
  unfold Env.ofPt Env.min_max_dist_2 Box.min_max_dist_2 dist2 Pt.sub Pt.length_2
  simp only [ite_self, min_self]
  ring

/-- The distance key a child is given on the heap never exceeds the
MINMAXDIST of its envelope. -/
theorem childDistance_le_min_max (q : Pt) (c : RTreeNode) (hv : validMbr c) :
    childDistance q c ≤ Env.min_max_dist_2 c.mbr q := by
  cases c with
  | Leaf t =>
    show dist2 t q ≤ (Env.ofPt t).min_max_dist_2 q
    rw [min_max_dist_2_ofPt]
  | Parent m cs =>
    unfold validMbr at hv
    cases m with
    | none => exact absurd hv (by simp [RTreeNode.mbr])
    | some b =>
      simp only [RTreeNode.mbr] at hv
      exact Box.distance_2_le_min_max_dist_2 b q hv.1 hv.2

/-- **C3.**  During the single-result search's heap expansion, the final
pruning bound equals the fold of
`min(smallest_min_max, child.envelope().min_max_dist_2(query))` over
**every** considered child — whether or not the child's `distance_2` key
passed the push test.  (The source executes the update only inside the
push branch, but a skipped child has `distance_2 > smallest_min_max` and
`min_max_dist_2 ≥ distance_2`, so its update could never lower the
bound.) -/
theorem C3_extend_heap_bound (q : Pt) (heap : Heap) (mm : WithTop S)
    (cs : List RTreeNode) (hv : ∀ c ∈ cs, validMbr c) :
    (nnExtendHeap q heap mm cs).2 =
      cs.foldl (fun acc c => min acc ((c.mbr.min_max_dist_2 q : S) : WithTop S)) mm := by
  induction cs generalizing heap mm with
  | nil => rfl
  | cons c cs ih =>
    rw [List.foldl_cons]
    simp only [nnExtendHeap]
    by_cases hle : ((childDistance q c : S) : WithTop S) ≤ mm
    · rw [if_pos hle]
      exact ih _ _ (fun x hx => hv x (by simp [hx]))
    · rw [if_neg hle]
      have hlt : mm < ((childDistance q c : S) : WithTop S) := not_le.mp hle
      have hmmle : mm ≤ ((c.mbr.min_max_dist_2 q : S) : WithTop S) := by
        refine le_of_lt (lt_of_lt_of_le hlt ?_)
        exact_mod_cast childDistance_le_min_max q c (hv c (by simp))
      rw [show min mm ((c.mbr.min_max_dist_2 q : S) : WithTop S) = mm from
        min_eq_left hmmle]
      exact ih _ _ (fun x hx => hv x (by simp [hx]))

/-- **C3, witness** for `C3_extend_heap_bound`: a query and two parent
children, the second of which fails the push test after the first has
tightened the bound. -/
theorem C3_extend_heap_witness :
    (∀ c ∈ [RTreeNode.Parent (some ⟨1, 2, 0, 1⟩) [leafP 1 0, leafP 2 1],
            RTreeNode.Parent (some ⟨100, 101, 0, 1⟩) [leafP 100 0, leafP 101 1]],
       validMbr c) ∧
    (nnExtendHeap ⟨0, 0⟩ [] ⊤
        [RTreeNode.Parent (some ⟨1, 2, 0, 1⟩) [leafP 1 0, leafP 2 1],
         RTreeNode.Parent (some ⟨100, 101, 0, 1⟩) [leafP 100 0, leafP 101 1]]).2 =
      [RTreeNode.Parent (some ⟨1, 2, 0, 1⟩) [leafP 1 0, leafP 2 1],
       RTreeNode.Parent (some ⟨100, 101, 0, 1⟩) [leafP 100 0, leafP 101 1]].foldl
        (fun acc c =>
          min acc ((c.mbr.min_max_dist_2 ⟨0, 0⟩ : S) : WithTop S)) ⊤ :=
  ⟨by intro c hc; fin_cases hc <;> (unfold validMbr; simp [RTreeNode.mbr]; try norm_num),
   C3_extend_heap_bound ⟨0, 0⟩ [] ⊤ _
     (by intro c hc; fin_cases hc <;> (unfold validMbr; simp [RTreeNode.mbr]; try norm_num))⟩

/-! ## Index safety of the per-level reinsertion flags -/

theorem resolve_overflow_cases (p : Params) (node : ParentNodeData)
    (allow : Bool) :
    (∀ n, (resolve_overflow p node allow).2 = .Split n →
       p.reinsertion_count = 0 ∨ allow = false) ∧
    (∀ ns h, (resolve_overflow p node allow).2 = .Reinsert ns h →
       h = 0 ∧ p.reinsertion_count ≠ 0 ∧ allow = true) := by
  unfold resolve_overflow
  split_ifs with h1 h2
  · exact ⟨fun n _ => h2, fun ns h hr => by simp at hr⟩
  · push_neg at h2
    refine ⟨fun n hs => by simp at hs, fun ns h hr => ?_⟩
    simp only [InsertionResult.Reinsert.injEq] at hr
    exact ⟨hr.2.symm, h2.1, by simpa using h2.2⟩
  · exact ⟨fun n hs => by simp at hs, fun ns h hr => by simp at hr⟩

theorem recursive_insert_result_cases (p : Params) :
    ∀ (target : Nat) (node : ParentNodeData) (t : RTreeNode) (allow : Bool)
      (res : ParentNodeData × InsertionResult),
      recursive_insert p node t target allow = .ok res →
      (∀ n, res.2 = .Split n → p.reinsertion_count = 0 ∨ allow = false) ∧
      (∀ ns h, res.2 = .Reinsert ns h → h = target) := by
  intro target
  induction target with
  | zero =>
    intro node t allow res hres
    unfold recursive_insert at hres
    simp only [Except.ok.injEq] at hres
    subst hres
    obtain ⟨hs, hr⟩ := resolve_overflow_cases p
      ⟨(node.mbr.merge t.mbr), node.children ++ [t]⟩ allow
    exact ⟨hs, fun ns h hh => (hr ns h hh).1⟩
  | succ n ih =>
    intro node t allow res hres
    rw [recursive_insert] at hres
    split at hres
    · exact absurd hres (by simp)
    · exact absurd hres (by simp)
    · rename_i m cs heq
      split at hres
      · exact absurd hres (by simp)
      · rename_i follow cres heq2
        obtain ⟨ihs, ihr⟩ := ih _ t allow (follow, cres) heq2
        cases cres with
        | Split child =>
          simp only [Except.ok.injEq] at hres
          subst hres
          obtain ⟨hs, hr⟩ := resolve_overflow_cases p _ allow
          refine ⟨hs, fun ns h hh => ?_⟩
          obtain ⟨_, hrc, hallow⟩ := hr ns h hh
          rcases ihs child rfl with h0 | h0
          · exact absurd h0 hrc
          · rw [h0] at hallow; exact absurd hallow (by simp)
        | Reinsert ns' h' =>
          simp only [Except.ok.injEq] at hres
          subst hres
          refine ⟨fun n hs => by simp at hs, fun ns h hh => ?_⟩
          simp only [InsertionResult.Reinsert.injEq] at hh
          rw [← hh.2, ihr ns' h' rfl]
        | Complete =>
          simp only [Except.ok.injEq] at hres
          subst hres
          exact ⟨fun n hs => by simp at hs, fun ns h hh => by simp at hh⟩

theorem recursive_insert_no_reinsert_panic (p : Params) :
    ∀ (target : Nat) (node : ParentNodeData) (t : RTreeNode) (allow : Bool),
      recursive_insert p node t target allow ≠ .error .reinsertIndexPanic := by
  intro target
  induction target with
  | zero =>
    intro node t allow
    unfold recursive_insert
    simp
  | succ n ih =>
    intro node t allow
    rw [recursive_insert]
    split
    · simp
    · simp
    · rename_i m cs heq
      split
      · rename_i e heq2
        intro hcontra
        simp only [Except.error.injEq] at hcontra
        subst hcontra
        exact ih _ t allow heq2
      · rename_i follow cres heq2
        cases cres <;> simp

/-- The driver-loop invariant behind C10: every stacked entry's
`node_height` is in bounds for the flags array, whose length never exceeds
the current tree height; under it the loop can never fail the
`reinsertions[node_height]` access. -/
theorem insert_loop_no_reinsert_panic (p : Params) (fuel : Nat) :
    ∀ st,
      (∀ e ∈ st.stack, e.2.1 < st.reinsertions.length) →
      st.reinsertions.length ≤ st.tree_height →
      insert_loop p fuel st ≠ .error .reinsertIndexPanic := by
  induction fuel with
  | zero =>
    intro st hstk hlen
    simp [insert_loop]
  | succ fuel ih =>
    intro st hstk hlen
    rw [insert_loop]
    cases hstack : st.stack with
    | nil => simp
    | cons entry stack_rest =>
      obtain ⟨next, node_height, can_reinsert⟩ := entry
      have hnh : node_height < st.reinsertions.length :=
        hstk (next, node_height, can_reinsert) (by rw [hstack]; simp)
      simp only
      cases hri : recursive_insert p st.root next
          (st.tree_height - node_height - 1) can_reinsert with
      | error e =>
        intro hcontra
        simp only [Except.error.injEq] at hcontra
        subst hcontra
        exact recursive_insert_no_reinsert_panic p _ _ _ _ hri
      | ok pr =>
        obtain ⟨root', result⟩ := pr
        cases result with
        | Split node =>
          refine ih _ ?_ ?_
          · intro e he
            exact hstk e (by rw [hstack]; simp; right; exact he)
          · simp only
            omega
        | Reinsert nodes height =>
          have hh := (recursive_insert_result_cases p _ _ _ _ _ hri).2 nodes
            height rfl
          have hlevel : st.tree_height - height - 1 = node_height := by
            omega
          simp only
          rw [hlevel]
          cases hflag : st.reinsertions[node_height]? with
          | none =>
            rw [List.getElem?_eq_getElem hnh] at hflag
            exact absurd hflag (by simp)
          | some can =>
            refine ih _ ?_ ?_
            · intro e he
              simp only [List.mem_append, List.mem_reverse, List.mem_map] at he
              rcases he with ⟨n, _, rfl⟩ | he
              · simpa [List.length_set] using hnh
              · have := hstk e (by rw [hstack]; simp; right; exact he)
                simpa [List.length_set] using this
            · simpa [List.length_set] using hlen
        | Complete =>
          refine ih _ ?_ ?_
          · intro e he
            exact hstk e (by rw [hstack]; simp; right; exact he)
          · exact hlen

/-- **C10.**  In every top-level insert call, every read and write of
`reinsertions[node_height]` in the driver loop stays strictly below the
array's length — fixed at the tree height observed at the start of the
call — including runs in which a root split increments the tree height
mid-call: the embedded driver, which fails with `reinsertIndexPanic`
exactly when such an access would be out of bounds (and performs its write
at the same index as the successful read), never returns that error. -/
theorem C10_reinsertions_in_bounds (p : Params) (fuel : Nat) (tree : RTree)
    (t : Pt) (hh : tree.size = 0 ∨ 1 ≤ tree.height) :
    insert p fuel tree t ≠ .error .reinsertIndexPanic := by
  unfold insert
  simp only
  have hh1 : 1 ≤ (if tree.size = 0 then { tree with height := 1 } else tree).height := by
    split_ifs with hsz
    · simp
    · rcases hh with hh | hh
      · exact absurd hh hsz
      · exact hh
  cases hloop : insert_loop p fuel
      { tree_height := (if tree.size = 0 then { tree with height := 1 } else tree).height,
        root := (if tree.size = 0 then { tree with height := 1 } else tree).root,
        stack := [(.Leaf t, 0, true)],
        reinsertions := List.replicate
          (if tree.size = 0 then { tree with height := 1 } else tree).height true,
        trace := [] } with
  | error e =>
    intro hcontra
    simp only [Except.error.injEq] at hcontra
    subst hcontra
    refine insert_loop_no_reinsert_panic p fuel _ ?_ ?_ hloop
    · intro e he
      simp only [List.mem_singleton] at he
      subst he
      simpa using hh1
    · simp
  | ok st =>
    by_cases hstk : st.stack.isEmpty <;> simp [hstk]

/-! ## MBR exactness (C5)

The invariant of the claim — every `Parent` stores exactly the merged
envelope of its children — is written as a decidable predicate following
the spec's words (`mbr == merge(child.envelope() for child in children)`)
and proved to be preserved by the embedded insertion code. -/

mutual
/-- Every `Parent` in the subtree satisfies
`mbr = mbr_for_children children`. -/
def RTreeNode.exactMbrs : RTreeNode → Bool
  | .Leaf _ => true
  | .Parent m cs =>
    decide (m = RTreeNode.mbr_for_children cs) && RTreeNode.exactMbrsList cs
/-- `exactMbrs` over a child sequence. -/
def RTreeNode.exactMbrsList : List RTreeNode → Bool
  | [] => true
  | c :: cs => c.exactMbrs && RTreeNode.exactMbrsList cs
end

/-- The exactness invariant on a `ParentNodeData`, the node itself
included. -/
def ParentNodeData.exactMbrs (d : ParentNodeData) : Bool :=
  decide (d.mbr = RTreeNode.mbr_for_children d.children) &&
    RTreeNode.exactMbrsList d.children

theorem exactMbrsList_iff (cs : List RTreeNode) :
    RTreeNode.exactMbrsList cs = true ↔ ∀ c ∈ cs, c.exactMbrs = true := by
  induction cs with
  | nil => simp [RTreeNode.exactMbrsList]
  | cons c cs ih => simp [RTreeNode.exactMbrsList, ih]

theorem exactMbrs_parent (m : Env) (cs : List RTreeNode) :
    (RTreeNode.Parent m cs).exactMbrs = true ↔
      m = RTreeNode.mbr_for_children cs ∧
        RTreeNode.exactMbrsList cs = true := by
  simp [RTreeNode.exactMbrs]

theorem ParentNodeData.exactMbrs_iff (d : ParentNodeData) :
    d.exactMbrs = true ↔
      d.mbr = RTreeNode.mbr_for_children d.children ∧
        RTreeNode.exactMbrsList d.children = true := by
  simp [ParentNodeData.exactMbrs]

theorem toNode_exactMbrs (d : ParentNodeData) :
    d.toNode.exactMbrs = d.exactMbrs := rfl

theorem Env.merge_comm (a b : Env) : a.merge b = b.merge a :=
  Std.Commutative.comm a b

theorem Env.merge_assoc (a b c : Env) :
    (a.merge b).merge c = a.merge (b.merge c) :=
  Std.Associative.assoc a b c

theorem Env.merge_none_right (a : Env) : a.merge none = a := by
  cases a <;> rfl

theorem Env.merge_idem (a : Env) : a.merge a = a := by
  cases a <;> simp [Env.merge, Box.merge]

theorem Env.merge_absorb (a b : Env) : (a.merge b).merge b = a.merge b := by
  rw [Env.merge_assoc, Env.merge_idem]

theorem mbr_for_children_nil : RTreeNode.mbr_for_children [] = none := rfl

theorem mbr_for_children_cons (c : RTreeNode) (cs : List RTreeNode) :
    RTreeNode.mbr_for_children (c :: cs) =
      Env.merge c.mbr (RTreeNode.mbr_for_children cs) := rfl

theorem mbr_for_children_append (l₁ l₂ : List RTreeNode) :
    RTreeNode.mbr_for_children (l₁ ++ l₂) =
      Env.merge (RTreeNode.mbr_for_children l₁)
        (RTreeNode.mbr_for_children l₂) := by
  induction l₁ with
  | nil => rfl
  | cons c l ih =>
    simp only [List.cons_append, mbr_for_children_cons, ih, Env.merge_assoc]

theorem mbr_for_children_perm {l₁ l₂ : List RTreeNode} (h : l₁.Perm l₂) :
    RTreeNode.mbr_for_children l₁ = RTreeNode.mbr_for_children l₂ := by
  induction h with
  | nil => rfl
  | cons x _ ih => rw [mbr_for_children_cons, mbr_for_children_cons, ih]
  | swap x y l =>
    rw [mbr_for_children_cons, mbr_for_children_cons, mbr_for_children_cons,
      mbr_for_children_cons, ← Env.merge_assoc, ← Env.merge_assoc,
      Env.merge_comm y.mbr x.mbr]
  | trans _ _ ih₁ ih₂ => rw [ih₁, ih₂]

theorem mbr_for_children_set (c : RTreeNode) :
    ∀ (cs : List RTreeNode) (i : Nat), i < cs.length →
      RTreeNode.mbr_for_children (cs.set i c) =
        Env.merge (RTreeNode.mbr_for_children (cs.take i))
          (Env.merge c.mbr
            (RTreeNode.mbr_for_children (cs.drop (i + 1)))) := by
  intro cs
  induction cs with
  | nil => intro i hi; simp at hi
  | cons c0 cs ih =>
    intro i hi
    cases i with
    | zero => rfl
    | succ i =>
      simp only [List.set_cons_succ, mbr_for_children_cons,
        List.take_succ_cons, List.drop_succ_cons]
      rw [ih i (by simpa using hi), Env.merge_assoc]

theorem mbr_for_children_split_at :
    ∀ (cs : List RTreeNode) (i : Nat) (hi : i < cs.length),
      RTreeNode.mbr_for_children cs =
        Env.merge (RTreeNode.mbr_for_children (cs.take i))
          (Env.merge (cs.get ⟨i, hi⟩).mbr
            (RTreeNode.mbr_for_children (cs.drop (i + 1)))) := by
  intro cs
  induction cs with
  | nil => intro i hi; simp at hi
  | cons c0 cs ih =>
    intro i hi
    cases i with
    | zero => rfl
    | succ i =>
      simp only [mbr_for_children_cons, List.take_succ_cons,
        List.drop_succ_cons, List.get_cons_succ]
      rw [ih i (by simpa using hi), Env.merge_assoc]

theorem exactMbrsList_perm {l₁ l₂ : List RTreeNode} (h : l₁.Perm l₂)
    (he : RTreeNode.exactMbrsList l₁ = true) :
    RTreeNode.exactMbrsList l₂ = true := by
  rw [exactMbrsList_iff] at he ⊢
  exact fun c hc => he c (h.mem_iff.mpr hc)

theorem exactMbrsList_take {l : List RTreeNode} (n : Nat)
    (he : RTreeNode.exactMbrsList l = true) :
    RTreeNode.exactMbrsList (l.take n) = true := by
  rw [exactMbrsList_iff] at he ⊢
  exact fun c hc => he c (List.mem_of_mem_take hc)

theorem exactMbrsList_drop {l : List RTreeNode} (n : Nat)
    (he : RTreeNode.exactMbrsList l = true) :
    RTreeNode.exactMbrsList (l.drop n) = true := by
  rw [exactMbrsList_iff] at he ⊢
  exact fun c hc => he c (List.mem_of_mem_drop hc)

theorem align_envelopes_perm (axis : Nat) (cs : List RTreeNode) :
    (align_envelopes axis cs).Perm cs :=
  List.perm_insertionSort _ cs

theorem get_split_axis_snd_perm (p : Params) (cs : List RTreeNode) :
    (get_split_axis p cs).2.Perm cs := by
  unfold get_split_axis
  refine foldl_preserves
    (fun (st : (S × Nat) × List RTreeNode) => st.2.Perm cs)
    _ ?_ (List.range Pt.dimensions) _ (List.Perm.refl cs)
  intro st axis hst
  simp only
  exact (align_envelopes_perm axis st.2).trans hst

theorem splitSorted_perm (p : Params) (cs : List RTreeNode) :
    (splitSorted p cs).Perm cs :=
  (align_envelopes_perm _ _).trans (get_split_axis_snd_perm p cs)

theorem split_eq (p : Params) (node : ParentNodeData) :
    ∃ k, split p node =
      (⟨RTreeNode.mbr_for_children ((splitSorted p node.children).take k),
        (splitSorted p node.children).take k⟩,
       .Parent
         (RTreeNode.mbr_for_children ((splitSorted p node.children).drop k))
         ((splitSorted p node.children).drop k)) := by
  unfold split splitSorted
  exact ⟨_, rfl⟩

theorem resolve_overflow_exact (p : Params) (node : ParentNodeData)
    (allow : Bool)
    (hx : node.mbr = RTreeNode.mbr_for_children node.children)
    (hcs : RTreeNode.exactMbrsList node.children = true) :
    ((resolve_overflow p node allow).1.mbr =
        RTreeNode.mbr_for_children (resolve_overflow p node allow).1.children ∧
      RTreeNode.exactMbrsList (resolve_overflow p node allow).1.children
        = true) ∧
    (∀ child, (resolve_overflow p node allow).2 = .Split child →
      child.exactMbrs = true ∧
      Env.merge (resolve_overflow p node allow).1.mbr child.mbr = node.mbr) ∧
    (∀ ns h, (resolve_overflow p node allow).2 = .Reinsert ns h →
      ∀ nd ∈ ns, nd.exactMbrs = true) ∧
    ((resolve_overflow p node allow).2 = .Complete →
      (resolve_overflow p node allow).1 = node) := by
  unfold resolve_overflow
  split_ifs with h1 h2
  · -- overflow, split
    obtain ⟨k, hsplit⟩ := split_eq p node
    simp only [hsplit]
    have hperm := splitSorted_perm p node.children
    have hex : RTreeNode.exactMbrsList (splitSorted p node.children) = true :=
      exactMbrsList_perm hperm.symm hcs
    refine ⟨⟨trivial, exactMbrsList_take k hex⟩, ?_, ?_, ?_⟩
    · intro child hchild
      simp only [InsertionResult.Split.injEq] at hchild
      subst hchild
      refine ⟨?_, ?_⟩
      · rw [exactMbrs_parent]
        exact ⟨rfl, exactMbrsList_drop k hex⟩
      · simp only [RTreeNode.mbr]
        rw [← mbr_for_children_append, List.take_append_drop,
          mbr_for_children_perm hperm, hx]
    · intro ns h hcontra; simp at hcontra
    · intro hcontra; simp at hcontra
  · -- overflow, reinsert
    simp only [reinsert]
    have hperm : (node.children.insertionSort
        (reinsertLe node.mbr.center)).Perm node.children :=
      List.perm_insertionSort _ _
    have hex : RTreeNode.exactMbrsList
        (node.children.insertionSort (reinsertLe node.mbr.center)) = true :=
      exactMbrsList_perm hperm.symm hcs
    refine ⟨⟨trivial, exactMbrsList_take _ hex⟩, ?_, ?_, ?_⟩
    · intro child hcontra; simp at hcontra
    · intro ns h hns
      simp only [InsertionResult.Reinsert.injEq] at hns
      intro nd hnd
      rw [← hns.1] at hnd
      exact (exactMbrsList_iff _).mp hex nd (List.mem_of_mem_drop hnd)
    · intro hcontra; simp at hcontra
  · -- no overflow
    refine ⟨⟨hx, hcs⟩, ?_, ?_, fun _ => rfl⟩
    · intro child hcontra; simp at hcontra
    · intro ns h hcontra; simp at hcontra

theorem env_step_split (A B m tm f c : Env)
    (hcu : Env.merge f c = Env.merge m tm) :
    Env.merge (Env.merge (Env.merge A (Env.merge m B)) tm) c =
      Env.merge (Env.merge A (Env.merge f B)) c := by
  have h1 : Env.merge (Env.merge (Env.merge A (Env.merge m B)) tm) c
      = Env.merge (Env.merge A B) (Env.merge (Env.merge m tm) c) := by
    ac_rfl
  rw [h1, ← hcu, Env.merge_absorb]
  ac_rfl

theorem env_absorb_split (A B m tm f c : Env)
    (hcu : Env.merge f c = Env.merge m tm) :
    Env.merge (Env.merge (Env.merge A (Env.merge m B)) tm) c =
      Env.merge (Env.merge A (Env.merge m B)) tm := by
  have h1 : Env.merge (Env.merge (Env.merge A (Env.merge m B)) tm) c
      = Env.merge (Env.merge A B) (Env.merge (Env.merge m tm) c) := by
    ac_rfl
  rw [h1, ← hcu, Env.merge_absorb, hcu]
  ac_rfl

theorem getElem?_some_lt {α : Type} {l : List α} {i : Nat} {c : α}
    (h : l[i]? = some c) : i < l.length := by
  by_contra hc
  rw [List.getElem?_eq_none (by omega)] at h
  exact absurd h (by simp)

theorem getElem?_some_get {α : Type} {l : List α} {i : Nat} {c : α}
    (h : l[i]? = some c) (hi : i < l.length) : l.get ⟨i, hi⟩ = c := by
  rw [List.getElem?_eq_getElem hi] at h
  simpa using h

theorem exactMbrsList_set {cs : List RTreeNode} {i : Nat} {c : RTreeNode}
    (hcs : RTreeNode.exactMbrsList cs = true) (hc : c.exactMbrs = true) :
    RTreeNode.exactMbrsList (cs.set i c) = true := by
  rw [exactMbrsList_iff]
  intro d hd
  rcases List.mem_or_eq_of_mem_set hd with hd | rfl
  · exact (exactMbrsList_iff _).mp hcs d hd
  · exact hc

theorem toNode_mbr (d : ParentNodeData) : d.toNode.mbr = d.mbr := rfl

theorem exactMbrsList_append_one {cs : List RTreeNode} {c : RTreeNode}
    (h1 : RTreeNode.exactMbrsList cs = true) (h2 : c.exactMbrs = true) :
    RTreeNode.exactMbrsList (cs ++ [c]) = true := by
  rw [exactMbrsList_iff]
  intro d hd
  rcases List.mem_append.mp hd with hd | hd
  · exact (exactMbrsList_iff _).mp h1 d hd
  · rw [List.mem_singleton] at hd; subst hd; exact h2

theorem step_exact_complete (node : ParentNodeData) (t : RTreeNode)
    {idx : Nat} (hi : idx < node.children.length) {m : Env}
    {cs : List RTreeNode}
    (hget : node.children.get ⟨idx, hi⟩ = .Parent m cs)
    (follow : ParentNodeData)
    (hx : node.mbr = RTreeNode.mbr_for_children node.children)
    (hfv : follow.mbr = Env.merge m t.mbr) :
    Env.merge node.mbr t.mbr =
      RTreeNode.mbr_for_children (node.children.set idx follow.toNode) := by
  rw [mbr_for_children_set follow.toNode node.children idx hi, toNode_mbr,
    hfv, hx, mbr_for_children_split_at node.children idx hi, hget]
  simp only [RTreeNode.mbr]
  ac_rfl

theorem step_exact_split (node : ParentNodeData) (t : RTreeNode)
    {idx : Nat} (hi : idx < node.children.length) {m : Env}
    {cs : List RTreeNode}
    (hget : node.children.get ⟨idx, hi⟩ = .Parent m cs)
    (follow : ParentNodeData) (child : RTreeNode)
    (hx : node.mbr = RTreeNode.mbr_for_children node.children)
    (hcu : Env.merge follow.mbr child.mbr = Env.merge m t.mbr) :
    Env.merge (Env.merge node.mbr t.mbr) child.mbr =
        RTreeNode.mbr_for_children
          (node.children.set idx follow.toNode ++ [child]) ∧
      Env.merge (Env.merge node.mbr t.mbr) child.mbr =
        Env.merge node.mbr t.mbr := by
  constructor
  · rw [mbr_for_children_append, mbr_for_children_cons, mbr_for_children_nil,
      Env.merge_none_right,
      mbr_for_children_set follow.toNode node.children idx hi, toNode_mbr,
      hx, mbr_for_children_split_at node.children idx hi, hget]
    simp only [RTreeNode.mbr]
    exact env_step_split _ _ _ _ _ _ hcu
  · rw [hx, mbr_for_children_split_at node.children idx hi, hget]
    simp only [RTreeNode.mbr]
    exact env_absorb_split _ _ _ _ _ _ hcu

/-- Exactness through `recursive_insert`: starting from an exact node and
an exact inserted subtree, the returned node is exact, a returned `Split`
payload is exact and partitions the merged envelope, returned `Reinsert`
nodes are exact, and a `Complete` return's envelope is the merge of the
old envelope with the inserted one. -/
theorem recursive_insert_exact (p : Params) :
    ∀ (target : Nat) (node : ParentNodeData) (t : RTreeNode) (allow : Bool)
      (res : ParentNodeData × InsertionResult),
      recursive_insert p node t target allow = .ok res →
      node.mbr = RTreeNode.mbr_for_children node.children →
      RTreeNode.exactMbrsList node.children = true →
      t.exactMbrs = true →
      (res.1.mbr = RTreeNode.mbr_for_children res.1.children ∧
        RTreeNode.exactMbrsList res.1.children = true) ∧
      (∀ child, res.2 = .Split child → child.exactMbrs = true ∧
        Env.merge res.1.mbr child.mbr = Env.merge node.mbr t.mbr) ∧
      (∀ ns h, res.2 = .Reinsert ns h → ∀ nd ∈ ns, nd.exactMbrs = true) ∧
      (res.2 = .Complete → res.1.mbr = Env.merge node.mbr t.mbr) := by
  intro target
  induction target with
  | zero =>
    intro node t allow res hres hx hcs ht
    unfold recursive_insert at hres
    simp only [Except.ok.injEq] at hres
    subst hres
    have hx₁ : (Env.merge node.mbr t.mbr) =
        RTreeNode.mbr_for_children (node.children ++ [t]) := by
      rw [mbr_for_children_append, mbr_for_children_cons, mbr_for_children_nil,
        Env.merge_none_right, hx]
    have hcs₁ : RTreeNode.exactMbrsList (node.children ++ [t]) = true :=
      exactMbrsList_append_one hcs ht
    obtain ⟨ROa, ROs, ROr, ROc⟩ := resolve_overflow_exact p
      ⟨Env.merge node.mbr t.mbr, node.children ++ [t]⟩ allow hx₁ hcs₁
    refine ⟨ROa, ?_, ROr, ?_⟩
    · intro child hchild
      exact ⟨(ROs child hchild).1, (ROs child hchild).2⟩
    · intro hc
      rw [ROc hc]
  | succ n ih =>
    intro node t allow res hres hx hcs ht
    rw [recursive_insert] at hres
    split at hres
    · exact absurd hres (by simp)
    · exact absurd hres (by simp)
    · rename_i m cs heq
      simp only at heq
      generalize hidx : choose_subtree_index
        ⟨node.mbr.merge t.mbr, node.children⟩ t (decide (n + 1 = 1)) = idx
        at heq hres
      have hi := getElem?_some_lt heq
      have hget := getElem?_some_get heq hi
      have hmem : (RTreeNode.Parent m cs) ∈ node.children := by
        rw [← hget]; exact List.get_mem _ _ _
      have hchild := (exactMbrsList_iff node.children).mp hcs _ hmem
      rw [exactMbrs_parent] at hchild
      obtain ⟨hm, hcs'⟩ := hchild
      split at hres
      · exact absurd hres (by simp)
      · rename_i follow cres heq2
        obtain ⟨⟨hfx, hfcs⟩, hSplit, hReins, hComp⟩ :=
          ih ⟨m, cs⟩ t allow (follow, cres) heq2 hm hcs' ht
        have hfEx : follow.toNode.exactMbrs = true := by
          rw [toNode_exactMbrs, ParentNodeData.exactMbrs_iff]
          exact ⟨hfx, hfcs⟩
        cases cres with
        | Complete =>
          simp only [Except.ok.injEq] at hres
          subst hres
          have hfv : follow.mbr = Env.merge m t.mbr := hComp rfl
          have hkey := step_exact_complete node t hi hget follow hx hfv
          refine ⟨⟨hkey, exactMbrsList_set hcs hfEx⟩, ?_, ?_, fun _ => rfl⟩
          · intro child hcontra; simp at hcontra
          · intro ns h hcontra; simp at hcontra
        | Split child =>
          simp only [Except.ok.injEq] at hres
          subst hres
          obtain ⟨hcEx, hcu⟩ := hSplit child rfl
          obtain ⟨hx₂, habs⟩ := step_exact_split node t hi hget follow child
            hx hcu
          have hcs₂ : RTreeNode.exactMbrsList
              (node.children.set idx follow.toNode ++ [child]) = true :=
            exactMbrsList_append_one (exactMbrsList_set hcs hfEx) hcEx
          obtain ⟨ROa, ROs, ROr, ROc⟩ := resolve_overflow_exact p
            ⟨Env.merge (Env.merge node.mbr t.mbr) child.mbr,
             node.children.set idx follow.toNode ++ [child]⟩ allow hx₂ hcs₂
          refine ⟨ROa, ?_, ROr, ?_⟩
          · intro ch hch
            refine ⟨(ROs ch hch).1, ?_⟩
            rw [(ROs ch hch).2]
            exact habs
          · intro hc
            rw [ROc hc]
            exact habs
        | Reinsert ns' h' =>
          simp only [Except.ok.injEq] at hres
          subst hres
          refine ⟨⟨rfl, exactMbrsList_set hcs hfEx⟩, ?_, ?_, ?_⟩
          · intro child hcontra; simp at hcontra
          · intro ns h hh
            simp only [InsertionResult.Reinsert.injEq] at hh
            intro nd hnd
            rw [← hh.1] at hnd
            exact hReins ns' h' rfl nd hnd
          · intro hcontra; simp at hcontra

/-- The driver-loop invariant behind C5: the root is exact and every
stacked node is an exact subtree; both are preserved by every loop
iteration. -/
theorem insert_loop_exact (p : Params) (fuel : Nat) :
    ∀ st st', insert_loop p fuel st = .ok st' →
      st.root.exactMbrs = true →
      (∀ e ∈ st.stack, e.1.exactMbrs = true) →
      st'.root.exactMbrs = true := by
  induction fuel with
  | zero =>
    intro st st' h h1 _
    simp only [insert_loop, Except.ok.injEq] at h
    subst h
    exact h1
  | succ fuel ih =>
    intro st st' h h1 hstk
    rw [insert_loop] at h
    cases hstack : st.stack with
    | nil =>
      rw [hstack] at h
      simp only [Except.ok.injEq] at h
      subst h
      exact h1
    | cons entry stack_rest =>
      obtain ⟨next, node_height, can_reinsert⟩ := entry
      rw [hstack] at h
      simp only at h
      have hnext : next.exactMbrs = true :=
        hstk (next, node_height, can_reinsert) (by rw [hstack]; simp)
      have hrest : ∀ e ∈ stack_rest, e.1.exactMbrs = true := by
        intro e he
        exact hstk e (by rw [hstack]; exact List.mem_cons_of_mem _ he)
      rw [ParentNodeData.exactMbrs_iff] at h1
      cases hri : recursive_insert p st.root next
          (st.tree_height - node_height - 1) can_reinsert with
      | error e => rw [hri] at h; exact absurd h (by simp)
      | ok pr =>
        obtain ⟨root', result⟩ := pr
        rw [hri] at h
        obtain ⟨⟨hrx, hrcs⟩, hSplit, hReins, _⟩ :=
          recursive_insert_exact p _ _ _ _ _ hri h1.1 h1.2 hnext
        have hroot' : root'.exactMbrs = true := by
          rw [ParentNodeData.exactMbrs_iff]
          exact ⟨hrx, hrcs⟩
        cases result with
        | Split node =>
          simp only at h
          refine ih _ _ h ?_ hrest
          rw [ParentNodeData.exactMbrs_iff]
          obtain ⟨hnEx, _⟩ := hSplit node rfl
          constructor
          · simp only [mbr_for_children_cons, mbr_for_children_nil,
              Env.merge_none_right, toNode_mbr]
          · rw [exactMbrsList_iff]
            intro c hc
            rcases List.mem_cons.mp hc with rfl | hc
            · rw [toNode_exactMbrs]; exact hroot'
            · rw [List.mem_singleton] at hc; subst hc; exact hnEx
        | Reinsert nodes height =>
          simp only at h
          cases hflag : st.reinsertions[st.tree_height - height - 1]? with
          | none => rw [hflag] at h; exact absurd h (by simp)
          | some can =>
            rw [hflag] at h
            simp only at h
            refine ih _ _ h hroot' ?_
            intro e he
            simp only [List.mem_append, List.mem_reverse, List.mem_map] at he
            rcases he with ⟨nd, hnd, rfl⟩ | he
            · exact hReins nodes height rfl nd hnd
            · exact hrest e he
        | Complete =>
          simp only at h
          exact ih _ _ h hroot' hrest

/-- The exactness of the root after a run of `insert`, as a decidable
observation (`true` vacuously on a failed run). -/
def insertRootExact (p : Params) (fuel : Nat) (tree : RTree) (t : Pt) :
    Bool :=
  match insert p fuel tree t with
  | .error _ => true
  | .ok r => r.1.root.exactMbrs

/-- **C5.**  If every `Parent` node reachable from the root (the root
included) satisfies `mbr = merge of child.envelope() over its children`
when a top-level `insert` call starts, then — although the invariant is
broken transiently inside the call — every `Parent` node of the returned
tree satisfies it again when the call returns; iterated from a fresh
tree this gives the claim for every tree built by insertions. -/
theorem C5_mbr_invariant (p : Params) (fuel : Nat) (tree : RTree) (t : Pt)
    (hroot : tree.root.exactMbrs = true) :
    insertRootExact p fuel tree t = true := by
  unfold insertRootExact
  cases hins : insert p fuel tree t with
  | error e => rfl
  | ok r =>
    unfold insert at hins
    simp only at hins
    cases hloop : insert_loop p fuel
        { tree_height := (if tree.size = 0 then { tree with height := 1 }
            else tree).height,
          root := (if tree.size = 0 then { tree with height := 1 }
            else tree).root,
          stack := [(.Leaf t, 0, true)],
          reinsertions := List.replicate
            (if tree.size = 0 then { tree with height := 1 }
              else tree).height true,
          trace := [] } with
    | error e => rw [hloop] at hins; exact absurd hins (by simp)
    | ok st =>
      rw [hloop] at hins
      simp only at hins
      split at hins
      · simp only [Except.ok.injEq] at hins
        subst hins
        simp only
        refine insert_loop_exact p fuel _ _ hloop ?_ ?_
        · simp only
          split_ifs <;> exact hroot
        · intro e he
          simp only [List.mem_singleton] at he
          subst he
          rfl
      · exact absurd hins (by simp)

/-- A height-1 tree holding the single point `(0,0)`; its root MBR is
exactly the merged envelope of its one child. -/
def treeC5 : RTree := ⟨⟨Env.ofPt ⟨0, 0⟩, [leafP 0 0]⟩, 1, 1⟩

/-- Closed instance of the C5 invariant theorem on a concrete exact
tree. -/
theorem C5_mbr_invariant_witness :
    treeC5.root.exactMbrs = true ∧
      insertRootExact paramsC4 2 treeC5 ⟨1, 0⟩ = true :=
  ⟨by decide, C5_mbr_invariant paramsC4 2 treeC5 ⟨1, 0⟩ (by decide)⟩

/-- Closed instance of the C10 bound-access theorem on a concrete
nonempty tree. -/
theorem C10_reinsertions_in_bounds_witness :
    (treeC6.size = 0 ∨ 1 ≤ treeC6.height) ∧
      insert paramsC6 10 treeC6 ⟨5, 0⟩ ≠ .error .reinsertIndexPanic :=
  ⟨Or.inr (by decide),
   C10_reinsertions_in_bounds paramsC6 10 treeC6 ⟨5, 0⟩ (Or.inr (by decide))⟩

/-! ## Nearest-neighbor correctness (C1, C2) -/

/-- Box inclusion: `a` lies within `b`. -/
def Box.subBox (a b : Box) : Prop :=
  b.lx ≤ a.lx ∧ a.ux ≤ b.ux ∧ b.ly ≤ a.ly ∧ a.uy ≤ b.uy

/-- Envelope inclusion: the empty envelope is contained in everything. -/
def Env.envLe : Env → Env → Prop
  | none, _ => True
  | some _, none => False
  | some a, some b => a.subBox b

theorem Env.envLe_merge_left (a b : Env) : a.envLe (a.merge b) := by
  cases a with
  | none => trivial
  | some A =>
    cases b with
    | none => exact ⟨le_refl _, le_refl _, le_refl _, le_refl _⟩
    | some B =>
      exact ⟨min_le_left _ _, le_max_left _ _, min_le_left _ _,
        le_max_left _ _⟩

theorem Env.envLe_merge_right (a b : Env) : b.envLe (a.merge b) := by
  cases a with
  | none => cases b with
    | none => trivial
    | some B => exact ⟨le_refl _, le_refl _, le_refl _, le_refl _⟩
  | some A =>
    cases b with
    | none => trivial
    | some B =>
      exact ⟨min_le_right _ _, le_max_right _ _, min_le_right _ _,
        le_max_right _ _⟩

theorem Env.envLe_trans {a b c : Env} (h₁ : a.envLe b) (h₂ : b.envLe c) :
    a.envLe c := by
  cases a with
  | none => trivial
  | some A =>
    cases b with
    | none => exact absurd h₁ (by simp [Env.envLe])
    | some B =>
      cases c with
      | none => exact absurd h₂ (by simp [Env.envLe])
      | some C =>
        obtain ⟨x1, x2, x3, x4⟩ := h₁
        obtain ⟨y1, y2, y3, y4⟩ := h₂
        exact ⟨le_trans y1 x1, le_trans x2 y2, le_trans y3 x3,
          le_trans x4 y4⟩

theorem envLe_of_mem_fold {c : RTreeNode} {cs : List RTreeNode}
    (h : c ∈ cs) : c.mbr.envLe (RTreeNode.mbr_for_children cs) := by
  induction cs with
  | nil => simp at h
  | cons a as ih =>
    rw [mbr_for_children_cons]
    rcases List.mem_cons.mp h with rfl | h
    · exact Env.envLe_merge_left _ _
    · exact Env.envLe_trans (ih h) (Env.envLe_merge_right _ _)

theorem Box.distance_2_mono {a b : Box} (h : a.subBox b) (q : Pt) :
    b.distance_2 q ≤ a.distance_2 q := by
  obtain ⟨h1, h2, h3, h4⟩ := h
  simp only [Box.distance_2]
  have hdx : max 0 (max (b.lx - q.x) (q.x - b.ux)) ≤
      max 0 (max (a.lx - q.x) (q.x - a.ux)) := by
    refine max_le_max (le_refl _) (max_le_max ?_ ?_) <;> linarith
  have hdy : max 0 (max (b.ly - q.y) (q.y - b.uy)) ≤
      max 0 (max (a.ly - q.y) (q.y - a.uy)) := by
    refine max_le_max (le_refl _) (max_le_max ?_ ?_) <;> linarith
  have h0x : (0 : S) ≤ max 0 (max (b.lx - q.x) (q.x - b.ux)) :=
    le_max_left _ _
  have h0y : (0 : S) ≤ max 0 (max (b.ly - q.y) (q.y - b.uy)) :=
    le_max_left _ _
  exact add_le_add (mul_self_le_mul_self h0x hdx)
    (mul_self_le_mul_self h0y hdy)

theorem Env.distance_2_ofPt (t q : Pt) :
    Env.distance_2 (Env.ofPt t) q = dist2 t q := by
  simp only [Env.distance_2, Env.ofPt, Box.distance_2, dist2, Pt.sub,
    Pt.length_2]
  have hx : max 0 (max (t.x - q.x) (q.x - t.x)) *
      max 0 (max (t.x - q.x) (q.x - t.x)) = (t.x - q.x) * (t.x - q.x) := by
    rcases le_total t.x q.x with h | h
    · rw [max_eq_right (by linarith : t.x - q.x ≤ q.x - t.x),
        max_eq_right (by linarith : (0 : S) ≤ q.x - t.x)]
      ring
    · rw [max_eq_left (by linarith : q.x - t.x ≤ t.x - q.x),
        max_eq_right (by linarith : (0 : S) ≤ t.x - q.x)]
  have hy : max 0 (max (t.y - q.y) (q.y - t.y)) *
      max 0 (max (t.y - q.y) (q.y - t.y)) = (t.y - q.y) * (t.y - q.y) := by
    rcases le_total t.y q.y with h | h
    · rw [max_eq_right (by linarith : t.y - q.y ≤ q.y - t.y),
        max_eq_right (by linarith : (0 : S) ≤ q.y - t.y)]
      ring
    · rw [max_eq_left (by linarith : q.y - t.y ≤ t.y - q.y),
        max_eq_right (by linarith : (0 : S) ≤ t.y - q.y)]
  rw [hx, hy]

theorem childDistance_eq (q : Pt) (c : RTreeNode) :
    childDistance q c = Env.distance_2 c.mbr q := by
  cases c with
  | Leaf t => exact (Env.distance_2_ofPt t q).symm
  | Parent m cs => rfl

theorem RTreeNode.size_pos (c : RTreeNode) : 1 ≤ c.size := by
  cases c with
  | Leaf t => exact le_refl _
  | Parent m cs => rw [RTreeNode.size_parent]; omega

theorem mem_size_le {c : RTreeNode} :
    ∀ {cs : List RTreeNode}, c ∈ cs → c.size ≤ RTreeNode.sizeList cs := by
  intro cs
  induction cs with
  | nil => intro h; simp at h
  | cons a as ih =>
    intro h
    have hsz : RTreeNode.sizeList (a :: as) =
        a.size + RTreeNode.sizeList as := rfl
    rcases List.mem_cons.mp h with rfl | h
    · omega
    · have := ih h; omega

theorem mem_payloadsList {s : Pt} :
    ∀ {cs : List RTreeNode},
      s ∈ RTreeNode.payloadsList cs ↔ ∃ c ∈ cs, s ∈ c.payloads := by
  intro cs
  induction cs with
  | nil => simp [RTreeNode.payloadsList]
  | cons a as ih =>
    have hpl : RTreeNode.payloadsList (a :: as) =
        a.payloads ++ RTreeNode.payloadsList as := rfl
    rw [hpl]
    simp [ih]

theorem payload_mbr_bounds (q : Pt) :
    ∀ (n : Nat) (c : RTreeNode), c.size ≤ n → c.exactMbrs = true →
      ∀ s ∈ c.payloads, ∃ B, c.mbr = some B ∧
        B.lx ≤ s.x ∧ s.x ≤ B.ux ∧ B.ly ≤ s.y ∧ s.y ≤ B.uy := by
  intro n
  induction n with
  | zero =>
    intro c hsz
    have := RTreeNode.size_pos c
    omega
  | succ n ih =>
    intro c hsz hex s hs
    cases c with
    | Leaf t =>
      have hp : RTreeNode.payloads (.Leaf t) = [t] := rfl
      rw [hp, List.mem_singleton] at hs
      subst hs
      exact ⟨⟨s.x, s.x, s.y, s.y⟩, rfl, le_refl _, le_refl _, le_refl _,
        le_refl _⟩
    | Parent m cs =>
      rw [exactMbrs_parent] at hex
      obtain ⟨hm, hcs⟩ := hex
      have hp : RTreeNode.payloads (.Parent m cs) =
          RTreeNode.payloadsList cs := rfl
      rw [hp] at hs
      obtain ⟨c', hc', hsc'⟩ := mem_payloadsList.mp hs
      have hszc : c'.size ≤ n := by
        have h1 := mem_size_le hc'
        have h2 : (RTreeNode.Parent m cs).size =
            1 + RTreeNode.sizeList cs := rfl
        omega
      obtain ⟨B', hB', hb1, hb2, hb3, hb4⟩ := ih c' hszc
        ((exactMbrsList_iff cs).mp hcs c' hc') s hsc'
      have hle := envLe_of_mem_fold hc'
      rw [hB'] at hle
      cases hfold : RTreeNode.mbr_for_children cs with
      | none => rw [hfold] at hle; exact absurd hle (by simp [Env.envLe])
      | some B =>
        rw [hfold] at hle
        have hsub : B'.subBox B := hle
        obtain ⟨h1, h2, h3, h4⟩ := hsub
        refine ⟨B, ?_, by linarith, by linarith, by linarith, by linarith⟩
        show m = some B
        exact hm.trans hfold

theorem payload_dist_lb (q : Pt) :
    ∀ (n : Nat) (c : RTreeNode), c.size ≤ n → c.exactMbrs = true →
      ∀ s ∈ c.payloads, Env.distance_2 c.mbr q ≤ dist2 s q := by
  intro n
  induction n with
  | zero =>
    intro c hsz
    have := RTreeNode.size_pos c
    omega
  | succ n ih =>
    intro c hsz hex s hs
    cases c with
    | Leaf t =>
      have hp : RTreeNode.payloads (.Leaf t) = [t] := rfl
      rw [hp, List.mem_singleton] at hs
      subst hs
      exact le_of_eq (Env.distance_2_ofPt s q)
    | Parent m cs =>
      rw [exactMbrs_parent] at hex
      obtain ⟨hm, hcs⟩ := hex
      have hp : RTreeNode.payloads (.Parent m cs) =
          RTreeNode.payloadsList cs := rfl
      rw [hp] at hs
      obtain ⟨c', hc', hsc'⟩ := mem_payloadsList.mp hs
      have hszc : c'.size ≤ n := by
        have h1 := mem_size_le hc'
        have h2 : (RTreeNode.Parent m cs).size =
            1 + RTreeNode.sizeList cs := rfl
        omega
      have hexc : c'.exactMbrs = true := (exactMbrsList_iff cs).mp hcs c' hc'
      obtain ⟨B', hB', -, -, -, -⟩ :=
        payload_mbr_bounds q c'.size c' (le_refl _) hexc s hsc'
      have hle := envLe_of_mem_fold hc'
      rw [hB'] at hle
      cases hfold : RTreeNode.mbr_for_children cs with
      | none => rw [hfold] at hle; exact absurd hle (by simp [Env.envLe])
      | some B =>
        rw [hfold] at hle
        have hsub : B'.subBox B := hle
        have hmono := Box.distance_2_mono hsub q
        have hrec := ih c' hszc hexc s hsc'
        rw [hB'] at hrec
        have hmm : Env.distance_2 (RTreeNode.mbr (.Parent m cs)) q =
            B.distance_2 q := by
          show Env.distance_2 m q = B.distance_2 q
          rw [hm, hfold]
          rfl
        rw [hmm]
        exact le_trans hmono hrec

theorem popMin_min {h : Heap} {e : S × RTreeNode} {rest : Heap}
    (hp : popMin h = some (e, rest)) : ∀ e' ∈ rest, e.1 ≤ e'.1 := by
  induction h generalizing e rest with
  | nil => simp [popMin] at hp
  | cons a as ih =>
    rw [popMin] at hp
    cases has : popMin as with
    | none =>
      rw [has] at hp
      simp only [Option.some.injEq, Prod.mk.injEq] at hp
      obtain ⟨rfl, rfl⟩ := hp
      intro e' he'
      simp at he'
    | some p =>
      obtain ⟨m, mrest⟩ := p
      rw [has] at hp
      by_cases hle : a.1 ≤ m.1
      · simp only [hle, if_true, Option.some.injEq, Prod.mk.injEq] at hp
        obtain ⟨rfl, rfl⟩ := hp
        intro e' he'
        have hmem := (popMin_perm has).mem_iff.mp he'
        rcases List.mem_cons.mp hmem with rfl | hmr
        · exact hle
        · exact le_trans hle (ih has _ hmr)
      · simp only [hle, if_false, Option.some.injEq, Prod.mk.injEq] at hp
        obtain ⟨rfl, rfl⟩ := hp
        intro e' he'
        rcases List.mem_cons.mp he' with rfl | hmr
        · exact le_of_not_le hle
        · exact ih has _ hmr

theorem heapSize_pos {h : Heap} (hne : h ≠ []) : 1 ≤ heapSize h := by
  cases h with
  | nil => exact absurd rfl hne
  | cons e es =>
    rw [heapSize_cons]
    have := RTreeNode.size_pos e.2
    omega

theorem iterAll_eq_none {q : Pt} {heap : Heap}
    (h : iterNext q heap = none) : iterAll q heap = [] := by
  rw [iterAll]
  split
  · rfl
  · rename_i t h' heq
    rw [h] at heq
    exact absurd heq (by simp)

theorem iterAll_eq_some {q : Pt} {heap : Heap} {t : Pt} {h' : Heap}
    (h : iterNext q heap = some (t, h')) :
    iterAll q heap = t :: iterAll q h' := by
  rw [iterAll]
  split
  · rename_i heq
    rw [h] at heq
    exact absurd heq (by simp)
  · rename_i t0 h0 heq
    rw [h] at heq
    simp only [Option.some.injEq, Prod.mk.injEq] at heq
    obtain ⟨rfl, rfl⟩ := heq
    rfl

theorem iterAll_parent {q : Pt} {heap : Heap} {d : S} {m : Env}
    {cs : List RTreeNode} {rest : Heap}
    (h : popMin heap = some ((d, .Parent m cs), rest)) :
    iterAll q heap = iterAll q (iterExtendHeap q rest cs) := by
  have hnx := iterNext_pop_parent (q := q) h
  cases hne : iterNext q (iterExtendHeap q rest cs) with
  | none => rw [iterAll_eq_none (hnx.trans hne), iterAll_eq_none hne]
  | some pr =>
    obtain ⟨t, h'⟩ := pr
    rw [iterAll_eq_some (hnx.trans hne), iterAll_eq_some hne]

/-- The payload multiset still stored in a heap state. -/
def heapPayloads (h : Heap) : List Pt :=
  (h.map (fun e => e.2.payloads)).flatten

theorem heapPayloads_cons (e : S × RTreeNode) (h : Heap) :
    heapPayloads (e :: h) = e.2.payloads ++ heapPayloads h := rfl

theorem heapPayloads_append (h₁ h₂ : Heap) :
    heapPayloads (h₁ ++ h₂) = heapPayloads h₁ ++ heapPayloads h₂ := by
  simp [heapPayloads]

theorem heapPayloads_perm {h₁ h₂ : Heap} (hp : h₁.Perm h₂) :
    (heapPayloads h₁).Perm (heapPayloads h₂) := by
  induction hp with
  | nil => exact List.Perm.refl _
  | cons x _ ih =>
    rw [heapPayloads_cons, heapPayloads_cons]
    exact ih.append_left _
  | swap x y l =>
    rw [heapPayloads_cons, heapPayloads_cons, heapPayloads_cons,
      heapPayloads_cons, ← List.append_assoc, ← List.append_assoc]
    exact (List.perm_append_comm).append_right _
  | trans _ _ ih₁ ih₂ => exact ih₁.trans ih₂

theorem heapPayloads_extend (q : Pt) (heap : Heap) (cs : List RTreeNode) :
    heapPayloads (iterExtendHeap q heap cs) =
      heapPayloads heap ++ RTreeNode.payloadsList cs := by
  rw [iterExtendHeap, heapPayloads_append]
  congr 1
  rw [RTreeNode.payloadsList_eq_flatten, heapPayloads, List.map_map]
  rfl

theorem mem_iterExtendHeap {e : S × RTreeNode} {q : Pt} {heap : Heap}
    {cs : List RTreeNode} :
    e ∈ iterExtendHeap q heap cs ↔
      e ∈ heap ∨ ∃ c ∈ cs, e = (childDistance q c, c) := by
  simp only [iterExtendHeap, List.mem_append, List.mem_map]
  constructor
  · rintro (h | ⟨c, hc, rfl⟩)
    · exact Or.inl h
    · exact Or.inr ⟨c, hc, rfl⟩
  · rintro (h | ⟨c, hc, rfl⟩)
    · exact Or.inl h
    · exact Or.inr ⟨c, hc, rfl⟩

theorem iterAll_perm (q : Pt) :
    ∀ (n : Nat) (heap : Heap), heapSize heap ≤ n →
      (iterAll q heap).Perm (heapPayloads heap) := by
  intro n
  induction n with
  | zero =>
    intro heap hsz
    cases heap with
    | nil =>
      rw [iterAll_eq_none (iterNext_pop_none popMin_nil)]
      exact List.Perm.refl _
    | cons e es =>
      have := heapSize_pos (h := e :: es) (by simp)
      omega
  | succ n ih =>
    intro heap hsz
    cases hpop : popMin heap with
    | none =>
      have hnil := popMin_eq_none.mp hpop
      subst hnil
      rw [iterAll_eq_none (iterNext_pop_none hpop)]
      exact List.Perm.refl _
    | some pr =>
      obtain ⟨⟨d, nd⟩, rest⟩ := pr
      have hperm := popMin_perm hpop
      have hsig := heapSize_perm hperm
      cases nd with
      | Leaf t =>
        rw [iterAll_eq_some (iterNext_pop_leaf hpop)]
        have hrest : heapSize rest ≤ n := by
          rw [heapSize_cons] at hsig
          have h1 : ((d, RTreeNode.Leaf t) : S × RTreeNode).2.size = 1 := rfl
          omega
        refine (((ih rest hrest).cons t).trans ?_).trans
          (heapPayloads_perm hperm.symm)
        rw [heapPayloads_cons]
        exact List.Perm.refl _
      | Parent m cs =>
        rw [iterAll_parent hpop]
        have hszext : heapSize (iterExtendHeap q rest cs) ≤ n := by
          rw [heapSize_iterExtendHeap]
          have := popMin_parent_size hpop
          omega
        refine (ih _ hszext).trans ?_
        rw [heapPayloads_extend]
        exact (List.perm_append_comm).trans (heapPayloads_perm hperm.symm)

theorem iterAll_sorted (q : Pt) :
    ∀ (n : Nat) (heap : Heap), heapSize heap ≤ n →
      (∀ e ∈ heap, e.1 = childDistance q e.2 ∧ e.2.exactMbrs = true) →
      List.Chain' (fun a c => dist2 a q ≤ dist2 c q) (iterAll q heap) ∧
      ∀ b : S, (∀ e ∈ heap, ∀ s ∈ e.2.payloads, b ≤ dist2 s q) →
        ∀ s ∈ iterAll q heap, b ≤ dist2 s q := by
  intro n
  induction n with
  | zero =>
    intro heap hsz _
    cases heap with
    | nil =>
      rw [iterAll_eq_none (iterNext_pop_none popMin_nil)]
      exact ⟨List.chain'_nil, fun b _ s hs => absurd hs (by simp)⟩
    | cons e es =>
      have := heapSize_pos (h := e :: es) (by simp)
      omega
  | succ n ih =>
    intro heap hsz hK
    cases hpop : popMin heap with
    | none =>
      rw [iterAll_eq_none (iterNext_pop_none hpop)]
      exact ⟨List.chain'_nil, fun b _ s hs => absurd hs (by simp)⟩
    | some pr =>
      obtain ⟨⟨d, nd⟩, rest⟩ := pr
      have hperm := popMin_perm hpop
      have hsig := heapSize_perm hperm
      have hKrest : ∀ e ∈ rest, e.1 = childDistance q e.2 ∧
          e.2.exactMbrs = true := by
        intro e he
        exact hK e (hperm.mem_iff.mpr (List.mem_cons_of_mem _ he))
      have hKtop := hK (d, nd) (hperm.mem_iff.mpr (List.mem_cons_self _ _))
      -- the key of every entry lower-bounds its remaining payloads
      have hkeyLB : ∀ e ∈ heap, ∀ s ∈ e.2.payloads, e.1 ≤ dist2 s q := by
        intro e he s hs
        obtain ⟨hkey, hex⟩ := hK e he
        rw [hkey, childDistance_eq]
        exact payload_dist_lb q e.2.size e.2 (le_refl _) hex s hs
      cases nd with
      | Leaf t =>
        rw [iterAll_eq_some (iterNext_pop_leaf hpop)]
        have hrest : heapSize rest ≤ n := by
          rw [heapSize_cons] at hsig
          have h1 : ((d, RTreeNode.Leaf t) : S × RTreeNode).2.size = 1 := rfl
          omega
        have hd : d = dist2 t q := hKtop.1
        have hbrest : ∀ e ∈ rest, ∀ s ∈ e.2.payloads,
            dist2 t q ≤ dist2 s q := by
          intro e he s hs
          have h1 : d ≤ e.1 := popMin_min hpop e he
          have h2 : e.1 ≤ dist2 s q :=
            hkeyLB e (hperm.mem_iff.mpr (List.mem_cons_of_mem _ he)) s hs
          rw [← hd]
          exact le_trans h1 h2
        obtain ⟨ihc, ihb⟩ := ih rest hrest hKrest
        constructor
        · rw [List.chain'_cons']
          refine ⟨?_, ihc⟩
          intro y hy
          exact ihb (dist2 t q) hbrest y
            (List.mem_of_mem_head? hy)
        · intro b hb s hs
          rcases List.mem_cons.mp hs with rfl | hs
          · refine hb (d, .Leaf s)
              (hperm.mem_iff.mpr (List.mem_cons_self _ _)) s ?_
            exact List.mem_singleton.mpr rfl
          · refine ihb b ?_ s hs
            intro e he
            exact hb e (hperm.mem_iff.mpr (List.mem_cons_of_mem _ he))
      | Parent m cs =>
        rw [iterAll_parent hpop]
        have hszext : heapSize (iterExtendHeap q rest cs) ≤ n := by
          rw [heapSize_iterExtendHeap]
          have := popMin_parent_size hpop
          omega
        have hParEx : RTreeNode.exactMbrsList cs = true :=
          ((exactMbrs_parent m cs).mp hKtop.2).2
        have hKext : ∀ e ∈ iterExtendHeap q rest cs,
            e.1 = childDistance q e.2 ∧ e.2.exactMbrs = true := by
          intro e he
          rcases mem_iterExtendHeap.mp he with he | ⟨c, hc, rfl⟩
          · exact hKrest e he
          · exact ⟨rfl, (exactMbrsList_iff cs).mp hParEx c hc⟩
        obtain ⟨ihc, ihb⟩ := ih _ hszext hKext
        refine ⟨ihc, ?_⟩
        intro b hb s hs
        refine ihb b ?_ s hs
        intro e he
        rcases mem_iterExtendHeap.mp he with he | ⟨c, hc, rfl⟩
        · exact hb e (hperm.mem_iff.mpr (List.mem_cons_of_mem _ he))
        · intro s' hs'
          refine hb (d, .Parent m cs)
            (hperm.mem_iff.mpr (List.mem_cons_self _ _)) s' ?_
          show s' ∈ RTreeNode.payloadsList cs
          exact mem_payloadsList.mpr ⟨c, hc, hs'⟩

/-- **C2.**  From a root whose children all satisfy the MBR-exactness
invariant, the sequence produced by the nearest-neighbor iterator is in
non-decreasing order of `distance_2` from the query point (each element is
at most its successor) and is a permutation of the multiset of all payloads
stored in the tree. -/
theorem C2_nn_iter_sorted_perm (root : ParentNodeData) (q : Pt)
    (hroot : RTreeNode.exactMbrsList root.children = true) :
    List.Chain' (fun a c => dist2 a q ≤ dist2 c q)
      (nearest_neighbor_iter root q) ∧
    (nearest_neighbor_iter root q).Perm
      (RTreeNode.payloadsList root.children) := by
  unfold nearest_neighbor_iter
  have hK : ∀ e ∈ iterExtendHeap q [] root.children,
      e.1 = childDistance q e.2 ∧ e.2.exactMbrs = true := by
    intro e he
    rcases mem_iterExtendHeap.mp he with he | ⟨c, hc, rfl⟩
    · simp at he
    · exact ⟨rfl, (exactMbrsList_iff root.children).mp hroot c hc⟩
  constructor
  · exact (iterAll_sorted q (heapSize (iterExtendHeap q [] root.children))
      _ (le_refl _) hK).1
  · refine (iterAll_perm q (heapSize (iterExtendHeap q [] root.children))
      _ (le_refl _)).trans ?_
    rw [heapPayloads_extend]
    exact List.Perm.refl _

mutual
/-- Every `Parent` in the subtree has a nonempty child sequence (true of
every parent an insertion-built tree can contain below its root). -/
def RTreeNode.noEmptyParents : RTreeNode → Bool
  | .Leaf _ => true
  | .Parent _ cs => (!cs.isEmpty) && RTreeNode.noEmptyParentsList cs
/-- `noEmptyParents` over a child sequence. -/
def RTreeNode.noEmptyParentsList : List RTreeNode → Bool
  | [] => true
  | c :: cs => c.noEmptyParents && RTreeNode.noEmptyParentsList cs
end

theorem noEmptyParentsList_iff (cs : List RTreeNode) :
    RTreeNode.noEmptyParentsList cs = true ↔
      ∀ c ∈ cs, c.noEmptyParents = true := by
  induction cs with
  | nil => simp [RTreeNode.noEmptyParentsList]
  | cons c cs ih => simp [RTreeNode.noEmptyParentsList, ih]

theorem noEmptyParents_parent (m : Env) (cs : List RTreeNode) :
    (RTreeNode.Parent m cs).noEmptyParents = true ↔
      cs ≠ [] ∧ RTreeNode.noEmptyParentsList cs = true := by
  cases cs <;> simp [RTreeNode.noEmptyParents]

theorem noEmpty_payloads_ne :
    ∀ (n : Nat) (c : RTreeNode), c.size ≤ n → c.noEmptyParents = true →
      c.payloads ≠ [] := by
  intro n
  induction n with
  | zero =>
    intro c hsz
    have := RTreeNode.size_pos c
    omega
  | succ n ih =>
    intro c hsz hne
    cases c with
    | Leaf t => simp [RTreeNode.payloads]
    | Parent m cs =>
      rw [noEmptyParents_parent] at hne
      obtain ⟨hcs, hlist⟩ := hne
      cases cs with
      | nil => exact absurd rfl hcs
      | cons c' cs' =>
        have hszc : c'.size ≤ n := by
          have h1 := mem_size_le (List.mem_cons_self c' cs')
          have h2 : (RTreeNode.Parent m (c' :: cs')).size =
              1 + RTreeNode.sizeList (c' :: cs') := rfl
          omega
        have hne' := ih c' hszc
          ((noEmptyParentsList_iff _).mp hlist c' (List.mem_cons_self _ _))
        have hp : RTreeNode.payloads (.Parent m (c' :: cs')) =
            c'.payloads ++ RTreeNode.payloadsList cs' := rfl
        rw [hp]
        intro hcontra
        exact hne' (List.append_eq_nil.mp hcontra).1

theorem exact_noEmpty_mbr_some {c : RTreeNode} (hex : c.exactMbrs = true)
    (hne : c.noEmptyParents = true) : ∃ B, c.mbr = some B := by
  obtain ⟨s, hs⟩ := List.exists_mem_of_ne_nil _
    (noEmpty_payloads_ne c.size c (le_refl _) hne)
  obtain ⟨B, hB, -⟩ := payload_mbr_bounds s c.size c (le_refl _) hex s hs
  exact ⟨B, hB⟩

theorem fold_face_lx :
    ∀ (cs : List RTreeNode) (B : Box),
      RTreeNode.mbr_for_children cs = some B →
      ∃ c ∈ cs, ∃ B', c.mbr = some B' ∧ B'.lx = B.lx := by
  intro cs
  induction cs with
  | nil => intro B hB; exact absurd hB (by simp [RTreeNode.mbr_for_children])
  | cons c cs ih =>
    intro B hB
    rw [mbr_for_children_cons] at hB
    cases hc : c.mbr with
    | none =>
      rw [hc] at hB
      obtain ⟨c', hc', B', hB', hface⟩ := ih B hB
      exact ⟨c', List.mem_cons_of_mem _ hc', B', hB', hface⟩
    | some A =>
      rw [hc] at hB
      cases hf : RTreeNode.mbr_for_children cs with
      | none =>
        rw [hf] at hB
        simp only [Env.merge, Option.some.injEq] at hB
        subst hB
        exact ⟨c, List.mem_cons_self _ _, A, hc, rfl⟩
      | some C =>
        rw [hf] at hB
        simp only [Env.merge, Option.some.injEq] at hB
        subst hB
        rcases le_total A.lx C.lx with h | h
        · exact ⟨c, List.mem_cons_self _ _, A, hc,
            (min_eq_left h).symm⟩
        · obtain ⟨c', hc', B', hB', hface⟩ := ih C hf
          exact ⟨c', List.mem_cons_of_mem _ hc', B', hB',
            hface.trans (min_eq_right h).symm⟩

theorem fold_face_ux :
    ∀ (cs : List RTreeNode) (B : Box),
      RTreeNode.mbr_for_children cs = some B →
      ∃ c ∈ cs, ∃ B', c.mbr = some B' ∧ B'.ux = B.ux := by
  intro cs
  induction cs with
  | nil => intro B hB; exact absurd hB (by simp [RTreeNode.mbr_for_children])
  | cons c cs ih =>
    intro B hB
    rw [mbr_for_children_cons] at hB
    cases hc : c.mbr with
    | none =>
      rw [hc] at hB
      obtain ⟨c', hc', B', hB', hface⟩ := ih B hB
      exact ⟨c', List.mem_cons_of_mem _ hc', B', hB', hface⟩
    | some A =>
      rw [hc] at hB
      cases hf : RTreeNode.mbr_for_children cs with
      | none =>
        rw [hf] at hB
        simp only [Env.merge, Option.some.injEq] at hB
        subst hB
        exact ⟨c, List.mem_cons_self _ _, A, hc, rfl⟩
      | some C =>
        rw [hf] at hB
        simp only [Env.merge, Option.some.injEq] at hB
        subst hB
        rcases le_total C.ux A.ux with h | h
        · exact ⟨c, List.mem_cons_self _ _, A, hc,
            (max_eq_left h).symm⟩
        · obtain ⟨c', hc', B', hB', hface⟩ := ih C hf
          exact ⟨c', List.mem_cons_of_mem _ hc', B', hB',
            hface.trans (max_eq_right h).symm⟩

theorem fold_face_ly :
    ∀ (cs : List RTreeNode) (B : Box),
      RTreeNode.mbr_for_children cs = some B →
      ∃ c ∈ cs, ∃ B', c.mbr = some B' ∧ B'.ly = B.ly := by
  intro cs
  induction cs with
  | nil => intro B hB; exact absurd hB (by simp [RTreeNode.mbr_for_children])
  | cons c cs ih =>
    intro B hB
    rw [mbr_for_children_cons] at hB
    cases hc : c.mbr with
    | none =>
      rw [hc] at hB
      obtain ⟨c', hc', B', hB', hface⟩ := ih B hB
      exact ⟨c', List.mem_cons_of_mem _ hc', B', hB', hface⟩
    | some A =>
      rw [hc] at hB
      cases hf : RTreeNode.mbr_for_children cs with
      | none =>
        rw [hf] at hB
        simp only [Env.merge, Option.some.injEq] at hB
        subst hB
        exact ⟨c, List.mem_cons_self _ _, A, hc, rfl⟩
      | some C =>
        rw [hf] at hB
        simp only [Env.merge, Option.some.injEq] at hB
        subst hB
        rcases le_total A.ly C.ly with h | h
        · exact ⟨c, List.mem_cons_self _ _, A, hc,
            (min_eq_left h).symm⟩
        · obtain ⟨c', hc', B', hB', hface⟩ := ih C hf
          exact ⟨c', List.mem_cons_of_mem _ hc', B', hB',
            hface.trans (min_eq_right h).symm⟩

theorem fold_face_uy :
    ∀ (cs : List RTreeNode) (B : Box),
      RTreeNode.mbr_for_children cs = some B →
      ∃ c ∈ cs, ∃ B', c.mbr = some B' ∧ B'.uy = B.uy := by
  intro cs
  induction cs with
  | nil => intro B hB; exact absurd hB (by simp [RTreeNode.mbr_for_children])
  | cons c cs ih =>
    intro B hB
    rw [mbr_for_children_cons] at hB
    cases hc : c.mbr with
    | none =>
      rw [hc] at hB
      obtain ⟨c', hc', B', hB', hface⟩ := ih B hB
      exact ⟨c', List.mem_cons_of_mem _ hc', B', hB', hface⟩
    | some A =>
      rw [hc] at hB
      cases hf : RTreeNode.mbr_for_children cs with
      | none =>
        rw [hf] at hB
        simp only [Env.merge, Option.some.injEq] at hB
        subst hB
        exact ⟨c, List.mem_cons_self _ _, A, hc, rfl⟩
      | some C =>
        rw [hf] at hB
        simp only [Env.merge, Option.some.injEq] at hB
        subst hB
        rcases le_total C.uy A.uy with h | h
        · exact ⟨c, List.mem_cons_self _ _, A, hc,
            (max_eq_left h).symm⟩
        · obtain ⟨c', hc', B', hB', hface⟩ := ih C hf
          exact ⟨c', List.mem_cons_of_mem _ hc', B', hB',
            hface.trans (max_eq_right h).symm⟩

/-- Tightness of exact envelopes: every face of the box is touched by a
stored payload. -/
theorem node_faces :
    ∀ (n : Nat) (c : RTreeNode), c.size ≤ n → c.exactMbrs = true →
      ∀ B, c.mbr = some B →
        (∃ s ∈ c.payloads, s.x = B.lx) ∧ (∃ s ∈ c.payloads, s.x = B.ux) ∧
        (∃ s ∈ c.payloads, s.y = B.ly) ∧ (∃ s ∈ c.payloads, s.y = B.uy) := by
  intro n
  induction n with
  | zero =>
    intro c hsz
    have := RTreeNode.size_pos c
    omega
  | succ n ih =>
    intro c hsz hex B hB
    cases c with
    | Leaf t =>
      have hmb : RTreeNode.mbr (.Leaf t) = some ⟨t.x, t.x, t.y, t.y⟩ := rfl
      rw [hmb] at hB
      simp only [Option.some.injEq] at hB
      subst hB
      have hpl : t ∈ RTreeNode.payloads (.Leaf t) := by
        simp [RTreeNode.payloads]
      exact ⟨⟨t, hpl, rfl⟩, ⟨t, hpl, rfl⟩, ⟨t, hpl, rfl⟩, ⟨t, hpl, rfl⟩⟩
    | Parent m cs =>
      rw [exactMbrs_parent] at hex
      obtain ⟨hm, hcs⟩ := hex
      have hfold : RTreeNode.mbr_for_children cs = some B := by
        rw [← hm]; exact hB
      have hszrec : ∀ c' ∈ cs, c'.size ≤ n := by
        intro c' hc'
        have h1 := mem_size_le hc'
        have h2 : (RTreeNode.Parent m cs).size =
            1 + RTreeNode.sizeList cs := rfl
        omega
      have hmem : ∀ {c' : RTreeNode} {s : Pt}, c' ∈ cs → s ∈ c'.payloads →
          s ∈ RTreeNode.payloads (.Parent m cs) := by
        intro c' s hc' hs
        show s ∈ RTreeNode.payloadsList cs
        exact mem_payloadsList.mpr ⟨c', hc', hs⟩
      refine ⟨?_, ?_, ?_, ?_⟩
      · obtain ⟨c', hc', B', hB', hface⟩ := fold_face_lx cs B hfold
        obtain ⟨⟨s, hs, hsv⟩, -, -, -⟩ := ih c' (hszrec c' hc')
          ((exactMbrsList_iff cs).mp hcs c' hc') B' hB'
        exact ⟨s, hmem hc' hs, hsv.trans hface⟩
      · obtain ⟨c', hc', B', hB', hface⟩ := fold_face_ux cs B hfold
        obtain ⟨-, ⟨s, hs, hsv⟩, -, -⟩ := ih c' (hszrec c' hc')
          ((exactMbrsList_iff cs).mp hcs c' hc') B' hB'
        exact ⟨s, hmem hc' hs, hsv.trans hface⟩
      · obtain ⟨c', hc', B', hB', hface⟩ := fold_face_ly cs B hfold
        obtain ⟨-, -, ⟨s, hs, hsv⟩, -⟩ := ih c' (hszrec c' hc')
          ((exactMbrsList_iff cs).mp hcs c' hc') B' hB'
        exact ⟨s, hmem hc' hs, hsv.trans hface⟩
      · obtain ⟨c', hc', B', hB', hface⟩ := fold_face_uy cs B hfold
        obtain ⟨-, -, -, ⟨s, hs, hsv⟩⟩ := ih c' (hszrec c' hc')
          ((exactMbrsList_iff cs).mp hcs c' hc') B' hB'
        exact ⟨s, hmem hc' hs, hsv.trans hface⟩

/-- The MINMAXDIST guarantee: an exact envelope contains a payload within
its `min_max_dist_2` of the query point. -/
theorem minmax_exists (q : Pt) (c : RTreeNode) (hex : c.exactMbrs = true)
    (B : Box) (hB : c.mbr = some B) :
    ∃ s ∈ c.payloads, dist2 s q ≤ B.min_max_dist_2 q := by
  obtain ⟨hlx, hux, hly, huy⟩ := node_faces c.size c (le_refl _) hex B hB
  have hbounds : ∀ s ∈ c.payloads,
      B.lx ≤ s.x ∧ s.x ≤ B.ux ∧ B.ly ≤ s.y ∧ s.y ≤ B.uy := by
    intro s hs
    obtain ⟨B'', hB'', h1, h2, h3, h4⟩ :=
      payload_mbr_bounds q c.size c (le_refl _) hex s hs
    rw [hB] at hB''
    simp only [Option.some.injEq] at hB''
    subst hB''
    exact ⟨h1, h2, h3, h4⟩
  simp only [Box.min_max_dist_2]
  set rmx := if q.x ≤ (B.lx + B.ux) / 2 then B.lx else B.ux with hrmx
  set rMx := if q.x ≥ (B.lx + B.ux) / 2 then B.lx else B.ux with hrMx
  set rmy := if q.y ≤ (B.ly + B.uy) / 2 then B.ly else B.uy with hrmy
  set rMy := if q.y ≥ (B.ly + B.uy) / 2 then B.ly else B.uy with hrMy
  have harm1 : ∃ s ∈ c.payloads, dist2 s q ≤
      (q.x - rmx) * (q.x - rmx) + (q.y - rMy) * (q.y - rMy) := by
    have hsx : ∃ s ∈ c.payloads, s.x = rmx := by
      rw [hrmx]; split_ifs
      · exact hlx
      · exact hux
    obtain ⟨s, hs, hsx⟩ := hsx
    obtain ⟨h1, h2, h3, h4⟩ := hbounds s hs
    refine ⟨s, hs, ?_⟩
    simp only [dist2, Pt.sub, Pt.length_2]
    rw [← hsx]
    have hyy : (s.y - q.y) * (s.y - q.y) ≤ (q.y - rMy) * (q.y - rMy) := by
      rw [hrMy]; split_ifs with hcy
      · nlinarith [mul_nonneg
          (by linarith : (0 : S) ≤ 2 * q.y - B.ly - s.y)
          (by linarith : (0 : S) ≤ s.y - B.ly)]
      · have hcy' : q.y ≤ (B.ly + B.uy) / 2 := le_of_not_le hcy
        nlinarith [mul_nonneg
          (by linarith : (0 : S) ≤ B.uy - s.y)
          (by linarith : (0 : S) ≤ B.uy + s.y - 2 * q.y)]
    nlinarith [hyy]
  have harm2 : ∃ s ∈ c.payloads, dist2 s q ≤
      (q.x - rMx) * (q.x - rMx) + (q.y - rmy) * (q.y - rmy) := by
    have hsy : ∃ s ∈ c.payloads, s.y = rmy := by
      rw [hrmy]; split_ifs
      · exact hly
      · exact huy
    obtain ⟨s, hs, hsy⟩ := hsy
    obtain ⟨h1, h2, h3, h4⟩ := hbounds s hs
    refine ⟨s, hs, ?_⟩
    simp only [dist2, Pt.sub, Pt.length_2]
    rw [← hsy]
    have hxx : (s.x - q.x) * (s.x - q.x) ≤ (q.x - rMx) * (q.x - rMx) := by
      rw [hrMx]; split_ifs with hcx
      · nlinarith [mul_nonneg
          (by linarith : (0 : S) ≤ 2 * q.x - B.lx - s.x)
          (by linarith : (0 : S) ≤ s.x - B.lx)]
      · have hcx' : q.x ≤ (B.lx + B.ux) / 2 := le_of_not_le hcx
        nlinarith [mul_nonneg
          (by linarith : (0 : S) ≤ B.ux - s.x)
          (by linarith : (0 : S) ≤ B.ux + s.x - 2 * q.x)]
    nlinarith [hxx]
  rcases le_total ((q.x - rmx) * (q.x - rmx) + (q.y - rMy) * (q.y - rMy))
    ((q.x - rMx) * (q.x - rMx) + (q.y - rmy) * (q.y - rmy)) with h | h
  · obtain ⟨s, hs, hd⟩ := harm1
    exact ⟨s, hs, by rw [min_eq_left h]; exact hd⟩
  · obtain ⟨s, hs, hd⟩ := harm2
    exact ⟨s, hs, by rw [min_eq_right h]; exact hd⟩

/-- Some payload at least as close as `s'` is still reachable from the
heap. -/
def covered (q : Pt) (heap : Heap) (s' : Pt) : Prop :=
  ∃ e ∈ heap, ∃ s ∈ e.2.payloads, dist2 s q ≤ dist2 s' q

/-- The running `smallest_min_max` bound is honest: unless it is still the
`max_value` sentinel, some reachable payload is within it. -/
def mmOK (q : Pt) (heap : Heap) (mm : WithTop S) : Prop :=
  mm = ⊤ ∨
    ∃ e ∈ heap, ∃ s ∈ e.2.payloads, ((dist2 s q : S) : WithTop S) ≤ mm

theorem covered_mono {q : Pt} {heap : Heap} {s'' s' : Pt}
    (hle : dist2 s'' q ≤ dist2 s' q) (h : covered q heap s'') :
    covered q heap s' := by
  obtain ⟨e, he, s, hs, hd⟩ := h
  exact ⟨e, he, s, hs, le_trans hd hle⟩

/-- The behaviour of the pruning `extend_heap` of `nearest_neighbor`: the
heap only grows, by children of the scanned sequence; the honesty of the
bound is preserved (a witness may also be supplied by the scanned
sequence itself); and every payload below the scanned sequence remains
covered — its own node is pushed, or the node is pruned because the bound
witness is strictly closer. -/
theorem nnExtendHeap_main (q : Pt) :
    ∀ (cs : List RTreeNode) (heap : Heap) (mm : WithTop S),
      (∀ c ∈ cs, c.exactMbrs = true ∧ c.noEmptyParents = true) →
      (mmOK q heap mm ∨
        ∃ c ∈ cs, ∃ s ∈ c.payloads, ((dist2 s q : S) : WithTop S) ≤ mm) →
      (∀ e ∈ (nnExtendHeap q heap mm cs).1,
        e ∈ heap ∨ ∃ c ∈ cs, e = (childDistance q c, c)) ∧
      (∃ tail, (nnExtendHeap q heap mm cs).1 = heap ++ tail) ∧
      mmOK q (nnExtendHeap q heap mm cs).1 (nnExtendHeap q heap mm cs).2 ∧
      (∀ s', (covered q heap s' ∨ ∃ c ∈ cs, s' ∈ c.payloads) →
        covered q (nnExtendHeap q heap mm cs).1 s') := by
  intro cs
  induction cs with
  | nil =>
    intro heap mm hwf hin
    refine ⟨fun e he => Or.inl he, ⟨[], (List.append_nil heap).symm⟩, ?_, ?_⟩
    · rcases hin with hin | ⟨c, hc, -⟩
      · exact hin
      · simp at hc
    · intro s' hs'
      rcases hs' with hs' | ⟨c, hc, -⟩
      · exact hs'
      · simp at hc
  | cons c cs ih =>
    intro heap mm hwf hin
    obtain ⟨hexc, hnec⟩ := hwf c (List.mem_cons_self _ _)
    have hwf' : ∀ c' ∈ cs, c'.exactMbrs = true ∧ c'.noEmptyParents = true :=
      fun c' hc' => hwf c' (List.mem_cons_of_mem _ hc')
    have hclb : ∀ s ∈ c.payloads, childDistance q c ≤ dist2 s q := by
      intro s hs
      rw [childDistance_eq]
      exact payload_dist_lb q c.size c (le_refl _) hexc s hs
    by_cases hle : ((childDistance q c : S) : WithTop S) ≤ mm
    · have hstep : nnExtendHeap q heap mm (c :: cs) =
          nnExtendHeap q (heap ++ [(childDistance q c, c)])
            (min mm ((c.mbr.min_max_dist_2 q : S) : WithTop S)) cs := by
        simp only [nnExtendHeap]
        rw [if_pos hle]
      have hmm2 : mmOK q (heap ++ [(childDistance q c, c)])
            (min mm ((c.mbr.min_max_dist_2 q : S) : WithTop S)) ∨
          ∃ c' ∈ cs, ∃ s ∈ c'.payloads, ((dist2 s q : S) : WithTop S) ≤
            min mm ((c.mbr.min_max_dist_2 q : S) : WithTop S) := by
        rcases le_total mm ((c.mbr.min_max_dist_2 q : S) : WithTop S)
          with hmin | hmin
        · rw [min_eq_left hmin]
          rcases hin with hin | ⟨c₂, hc₂, s₂, hs₂, hd₂⟩
          · rcases hin with htop | ⟨e, he, s, hsp, hd⟩
            · exact Or.inl (Or.inl htop)
            · exact Or.inl (Or.inr
                ⟨e, List.mem_append_left _ he, s, hsp, hd⟩)
          · rcases List.mem_cons.mp hc₂ with rfl | hc₂
            · exact Or.inl (Or.inr ⟨(childDistance q c₂, c₂),
                List.mem_append_right _ (List.mem_singleton.mpr rfl),
                s₂, hs₂, hd₂⟩)
            · exact Or.inr ⟨c₂, hc₂, s₂, hs₂, hd₂⟩
        · rw [min_eq_right hmin]
          obtain ⟨B, hB⟩ := exact_noEmpty_mbr_some hexc hnec
          obtain ⟨s₃, hs₃, hd₃⟩ := minmax_exists q c hexc B hB
          refine Or.inl (Or.inr ⟨(childDistance q c, c),
            List.mem_append_right _ (List.mem_singleton.mpr rfl),
            s₃, hs₃, ?_⟩)
          rw [hB]
          show ((dist2 s₃ q : S) : WithTop S) ≤
            ((B.min_max_dist_2 q : S) : WithTop S)
          exact_mod_cast hd₃
      obtain ⟨ih1, ih2, ih3, ih4⟩ :=
        ih (heap ++ [(childDistance q c, c)]) _ hwf' hmm2
      rw [hstep]
      refine ⟨?_, ?_, ih3, ?_⟩
      · intro e he
        rcases ih1 e he with he | ⟨c', hc', rfl⟩
        · rcases List.mem_append.mp he with he | he
          · exact Or.inl he
          · rw [List.mem_singleton] at he
            subst he
            exact Or.inr ⟨c, List.mem_cons_self _ _, rfl⟩
        · exact Or.inr ⟨c', List.mem_cons_of_mem _ hc', rfl⟩
      · obtain ⟨tail, htail⟩ := ih2
        refine ⟨(childDistance q c, c) :: tail, ?_⟩
        rw [htail, List.append_assoc]
        rfl
      · intro s' hs'
        refine ih4 s' ?_
        rcases hs' with hcov | ⟨c', hc', hp⟩
        · left
          obtain ⟨e, he, s, hsp, hd⟩ := hcov
          exact ⟨e, List.mem_append_left _ he, s, hsp, hd⟩
        · rcases List.mem_cons.mp hc' with rfl | hc'
          · left
            exact ⟨(childDistance q c', c'),
              List.mem_append_right _ (List.mem_singleton.mpr rfl),
              s', hp, le_refl _⟩
          · right
            exact ⟨c', hc', hp⟩
    · have hstep : nnExtendHeap q heap mm (c :: cs) =
          nnExtendHeap q heap mm cs := by
        simp only [nnExtendHeap]
        rw [if_neg hle]
      have hmmne : mm ≠ ⊤ := by
        intro h
        rw [h] at hle
        exact hle le_top
      have hin' : mmOK q heap mm ∨
          ∃ c' ∈ cs, ∃ s ∈ c'.payloads,
            ((dist2 s q : S) : WithTop S) ≤ mm := by
        rcases hin with hin | ⟨c₂, hc₂, s₂, hs₂, hd₂⟩
        · exact Or.inl hin
        · rcases List.mem_cons.mp hc₂ with rfl | hc₂
          · exfalso
            refine hle (le_trans ?_ hd₂)
            exact_mod_cast hclb s₂ hs₂
          · exact Or.inr ⟨c₂, hc₂, s₂, hs₂, hd₂⟩
      obtain ⟨ih1, ih2, ih3, ih4⟩ := ih heap mm hwf' hin'
      rw [hstep]
      refine ⟨?_, ih2, ih3, ?_⟩
      · intro e he
        rcases ih1 e he with he | ⟨c', hc', rfl⟩
        · exact Or.inl he
        · exact Or.inr ⟨c', List.mem_cons_of_mem _ hc', rfl⟩
      · intro s' hs'
        rcases hs' with hcov | ⟨c', hc', hp⟩
        · exact ih4 s' (Or.inl hcov)
        · rcases List.mem_cons.mp hc' with rfl | hc'
          · have hmmlt : mm < ((childDistance q c' : S) : WithTop S) :=
              not_le.mp hle
            have hds' : ((childDistance q c' : S) : WithTop S) ≤
                ((dist2 s' q : S) : WithTop S) := by
              exact_mod_cast hclb s' hp
            rcases hin with hin | ⟨c₂, hc₂, s₂, hs₂, hd₂⟩
            · rcases hin with htop | ⟨e, he, s, hsp, hd⟩
              · exact absurd htop hmmne
              · refine covered_mono ?_
                  (ih4 s (Or.inl ⟨e, he, s, hsp, le_refl _⟩))
                have hc2 : ((dist2 s q : S) : WithTop S) ≤
                    ((dist2 s' q : S) : WithTop S) :=
                  le_trans hd (le_trans (le_of_lt hmmlt) hds')
                exact_mod_cast hc2
            · rcases List.mem_cons.mp hc₂ with rfl | hc₂
              · exfalso
                exact hle (le_trans (by exact_mod_cast hclb s₂ hs₂) hd₂)
              · refine covered_mono ?_ (ih4 s₂ (Or.inr ⟨c₂, hc₂, hs₂⟩))
                have hc2 : ((dist2 s₂ q : S) : WithTop S) ≤
                    ((dist2 s' q : S) : WithTop S) :=
                  le_trans hd₂ (le_trans (le_of_lt hmmlt) hds')
                exact_mod_cast hc2
          · exact ih4 s' (Or.inr ⟨c', hc', hp⟩)

/-- Correctness of the pruning best-first loop: a well-keyed heap of
exact, nonempty-parent subtrees with an honest bound yields a popped
payload that is sound and at least as close as anything covered; and a
nonempty heap always yields a result. -/
theorem nnLoop_correct (q : Pt) :
    ∀ (n : Nat) (heap : Heap) (mm : WithTop S), heapSize heap ≤ n →
      (∀ e ∈ heap, e.1 = childDistance q e.2 ∧ e.2.exactMbrs = true ∧
        e.2.noEmptyParents = true) →
      mmOK q heap mm →
      (∀ t, nnLoop q heap mm = some t →
        (∃ e ∈ heap, t ∈ e.2.payloads) ∧
        ∀ s', covered q heap s' → dist2 t q ≤ dist2 s' q) ∧
      (heap ≠ [] → ∃ t, nnLoop q heap mm = some t) := by
  intro n
  induction n with
  | zero =>
    intro heap mm hsz hK hW
    cases heap with
    | nil =>
      refine ⟨?_, fun hne => absurd rfl hne⟩
      intro t ht
      rw [nnLoop_pop_none popMin_nil] at ht
      exact absurd ht (by simp)
    | cons e es =>
      have := heapSize_pos (h := e :: es) (by simp)
      omega
  | succ n ih =>
    intro heap mm hsz hK hW
    cases hpop : popMin heap with
    | none =>
      have hnil := popMin_eq_none.mp hpop
      subst hnil
      refine ⟨?_, fun hne => absurd rfl hne⟩
      intro t ht
      rw [nnLoop_pop_none hpop] at ht
      exact absurd ht (by simp)
    | some pr =>
      obtain ⟨⟨d, nd⟩, rest⟩ := pr
      have hperm := popMin_perm hpop
      have hKtop := hK (d, nd) (hperm.mem_iff.mpr (List.mem_cons_self _ _))
      cases nd with
      | Leaf t0 =>
        have hloop : nnLoop q heap mm = some t0 := nnLoop_pop_leaf hpop
        constructor
        · intro t ht
          rw [hloop] at ht
          simp only [Option.some.injEq] at ht
          subst ht
          constructor
          · refine ⟨(d, .Leaf t0),
              hperm.mem_iff.mpr (List.mem_cons_self _ _), ?_⟩
            show t0 ∈ [t0]
            exact List.mem_singleton.mpr rfl
          · intro s' hcov
            obtain ⟨e, he, s, hs, hd2⟩ := hcov
            have h1 : d ≤ e.1 := by
              rcases List.mem_cons.mp (hperm.mem_iff.mp he) with rfl | hm
              · exact le_refl _
              · exact popMin_min hpop e hm
            have h2 : e.1 ≤ dist2 s q := by
              obtain ⟨hkey, hex, -⟩ := hK e he
              rw [hkey, childDistance_eq]
              exact payload_dist_lb q e.2.size e.2 (le_refl _) hex s hs
            have hd0 : d = dist2 t0 q := hKtop.1
            rw [← hd0]
            exact le_trans h1 (le_trans h2 hd2)
        · intro _
          exact ⟨t0, hloop⟩
      | Parent m cs =>
        have hloop : nnLoop q heap mm =
            nnLoop q (nnExtendHeap q rest mm cs).1
              (nnExtendHeap q rest mm cs).2 :=
          nnLoop_pop_parent hpop
        have hKrest : ∀ e ∈ rest, e.1 = childDistance q e.2 ∧
            e.2.exactMbrs = true ∧ e.2.noEmptyParents = true :=
          fun e he => hK e (hperm.mem_iff.mpr (List.mem_cons_of_mem _ he))
        obtain ⟨hdkey, hexP, hneP⟩ := hKtop
        have hexcs : RTreeNode.exactMbrsList cs = true :=
          ((exactMbrs_parent m cs).mp hexP).2
        have hnecs : RTreeNode.noEmptyParentsList cs = true :=
          ((noEmptyParents_parent m cs).mp hneP).2
        have hcswf : ∀ c ∈ cs, c.exactMbrs = true ∧
            c.noEmptyParents = true :=
          fun c hc => ⟨(exactMbrsList_iff cs).mp hexcs c hc,
            (noEmptyParentsList_iff cs).mp hnecs c hc⟩
        have hWin : mmOK q rest mm ∨
            ∃ c ∈ cs, ∃ s ∈ c.payloads,
              ((dist2 s q : S) : WithTop S) ≤ mm := by
          rcases hW with htop | ⟨e, he, s, hs, hd2⟩
          · exact Or.inl (Or.inl htop)
          · rcases List.mem_cons.mp (hperm.mem_iff.mp he) with rfl | hm
            · right
              have hs2 : s ∈ RTreeNode.payloadsList cs := hs
              obtain ⟨c, hc, hsc⟩ := mem_payloadsList.mp hs2
              exact ⟨c, hc, s, hsc, hd2⟩
            · exact Or.inl (Or.inr ⟨e, hm, s, hs, hd2⟩)
        obtain ⟨m1, m2, m3, m4⟩ := nnExtendHeap_main q cs rest mm hcswf hWin
        have hszext : heapSize (nnExtendHeap q rest mm cs).1 ≤ n := by
          have h1 := heapSize_nnExtendHeap q rest mm cs
          have h2 := popMin_parent_size hpop
          omega
        have hKext : ∀ e ∈ (nnExtendHeap q rest mm cs).1,
            e.1 = childDistance q e.2 ∧ e.2.exactMbrs = true ∧
              e.2.noEmptyParents = true := by
          intro e he
          rcases m1 e he with he | ⟨c, hc, rfl⟩
          · exact hKrest e he
          · exact ⟨rfl, (hcswf c hc).1, (hcswf c hc).2⟩
        obtain ⟨ihA, ihB⟩ := ih (nnExtendHeap q rest mm cs).1
          (nnExtendHeap q rest mm cs).2 hszext hKext m3
        constructor
        · intro t ht
          rw [hloop] at ht
          obtain ⟨hsound, hmin⟩ := ihA t ht
          constructor
          · obtain ⟨e, he, hte⟩ := hsound
            rcases m1 e he with he' | ⟨c, hc, rfl⟩
            · exact ⟨e, hperm.mem_iff.mpr (List.mem_cons_of_mem _ he'),
                hte⟩
            · refine ⟨(d, .Parent m cs),
                hperm.mem_iff.mpr (List.mem_cons_self _ _), ?_⟩
              show t ∈ RTreeNode.payloadsList cs
              exact mem_payloadsList.mpr ⟨c, hc, hte⟩
          · intro s' hcov
            refine hmin s' ?_
            obtain ⟨e, he, s, hs, hd2⟩ := hcov
            rcases List.mem_cons.mp (hperm.mem_iff.mp he) with rfl | hm
            · have hs2 : s ∈ RTreeNode.payloadsList cs := hs
              obtain ⟨c, hc, hsc⟩ := mem_payloadsList.mp hs2
              exact covered_mono hd2 (m4 s (Or.inr ⟨c, hc, hsc⟩))
            · refine ⟨e, ?_, s, hs, hd2⟩
              obtain ⟨tail, htail⟩ := m2
              rw [htail]
              exact List.mem_append_left _ hm
        · intro hne
          have hpne : RTreeNode.payloads (.Parent m cs) ≠ [] :=
            noEmpty_payloads_ne (RTreeNode.Parent m cs).size _
              (le_refl _) hneP
          obtain ⟨s₀, hs₀⟩ := List.exists_mem_of_ne_nil _ hpne
          have hs₀2 : s₀ ∈ RTreeNode.payloadsList cs := hs₀
          obtain ⟨c, hc, hsc⟩ := mem_payloadsList.mp hs₀2
          obtain ⟨e, he, -⟩ := m4 s₀ (Or.inr ⟨c, hc, hsc⟩)
          have hextne : (nnExtendHeap q rest mm cs).1 ≠ [] := by
            intro hcontra
            rw [hcontra] at he
            simp at he
          obtain ⟨t, htl⟩ := ihB hextne
          refine ⟨t, ?_⟩
          rw [hloop]
          exact htl

/-- **C1.**  On a non-empty tree whose nodes satisfy the MBR-exactness
invariant and whose parents all have children (as every insertion-built
tree does), `nearest_neighbor` returns `Some` payload whose `distance_2`
to the query point equals the minimum over all stored payloads — the
MINMAXDIST pruning never discards the closest payload, because the
running bound is always witnessed by a reachable payload at least as
close as anything pruned. -/
theorem C1_nearest_neighbor_min (root : ParentNodeData) (q : Pt)
    (hex : RTreeNode.exactMbrsList root.children = true)
    (hnoE : RTreeNode.noEmptyParentsList root.children = true)
    (hne : RTreeNode.payloadsList root.children ≠ []) :
    ∃ t, nearest_neighbor root q = some t ∧
      t ∈ RTreeNode.payloadsList root.children ∧
      ∀ s' ∈ RTreeNode.payloadsList root.children,
        dist2 t q ≤ dist2 s' q := by
  have hcswf : ∀ c ∈ root.children, c.exactMbrs = true ∧
      c.noEmptyParents = true :=
    fun c hc => ⟨(exactMbrsList_iff _).mp hex c hc,
      (noEmptyParentsList_iff _).mp hnoE c hc⟩
  obtain ⟨m1, m2, m3, m4⟩ := nnExtendHeap_main q root.children [] ⊤ hcswf
    (Or.inl (Or.inl rfl))
  have hKext : ∀ e ∈ (nnExtendHeap q [] ⊤ root.children).1,
      e.1 = childDistance q e.2 ∧ e.2.exactMbrs = true ∧
        e.2.noEmptyParents = true := by
    intro e he
    rcases m1 e he with he' | ⟨c, hc, rfl⟩
    · simp at he'
    · exact ⟨rfl, (hcswf c hc).1, (hcswf c hc).2⟩
  obtain ⟨ihA, ihB⟩ := nnLoop_correct q
    (heapSize (nnExtendHeap q [] ⊤ root.children).1)
    (nnExtendHeap q [] ⊤ root.children).1
    (nnExtendHeap q [] ⊤ root.children).2 (le_refl _) hKext m3
  obtain ⟨s₀, hs₀⟩ := List.exists_mem_of_ne_nil _ hne
  obtain ⟨c₀, hc₀, hsc₀⟩ := mem_payloadsList.mp hs₀
  obtain ⟨e₀, he₀, -⟩ := m4 s₀ (Or.inr ⟨c₀, hc₀, hsc₀⟩)
  have hextne : (nnExtendHeap q [] ⊤ root.children).1 ≠ [] := by
    intro hcontra
    rw [hcontra] at he₀
    simp at he₀
  obtain ⟨t, ht⟩ := ihB hextne
  refine ⟨t, ht, ?_, ?_⟩
  · obtain ⟨⟨e, he, hte⟩, -⟩ := ihA t ht
    rcases m1 e he with he' | ⟨c, hc, rfl⟩
    · simp at he'
    · exact mem_payloadsList.mpr ⟨c, hc, hte⟩
  · intro s' hs'
    obtain ⟨-, hmin⟩ := ihA t ht
    obtain ⟨c', hc', hsc'⟩ := mem_payloadsList.mp hs'
    exact hmin s' (m4 s' (Or.inr ⟨c', hc', hsc'⟩))

/-- A small parent whose children are out of distance order from the
origin. -/
def nodeC2 : ParentNodeData :=
  ⟨RTreeNode.mbr_for_children [leafP 0 0, leafP 3 0, leafP 1 0],
   [leafP 0 0, leafP 3 0, leafP 1 0]⟩

/-- A concrete two-level tree for exercising the single-result search. -/
def nodeC1 : ParentNodeData :=
  ⟨RTreeNode.mbr_for_children
     [.Parent (RTreeNode.mbr_for_children [leafP 0 0, leafP 1 0])
        [leafP 0 0, leafP 1 0],
      .Parent (RTreeNode.mbr_for_children [leafP 5 0, leafP 6 0])
        [leafP 5 0, leafP 6 0]],
   [.Parent (RTreeNode.mbr_for_children [leafP 0 0, leafP 1 0])
      [leafP 0 0, leafP 1 0],
    .Parent (RTreeNode.mbr_for_children [leafP 5 0, leafP 6 0])
      [leafP 5 0, leafP 6 0]]⟩

/-- Closed instance of the C1 theorem on a concrete two-level tree. -/
theorem C1_nearest_neighbor_min_witness :
    (RTreeNode.exactMbrsList nodeC1.children = true ∧
      RTreeNode.noEmptyParentsList nodeC1.children = true ∧
      RTreeNode.payloadsList nodeC1.children ≠ []) ∧
    ∃ t, nearest_neighbor nodeC1 ⟨2, 0⟩ = some t ∧
      t ∈ RTreeNode.payloadsList nodeC1.children ∧
      ∀ s' ∈ RTreeNode.payloadsList nodeC1.children,
        dist2 t ⟨2, 0⟩ ≤ dist2 s' ⟨2, 0⟩ :=
  ⟨⟨by decide, by decide, by decide⟩,
   C1_nearest_neighbor_min nodeC1 ⟨2, 0⟩ (by decide) (by decide) (by decide)⟩

/-- Closed instance of the C2 theorem on a concrete tree and query. -/
theorem C2_nn_iter_sorted_perm_witness :
    RTreeNode.exactMbrsList nodeC2.children = true ∧
      (List.Chain' (fun a c => dist2 a ⟨0, 0⟩ ≤ dist2 c ⟨0, 0⟩)
        (nearest_neighbor_iter nodeC2 ⟨0, 0⟩) ∧
      (nearest_neighbor_iter nodeC2 ⟨0, 0⟩).Perm
        (RTreeNode.payloadsList nodeC2.children)) :=
  ⟨by decide, C2_nn_iter_sorted_perm nodeC2 ⟨0, 0⟩ (by decide)⟩

end RStar
